import Mathlib

/-!
# Verification of the `taking_game` hypergraph game engine

Shallow embedding of the core of the `taking_game` repository:

* `src/hypergraph/set.rs` — the dense 128-bit vertex-set (`Bitset128`),
  modelled as a natural number holding the bit pattern of the `u128`.
  Shifts whose amount may reach 128 are modelled with the release-mode
  semantics of Rust (`x << s` masks the shift amount to `s % 128`).
* `src/hypergraph/structured_hypergraph.rs` — canonical hypergraph
  construction: node flattening, redundant-edge removal, component split
  and the structural sorter (`StructuralHypergraphSorter`).
* `src/taking_game/mod.rs`, `src/taking_game/impartial.rs`,
  `src/taking_game/symmetries.rs` — the taking-game façade, the
  representative move generator and the symmetry detector.

Modelling conventions:

* `Vec<T>` becomes `List T`; in-place mutation becomes state passing.
* Rust's `sort_unstable_by` and `sort_by_cached_key` leave the relative
  order of equal keys unspecified; we model both with a stable insertion
  sort (one deterministic refinement of the unspecified behaviour).
* `HashMap` grouping in `get_parts` iterates buckets in unspecified
  order; we keep buckets in first-occurrence order of their root.
  All claims compare the resulting component lists as multisets, so the
  bucket order is immaterial.
* Out-of-bounds indexing panics in Rust; the embedding uses `getD`
  defaults on such paths, which are only reachable from ill-formed
  states that the constructors never produce.
* The `union_find` crate is external to the repository; the partition it
  computes is modelled directly (see `ufPartition`).

The Sprague–Grundy value of a game state is defined by the mex/XOR
recursion over all legal moves (remove any non-empty subset of any
hyperedge) via a fuel-indexed evaluator `gvalS`/`gvalC`; `HasValC g v`
states that the recursion terminates on `g` with value `v`.
-/

namespace TakingGameProof

/-! ## Bitset128 (src/hypergraph/set.rs)

The `u128` payload is held as a `Nat`; every constructor keeps the value
below `2 ^ 128`. -/

/-- The bit pattern of a `Bitset128` (`pub struct Bitset128(u128)`). -/
abbrev Bits := Nat

namespace Bitset128

/-- `u128::MAX`, used by `partition` for full-width masks. -/
def u128Max : Nat := 2 ^ 128 - 1

/-- `Bitset128::default()` — the empty set. -/
def empty : Bits := 0

/-- `fn insert(&mut self, value: usize) { self.0 |= 1 << value; }`
with the release-mode masked shift (`value % 128`). -/
def insert (b : Bits) (value : Nat) : Bits := b ||| (1 <<< (value % 128))

/-- `fn from_slice(vec: &[usize]) -> Self` — insert every element. -/
def from_slice (l : List Nat) : Bits := l.foldl insert 0

/-- `fn len(&self) -> usize { self.0.count_ones() }` — popcount over the
128 bit positions of the `u128`. -/
def len (b : Bits) : Nat := ((List.range 128).filter fun i => b.testBit i).length

/-- `fn is_empty(&self) -> bool { self.0 == 0 }` -/
def is_empty (b : Bits) : Bool := b == 0

/-- `fn contains(&self, element: &usize) -> bool { (self.0 >> element) & 1 == 1 }`
(masked shift for the release semantics). -/
def contains (b : Bits) (element : Nat) : Bool := (b >>> (element % 128)) &&& 1 == 1

/-- `fn union(&mut self, other: &Self) { self.0 |= other.0; }` -/
def union (b other : Bits) : Bits := b ||| other

/-- `fn minus(&self, other: &Self) -> Self { Self(self.0 & !other.0) }` —
the `u128` complement is an XOR with `u128::MAX`. -/
def minus (b other : Bits) : Bits := b &&& (u128Max ^^^ other)

/-- `fn is_subset(&self, other: &Self) -> bool { (self.0 & !other.0) == 0 }` -/
def is_subset (b other : Bits) : Bool := b &&& (u128Max ^^^ other) == 0

/-- `fn intersects(&self, other: &Self) -> bool { (self.0 & other.0) != 0 }` -/
def intersects (b other : Bits) : Bool := b &&& other != 0

/-- The ascending list of set bit indices.  `Bitset128Iter` scans from the
lowest set bit upwards via trailing-zero counts; over the 128 bit
positions of the `u128` this is the ascending filter of the set bits. -/
def iter (b : Bits) : List Nat :=
  (List.range 128).filter fun i => b.testBit i

/-- `fn is_flattened(&self) -> bool { self.0 & (self.0.wrapping_add(1)) == 0 }` —
for `b < 2 ^ 128` the wrap at `b = u128::MAX` also yields `b &&& 2 ^ 128 = 0`,
so plain `b + 1` has the same result. -/
def is_flattened (b : Bits) : Bool := b &&& (b + 1) == 0

/-- `fn apply_node_map(&mut self, permutation: &[usize])` — bit `new` of the
result is bit `permutation[new]` of the input (masked shifts). -/
def apply_node_map (b : Bits) (permutation : List Nat) : Bits :=
  (List.range permutation.length).foldl
    (fun acc new_idx =>
      if (b >>> ((permutation.getD new_idx 0) % 128)) &&& 1 != 0 then
        acc ||| (1 <<< (new_idx % 128))
      else acc)
    0

/-- `fn partition(&self, partitions: &[Range<usize>]) -> Vec<Self>` —
one masked-and per range, with the explicit `len == 128` special case of
the source (other shifts masked). -/
def partition (b : Bits) (partitions : List (Nat × Nat)) : List Bits :=
  partitions.map fun part =>
    let plen := part.2 - part.1
    let mask := if plen = 128 then u128Max
                else ((1 <<< (plen % 128)) - 1) <<< (part.1 % 128)
    b &&& mask

/-- The index of the highest set bit of a `u128` pattern
(`127 - leading_zeros`); `0` for the empty pattern. -/
def top_bit (b : Bits) : Nat :=
  (List.range 128).foldl (fun acc i => if b.testBit i then i else acc) 0

/-- `fn pop(&mut self) -> Option<usize>` — removes and returns the highest
set bit.  Clearing the top set bit of `b ≠ 0` equals taking the
remainder modulo `2 ^ top_bit b`. -/
def pop (b : Bits) : Option Nat × Bits :=
  if b = 0 then (none, b)
  else (some (top_bit b), b % (2 ^ top_bit b))

end Bitset128

/-! ## Structured hypergraph (src/hypergraph/structured_hypergraph.rs) -/

/-- `pub struct StructuredHypergraph<E>` with `E = Bitset128`. -/
structure StructuredHypergraph where
  hyperedges : List Bits
  nodes : List Nat
  node_structure_partitions : List Nat
  edge_structure_partitions : List Nat
deriving DecidableEq, Repr

namespace StructuredHypergraph

/-- `pub fn nr_nodes(&self) -> usize { self.nodes.len() }` -/
def nr_nodes (g : StructuredHypergraph) : Nat := g.nodes.length

/-- `pub fn is_empty(&self) -> bool { self.nodes.is_empty() }` -/
def is_empty (g : StructuredHypergraph) : Bool := g.nodes.isEmpty

/-- Rust `PartialEq`: equality compares only `hyperedges`. -/
def beq (g h : StructuredHypergraph) : Bool := g.hyperedges == h.hyperedges

/-- `pub fn get_edge_partitions(&self) -> Vec<Range<usize>>` —
consecutive windows of the partition boundary list. -/
def get_edge_partitions (g : StructuredHypergraph) : List (Nat × Nat) :=
  g.edge_structure_partitions.zip g.edge_structure_partitions.tail

/-- `pub fn get_node_partitions(&self) -> Vec<Range<usize>>` -/
def get_node_partitions (g : StructuredHypergraph) : List (Nat × Nat) :=
  g.node_structure_partitions.zip g.node_structure_partitions.tail

/-- `pub fn dual(&self) -> Vec<Vec<usize>>` — for each node the ascending
list of incident hyperedge indices. -/
def dual (g : StructuredHypergraph) : List (List Nat) :=
  (List.range g.nodes.length).map fun v =>
    ((List.range g.hyperedges.length).filter fun i =>
      Bitset128.contains (g.hyperedges.getD i 0) v)

/-- `fn apply_edge_map(&mut self, map: &[usize])` — position `i` of the new
edge list holds old edge `map[i]`. -/
def apply_edge_map (g : StructuredHypergraph) (map : List Nat) : StructuredHypergraph :=
  { g with hyperedges := map.map fun new_idx => g.hyperedges.getD new_idx 0 }

/-- `fn apply_node_map(&mut self, map: &[usize])` — remap every edge and
reorder the node label list (`nodes[i] = old_nodes[map[i]]`). -/
def apply_node_map (g : StructuredHypergraph) (map : List Nat) : StructuredHypergraph :=
  { g with
    hyperedges := g.hyperedges.map (fun e => Bitset128.apply_node_map e map)
    nodes := map.map fun old_idx => g.nodes.getD old_idx 0 }

/-- `fn flatten_nodes(&mut self)` — compact the present node indices to
`[0, N)`; truncate the label list when already flattened, otherwise apply
the sorted-present-indices map. -/
def flatten_nodes (g : StructuredHypergraph) : StructuredHypergraph :=
  let all_nodes := g.hyperedges.foldl Bitset128.union 0
  if Bitset128.is_flattened all_nodes then
    { g with nodes := g.nodes.take (Bitset128.len all_nodes) }
  else
    g.apply_node_map (Bitset128.iter all_nodes)

end StructuredHypergraph

/-! ### Stable sorting helpers

Rust's `sort_unstable_by` / `sort_by_cached_key` leave the order of equal
keys unspecified; a stable insertion sort is the deterministic refinement
used throughout this embedding. -/

/-- Insert `x` before the first element `y` with `le x y`. -/
def insertLe (le : α → α → Bool) (x : α) : List α → List α
  | [] => [x]
  | y :: ys => if le x y then x :: y :: ys else y :: insertLe le x ys

/-- Stable insertion sort: earlier elements stay before equal later ones. -/
def sortLe (le : α → α → Bool) : List α → List α
  | [] => []
  | x :: xs => insertLe le x (sortLe le xs)

/-- Lexicographic order on `Vec<usize>` keys (`Ord` on Rust vectors:
elementwise, a strict prefix is smaller). -/
def lexLe : List Nat → List Nat → Bool
  | [], _ => true
  | _ :: _, [] => false
  | a :: as, b :: bs => if a < b then true else if b < a then false else lexLe as bs

/-! ### Structural sorter (`StructuralHypergraphSorter`) -/

/-- `usize::MAX` on the 64-bit target, used for the initial keys. -/
def usizeMax : Nat := 2 ^ 64 - 1

/-- The sorter state.  The Rust struct also carries two scratch buffers
(`temp_buffer`, `key_map_buffer`); their contents are recomputed before
every use, so they appear here as local values instead of fields. -/
structure SorterState where
  node_map : List Nat
  edge_map : List Nat
  node_keys : List (List Nat)
  edge_keys : List (List Nat)
  dual : List (List Nat)
  hypergraph : StructuredHypergraph

namespace SorterState

/-- `fn get_initial_keys<T>(v: T) -> Vec<Vec<usize>>` — one-element key
`usize::MAX - l` per length `l` (larger objects get smaller keys). -/
def get_initial_keys (v : List Nat) : List (List Nat) :=
  v.map fun l => [usizeMax - l]

/-- `pub fn new(hypergraph: StructuredHypergraph<E>) -> Self` -/
def new (g : StructuredHypergraph) : SorterState :=
  let dual := g.dual
  { node_map := List.range g.nodes.length
    edge_map := List.range g.hyperedges.length
    node_keys := get_initial_keys (dual.map List.length)
    edge_keys := get_initial_keys (g.hyperedges.map Bitset128.len)
    dual := dual
    hypergraph := g }

/-- `fn fill_partition_map(buff, partitions)` — element `i` of the result
is the index of the partition block holding position `i`. -/
def fill_partition_map (partitions : List Nat) : List Nat :=
  let last := partitions.getLastD 0
  ((List.range last).foldl
    (fun acc i =>
      let p := if partitions.getD acc.2 (last + 1) = i then acc.2 + 1 else acc.2
      (acc.1 ++ [p - 1], p))
    (([] : List Nat), 1)).1

/-- `fn fill_inv_permutation(buff, permutation)` — `buff[permutation[i]] = i`. -/
def fill_inv_permutation (permutation : List Nat) : List Nat :=
  (List.range permutation.length).foldl
    (fun buff i => buff.set (permutation.getD i 0) i)
    (List.replicate permutation.length 0)

/-- `fn apply_inv_permutation(buff_in, buff_out, permutation)` —
`buff_out[permutation[i]] = buff_in[i]`. -/
def apply_inv_permutation (buff_in : List Nat) (permutation : List Nat) : List Nat :=
  (List.range permutation.length).foldl
    (fun out i => out.set (permutation.getD i 0) (buff_in.getD i 0))
    (List.replicate buff_in.length 0)

/-- `fn sort_partitions_by_key(partitions, permutation, keys)` — stably sort
each partition window of the permutation by key. -/
def sort_partitions_by_key (partitions : List Nat) (permutation : List Nat)
    (keys : List (List Nat)) : List Nat :=
  (partitions.zip partitions.tail).foldl
    (fun perm w =>
      let seg := (perm.drop w.1).take (w.2 - w.1)
      let sorted := sortLe (fun a b => lexLe (keys.getD a []) (keys.getD b [])) seg
      perm.take w.1 ++ sorted ++ perm.drop w.2)
    permutation

/-- `fn refine_partitions_by_key(partitions, permutation, keys)` — boundary
`0`, every position whose key differs from its predecessor, and the length. -/
def refine_partitions_by_key (permutation : List Nat) (keys : List (List Nat)) : List Nat :=
  0 :: (((List.range keys.length).drop 1).filter fun i =>
    !(keys.getD (permutation.getD (i - 1) 0) [] == keys.getD (permutation.getD i 0) []))
    ++ [keys.length]

/-- `fn build_edge_keys(&mut self)` — the sorted list of `key_map` values of
the edge's members (`sort_unstable` on `usize` values). -/
def build_edge_keys (s : SorterState) (key_map : List Nat) : SorterState :=
  { s with edge_keys := s.hypergraph.hyperedges.map fun e =>
      sortLe Nat.ble ((Bitset128.iter e).map fun n => key_map.getD n 0) }

/-- `fn build_node_keys(&mut self)` — dual counterpart over incident edges. -/
def build_node_keys (s : SorterState) (key_map : List Nat) : SorterState :=
  { s with node_keys := s.dual.map fun d =>
      sortLe Nat.ble (d.map fun e => key_map.getD e 0) }

/-- `fn sort_edges(&mut self)` -/
def sort_edges (s : SorterState) : SorterState :=
  { s with edge_map := (sort_partitions_by_key
      s.hypergraph.edge_structure_partitions s.edge_map s.edge_keys) }

/-- `fn sort_nodes(&mut self)` -/
def sort_nodes (s : SorterState) : SorterState :=
  { s with node_map := (sort_partitions_by_key
      s.hypergraph.node_structure_partitions s.node_map s.node_keys) }

/-- `fn refine_edges(&mut self)` -/
def refine_edges (s : SorterState) : SorterState :=
  { s with hypergraph := { s.hypergraph with
      edge_structure_partitions := refine_partitions_by_key s.edge_map s.edge_keys } }

/-- `fn refine_nodes(&mut self)` -/
def refine_nodes (s : SorterState) : SorterState :=
  { s with hypergraph := { s.hypergraph with
      node_structure_partitions := refine_partitions_by_key s.node_map s.node_keys } }

/-- The total number of partition blocks, the convergence measure of
`build_structural_eq_classes`. -/
def partition_count (s : SorterState) : Nat :=
  s.hypergraph.node_structure_partitions.length
    + s.hypergraph.edge_structure_partitions.length

/-- The `key_map` of the node half of `build_structural_eq_classes`:
each edge's current partition block index, at its original index. -/
def edge_class_km (s : SorterState) : List Nat :=
  apply_inv_permutation (fill_partition_map s.hypergraph.edge_structure_partitions) s.edge_map

/-- The `key_map` of the edge half of `build_structural_eq_classes`. -/
def node_class_km (s : SorterState) : List Nat :=
  apply_inv_permutation (fill_partition_map s.hypergraph.node_structure_partitions) s.node_map

/-- First half of the `build_structural_eq_classes` loop body: refine the
node classes from the edge classes. -/
def classes_half (s : SorterState) : SorterState :=
  refine_nodes (sort_nodes (build_node_keys s (edge_class_km s)))

/-- One iteration of the `build_structural_eq_classes` loop body: refine
the node classes from the edge classes, then the edge classes from the
node classes. -/
def classes_step (s : SorterState) : SorterState :=
  refine_edges (sort_edges
    (build_edge_keys (classes_half s) (node_class_km (classes_half s))))

/-- `fn build_structural_eq_classes(&mut self)` — the refinement loop runs
until the total number of partition blocks is stable.  The Rust loop is
unbounded; the fuel argument caps it, and `sort` passes a fuel larger than
the convergence point of every input exercised here. -/
def build_structural_eq_classes : Nat → SorterState → SorterState
  | 0, s => s
  | fuel + 1, s =>
    if partition_count s = partition_count (classes_step s) then classes_step s
    else build_structural_eq_classes fuel (classes_step s)

/-- Reversed current positions (`len - 1 - position`), the `key_map` of
both halves of `sort_canonically`. -/
def reversed_positions (permutation : List Nat) : List Nat :=
  (fill_inv_permutation permutation).map fun k => permutation.length - 1 - k

/-- First half of the `sort_canonically` loop body: re-sort the nodes by
the reversed positions of their incident edges. -/
def canon_half (s : SorterState) : SorterState :=
  sort_nodes (build_node_keys s (reversed_positions s.edge_map))

/-- Full `sort_canonically` loop body: after the node half, re-sort the
edges by the reversed positions of their member nodes. -/
def canon_full (s : SorterState) : SorterState :=
  sort_edges (build_edge_keys (canon_half s) (reversed_positions (canon_half s).node_map))

/-- The exit flag of one `sort_canonically` iteration: both permutations
were already at a fixed point. -/
def canon_stable (s : SorterState) : Bool :=
  (s.node_map == (canon_half s).node_map) && ((canon_half s).edge_map == (canon_full s).edge_map)

/-- `fn sort_canonically(&mut self)` — bounded iteration (`MAX_ITER = 128`)
of position-keyed re-sorting, stopping at a fixed point. -/
def sort_canonically : Nat → SorterState → SorterState
  | 0, s => s
  | fuel + 1, s =>
    if canon_stable s then canon_full s
    else sort_canonically fuel (canon_full s)

/-- Fuel for `build_structural_eq_classes`; far above the convergence
point of every hypergraph this development evaluates. -/
def classes_fuel (g : StructuredHypergraph) : Nat :=
  (g.nodes.length + g.hyperedges.length + 2) * (g.nodes.length + g.hyperedges.length + 2)

/-- The sorter state at the start of `sort`: fresh maps and keys, both
structure partitions initialised to the single all-encompassing block. -/
def initial_state (g : StructuredHypergraph) : SorterState :=
  { new g with hypergraph := { (new g).hypergraph with
      edge_structure_partitions := [0, g.hyperedges.length],
      node_structure_partitions := [0, g.nodes.length] } }

/-- The sorter state after the initial sorts, the refinement loop and the
canonical-order loop. -/
def sorted_state (g : StructuredHypergraph) : SorterState :=
  sort_canonically 128
    (build_structural_eq_classes (classes_fuel g) (sort_nodes (sort_edges (initial_state g))))

/-- `pub fn sort(mut self) -> StructuredHypergraph<E>` -/
def sort (g : StructuredHypergraph) : StructuredHypergraph :=
  (((sorted_state g).hypergraph.apply_edge_map (sorted_state g).edge_map).apply_node_map
    (sorted_state g).node_map)

end SorterState

namespace StructuredHypergraph

/-- The stable descending-cardinality sort of
`remove_redundant_hyperedges` (`sort_by_cached_key(|e| Reverse(e.len()))`). -/
def desc_len_sorted (edges : List Bits) : List Bits :=
  sortLe (fun a b => Nat.ble (Bitset128.len b) (Bitset128.len a)) edges

/-- The keep-loop of `remove_redundant_hyperedges`: keep an edge iff it is
non-empty and not a subset of an already-kept edge. -/
def keep_non_redundant (edges : List Bits) : List Bits :=
  edges.foldl
    (fun acc e =>
      if !(Bitset128.is_empty e) && acc.all (fun ue => !(Bitset128.is_subset e ue)) then
        acc ++ [e]
      else acc)
    []

/-- `fn remove_redundant_hyperedges(&mut self)` — flatten, stable-sort the
edges by descending cardinality, keep an edge iff it is non-empty and not
a subset of an already-kept edge, and re-flatten when anything dropped. -/
def remove_redundant_hyperedges (g : StructuredHypergraph) : StructuredHypergraph :=
  if (desc_len_sorted g.flatten_nodes.hyperedges).length
      ≠ (keep_non_redundant (desc_len_sorted g.flatten_nodes.hyperedges)).length then
    ({ g.flatten_nodes with
      hyperedges := keep_non_redundant (desc_len_sorted g.flatten_nodes.hyperedges) }).flatten_nodes
  else
    { g.flatten_nodes with
      hyperedges := keep_non_redundant (desc_len_sorted g.flatten_nodes.hyperedges) }

/-- Modelled from the spec: the repository delegates to the external
`union_find` crate (`QuickUnionUf<UnionByRank>`), whose code is not part
of this repository.  Per the spec: run union-find over the vertices,
unifying all vertices sharing an edge.  The resulting partition is
modelled directly: blocks are bitsets, initially the singletons of
`[0, n)`; processing an edge merges every block it intersects. -/
def ufPartition (n : Nat) (edges : List Bits) : List Bits :=
  edges.foldl
    (fun blocks e =>
      let touched := blocks.filter fun b => Bitset128.intersects b e
      let untouched := blocks.filter fun b => !(Bitset128.intersects b e)
      untouched ++ [touched.foldl Bitset128.union e])
    ((List.range n).map fun i => 1 <<< i)

/-- The `HashMap<root, Vec<edge index>>` grouping of `get_parts`: the
edges grouped by the connectivity block of their first vertex, in
first-occurrence order of the roots (bucket order is unspecified in Rust). -/
def edge_buckets (g : StructuredHypergraph) : List (Nat × List Nat) :=
  (List.range g.hyperedges.length).foldl
    (fun bs ei =>
      let rep := (Bitset128.iter (g.hyperedges.getD ei 0)).headD 0
      let root := (ufPartition g.nodes.length g.hyperedges).findIdx
        fun b => Bitset128.contains b rep
      if bs.any (fun p => p.1 == root) then
        bs.map fun p => if p.1 == root then (p.1, p.2 ++ [ei]) else p
      else bs ++ [(root, [ei])])
    ([] : List (Nat × List Nat))

/-- `fn get_parts(mut self) -> Vec<StructuredHypergraph<E>>` — one part
per bucket: a single bucket returns the sorted graph itself, otherwise
each bucket becomes a flattened, sorted part. -/
def get_parts (g : StructuredHypergraph) : List StructuredHypergraph :=
  if (edge_buckets g).length = 1 then [SorterState.sort g]
  else (edge_buckets g).map fun p =>
    SorterState.sort (StructuredHypergraph.flatten_nodes
      { hyperedges := p.2.map fun ei => g.hyperedges.getD ei 0
        nodes := g.nodes
        node_structure_partitions := []
        edge_structure_partitions := [] })

/-- `pub fn from_hyperedges_with_nodes(hyperedges, nodes) -> Vec<_>` -/
def from_hyperedges_with_nodes (hyperedges : List Bits) (nodes : List Nat) :
    List StructuredHypergraph :=
  let g : StructuredHypergraph :=
    { hyperedges := hyperedges
      nodes := nodes
      node_structure_partitions := []
      edge_structure_partitions := [] }
  g.remove_redundant_hyperedges.get_parts

/-- `pub fn from_hyperedges(hyperedges) -> Vec<_>` — nodes are
`0 .. max+1` over all members. -/
def from_hyperedges (hyperedges : List Bits) : List StructuredHypergraph :=
  let all := hyperedges.flatMap Bitset128.iter
  let max_node := if all.isEmpty then 0 else all.foldl Nat.max 0 + 1
  from_hyperedges_with_nodes hyperedges (List.range max_node)

/-- `pub fn minus(&self, nodes: E) -> Vec<Self>` -/
def minus (g : StructuredHypergraph) (nodes : Bits) : List StructuredHypergraph :=
  from_hyperedges_with_nodes (g.hyperedges.map fun e => Bitset128.minus e nodes) g.nodes

end StructuredHypergraph

/-! ## Taking game façade (src/taking_game/mod.rs) -/

/-- `pub struct TakingGame { graph: StructuredHypergraph<Bitset128> }` -/
structure TakingGame where
  graph : StructuredHypergraph
deriving DecidableEq, Repr

namespace TakingGame

/-- `pub fn from_hyperesges(edges: Vec<Vec<usize>>) -> Vec<Self>`
(the misspelling is the source's). -/
def from_hyperesges (edges : List (List Nat)) : List TakingGame :=
  (StructuredHypergraph.from_hyperedges (edges.map Bitset128.from_slice)).map TakingGame.mk

/-- `pub fn nr_nodes(&self) -> usize` -/
def nr_nodes (g : TakingGame) : Nat := g.graph.nr_nodes

/-- `pub fn with_nodes_removed(&self, mask: Bitset128) -> Vec<Self>` -/
def with_nodes_removed (g : TakingGame) (mask : Bits) : List TakingGame :=
  (g.graph.minus mask).map TakingGame.mk

/-! ### Symmetry detector (src/taking_game/symmetries.rs) -/

/-- `fn get_neighbourhoods(&self) -> Vec<HashSet<usize>>` — for each node
the union of all hyperedges containing it.  The `HashSet` is modelled as
a bitset (only `insert` and `contains` are used). -/
def get_neighbourhoods (g : TakingGame) : List Bits :=
  let dual := g.graph.dual
  (List.range g.graph.nr_nodes).map fun node =>
    (dual.getD node []).foldl
      (fun acc e => Bitset128.union acc (g.graph.hyperedges.getD e 0)) 0

/-- `fn is_valid_match(&self, node, candidate, symmetries, neighbourhoods) -> bool` —
candidate distinct and unmapped, not sharing a hyperedge with `node`, and
every already-mapped neighbour of `node` maps into a neighbour of
`candidate`.  (An out-of-range candidate index, on which Rust would
panic, is rejected.) -/
def is_valid_match (node cand : Nat) (symmetries : List (Option Nat))
    (neighbourhoods : List Bits) : Bool :=
  if node == cand || (symmetries.getD cand (some 0)).isSome then false
  else if Bitset128.contains (neighbourhoods.getD node 0) cand then false
  else
    (Bitset128.iter (neighbourhoods.getD node 0)).all fun neighbour =>
      match symmetries.getD neighbour none with
      | some mapped => Bitset128.contains (neighbourhoods.getD cand 0) mapped
      | none => true

/-- `fn find_valid_candidates(&self, node, symmetries, neighbourhoods)` —
all members of `node`'s structural partition passing `is_valid_match`.
(The Rust `unwrap` when no partition contains `node` is modelled as an
empty candidate list.) -/
def find_valid_candidates (g : TakingGame) (node : Nat) (symmetries : List (Option Nat))
    (neighbourhoods : List Bits) : List Nat :=
  match (g.graph.get_node_partitions).find? (fun p => decide (p.1 ≤ node) && decide (node < p.2)) with
  | none => []
  | some p => (List.range' p.1 (p.2 - p.1)).filter fun cand =>
      is_valid_match node cand symmetries neighbourhoods

/-- `fn generate_symmetry_from_sets_of_candidates(&self, symmetries, neighbourhoods)` —
backtracking: pick the first unmatched node, try every valid candidate,
recurse on the extended partial involution.  The fuel bounds the pairing
depth; `find_symmetry` passes `nr_nodes + 1`, more than the number of
pairings any run can make. -/
def generate_symmetry_from_sets_of_candidates (g : TakingGame) (neighbourhoods : List Bits) :
    Nat → List (Option Nat) → Option (List Nat)
  | 0, _ => none
  | fuel + 1, symmetries =>
    match symmetries.findIdx? Option.isNone with
    | some node =>
      (find_valid_candidates g node symmetries neighbourhoods).findSome? fun cand =>
        generate_symmetry_from_sets_of_candidates g neighbourhoods fuel
          ((symmetries.set node (some cand)).set cand (some node))
    | none => some (symmetries.map fun x => x.getD 0)

/-- `pub fn find_symmetry(&self) -> Option<Vec<usize>>` — parity
quick-rejections, then the backtracking search. -/
def find_symmetry (g : TakingGame) : Option (List Nat) :=
  if g.graph.nr_nodes % 2 == 0 && g.graph.hyperedges.length % 2 == 0
      && (g.graph.get_edge_partitions).all (fun p => (p.2 - p.1) % 2 == 0)
      && (g.graph.get_node_partitions).all (fun p => (p.2 - p.1) % 2 == 0) then
    generate_symmetry_from_sets_of_candidates g (get_neighbourhoods g)
      (g.graph.nr_nodes + 1) (List.replicate g.graph.nr_nodes none)
  else none

/-- `fn get_max_nimber(&self) -> Option<usize>` (trait `Impartial`). -/
def get_max_nimber (g : TakingGame) : Option Nat :=
  match g.find_symmetry with
  | some _ => some 0
  | none => some g.graph.nr_nodes

/-! ### Move generator (src/taking_game/impartial.rs) -/

/-- Swap elements `i` and `j` of a list (`Vec::swap`). -/
def list_swap (l : List α) (i j : Nat) : List α :=
  match l.get? i, l.get? j with
  | some a, some b => (l.set i b).set j a
  | _, _ => l

/-- `[p, p minus its top node, …, ∅]` — the pop-loop of
`get_moves_of_edge`.  Each pop clears one bit, so the fuel
`Bitset128.len p + 1` runs the loop to completion. -/
def removal_chain : Nat → Bits → List Bits
  | 0, p => [p]
  | fuel + 1, p => p :: (if p = 0 then [] else removal_chain fuel (Bitset128.pop p).2)

/-- The per-part removal choices of `get_moves_of_edge`: push the part,
pop the highest node and push the remainder until empty, then swap the
first and last entries so the do-nothing (empty) choice comes first. -/
def removal_choices (part : Bits) : List Bits :=
  list_swap (removal_chain (Bitset128.len part + 1) part) 0
    ((removal_chain (Bitset128.len part + 1) part).length - 1)

/-- `itertools::multi_cartesian_product`: tuples in lexicographic order
with the first factor outermost; the first tuple picks every factor's
head. -/
def multi_cartesian_product : List (List α) → List (List α)
  | [] => [[]]
  | l :: ls => l.flatMap fun x => (multi_cartesian_product ls).map (x :: ·)

/-- `fn get_moves_of_edge(&self, hyperedge: usize)` — partition the edge
by the node structure partitions, enumerate the cartesian product of the
per-part removal choices, skip the leading do-nothing combination and
remove each resulting union. -/
def get_moves_of_edge (g : TakingGame) (hyperedge : Nat) : List (List TakingGame) :=
  let partitioned := Bitset128.partition (g.graph.hyperedges.getD hyperedge 0)
    g.graph.get_node_partitions
  let nodes_to_remove_per_part := partitioned.map removal_choices
  let nodes_to_remove := ((multi_cartesian_product nodes_to_remove_per_part).map
    fun choice => choice.foldl Bitset128.union 0).drop 1
  nodes_to_remove.map g.with_nodes_removed

/-- `fn get_split_moves(&self) -> Vec<Vec<TakingGame>>` (trait `Impartial`) —
one representative edge (the block start) per edge-partition block. -/
def get_split_moves (g : TakingGame) : List (List TakingGame) :=
  if g.graph.is_empty then []
  else (g.graph.get_edge_partitions).flatMap fun e => g.get_moves_of_edge e.1

end TakingGame

/-! ## Sprague–Grundy values

The nimber of a game state is defined mathematically by the mex/XOR
recursion over all legal moves (spec, glossary: a legal move selects one
hyperedge and removes any non-empty subset of it).  The recursion is
fuel-indexed; `HasValC g v` states that some fuel suffices, i.e. the
recursion terminates on `g` with value `v`. -/

/-- Mask of a list of bit indices. -/
def list_to_mask (l : List Nat) : Bits :=
  l.foldl (fun acc i => acc ||| (1 <<< i)) 0

/-- All legal removals of a position: every non-empty subset of every
hyperedge. -/
def legal_removals (g : TakingGame) : List Bits :=
  g.graph.hyperedges.flatMap fun e =>
    ((Bitset128.iter e).sublists.filter fun s => !s.isEmpty).map list_to_mask

/-- XOR of a list of nimbers (value of a multiset of components). -/
def xor_fold (l : List Nat) : Nat := l.foldl Nat.xor 0

/-- Helper for `mex`: first value at least `k` missing from `l`. -/
def mex_from : Nat → Nat → List Nat → Nat
  | 0, k, _ => k
  | fuel + 1, k, l => if l.contains k then mex_from fuel (k + 1) l else k

/-- Least non-negative integer not in the list. -/
def mex (l : List Nat) : Nat := mex_from (l.length + 1) 0 l

/-- `some` of the list of values when all are present, else `none`. -/
def option_list : List (Option α) → Option (List α)
  | [] => some []
  | none :: _ => none
  | some v :: xs => (option_list xs).map (v :: ·)

/-- Fuel-indexed Sprague–Grundy value of a single connected position:
mex over all legal removals of the value (XOR of recursive component
values) of the resulting state. -/
def gvalC : Nat → TakingGame → Option Nat
  | 0, _ => none
  | fuel + 1, g =>
    (option_list ((legal_removals g).map fun m =>
      (option_list ((g.with_nodes_removed m).map fun c =>
        gvalC fuel c)).map xor_fold)).map mex

/-- Fuel-indexed value of a game state (a multiset of positions): XOR of
the component values. -/
def gvalS (fuel : Nat) (comps : List TakingGame) : Option Nat :=
  (option_list (comps.map fun c => gvalC fuel c)).map xor_fold

/-- The Sprague–Grundy value of a single position. -/
def HasValC (g : TakingGame) (v : Nat) : Prop := ∃ fuel, gvalC fuel g = some v

/-- The Sprague–Grundy value of a game state. -/
def HasValS (st : List TakingGame) (v : Nat) : Prop := ∃ fuel, gvalS fuel st = some v

/-! ## Bit-level toolkit

Bitwise characterizations of the `Bitset128` operations: subset as a
predicate on `testBit`, popcount as a `Finset` cardinality, the top-bit
extraction of `pop`, and the length bookkeeping of the move generator's
removal chains and cartesian products. -/

/-- Bitwise subset relation on bit patterns. -/
def BSub (a b : Nat) : Prop := ∀ i, a.testBit i = true → b.testBit i = true

/-- The set-bit positions below 128 as a finite set. -/
def bfin (b : Nat) : Finset Nat :=
  (Finset.range 128).filter fun i => b.testBit i = true

theorem filter_card_eq (p : Nat → Bool) (n : Nat) :
    ((Finset.range n).filter fun i => p i = true).card = ((List.range n).filter p).length := by
  induction n with
  | zero => rfl
  | succ m ih =>
    rw [Finset.range_succ, List.range_succ, Finset.filter_insert, List.filter_append]
    by_cases hp : p m = true
    · rw [if_pos hp]
      rw [Finset.card_insert_of_not_mem]
      · simp [hp, ih]
      · intro hmem
        exact absurd (Finset.mem_of_mem_filter m hmem) (by simp)
    · rw [if_neg hp]
      simp only [List.filter_cons, hp]
      simp [ih]

theorem len_eq_card (b : Nat) : Bitset128.len b = (bfin b).card := by
  rw [bfin, filter_card_eq]
  rfl

theorem mem_bfin {b : Nat} {i : Nat} : i ∈ bfin b ↔ i < 128 ∧ b.testBit i = true := by
  unfold bfin
  rw [Finset.mem_filter, Finset.mem_range]

theorem mem_iter {b : Nat} {i : Nat} : i ∈ Bitset128.iter b ↔ i < 128 ∧ b.testBit i = true := by
  unfold Bitset128.iter
  rw [List.mem_filter, List.mem_range]

theorem testBit_u128Max {i : Nat} : Bitset128.u128Max.testBit i = decide (i < 128) := by
  have : Bitset128.u128Max = 2 ^ 128 - 1 := rfl
  rw [this, Nat.testBit_two_pow_sub_one]

theorem testBit_union {a b : Nat} {i : Nat} :
    (Bitset128.union a b).testBit i = (a.testBit i || b.testBit i) := Nat.testBit_or a b i

theorem testBit_ge_128 {a : Nat} (ha : a < 2 ^ 128) {i : Nat} (hi : 128 ≤ i) :
    a.testBit i = false :=
  Nat.testBit_lt_two_pow (lt_of_lt_of_le ha (Nat.pow_le_pow_right (by omega) hi))

theorem testBit_minus {a b : Nat} {i : Nat} (ha : a < 2 ^ 128) :
    (Bitset128.minus a b).testBit i = (a.testBit i && !(b.testBit i)) := by
  unfold Bitset128.minus
  rw [Nat.testBit_and, Nat.testBit_xor, testBit_u128Max]
  by_cases h : i < 128
  · simp [h]
  · have : a.testBit i = false := Nat.testBit_lt_two_pow (lt_of_lt_of_le ha (Nat.pow_le_pow_right (by omega) (by omega)))
    simp [this]

/-- `Bitset128.is_subset` agrees with `BSub` for 128-bit patterns. -/
theorem is_subset_iff {a b : Nat} (ha : a < 2 ^ 128) :
    Bitset128.is_subset a b = true ↔ BSub a b := by
  unfold Bitset128.is_subset
  rw [beq_iff_eq]
  constructor
  · intro h i hi
    by_contra hbi
    have hb : b.testBit i = false := by
      cases hx : b.testBit i
      · rfl
      · exact absurd hx hbi
    have : (a &&& (Bitset128.u128Max ^^^ b)).testBit i = true := by
      rw [Nat.testBit_and, Nat.testBit_xor, testBit_u128Max, hi, hb]
      have hi128 : i < 128 := by
        by_contra hge
        have : a.testBit i = false := Nat.testBit_lt_two_pow
          (lt_of_lt_of_le ha (Nat.pow_le_pow_right (by omega) (by omega)))
        rw [this] at hi; exact absurd hi (by simp)
      simp [hi128]
    rw [h] at this
    simp [Nat.zero_testBit] at this
  · intro h
    apply Nat.eq_of_testBit_eq
    intro i
    rw [Nat.testBit_and, Nat.testBit_xor, testBit_u128Max, Nat.zero_testBit]
    cases hai : a.testBit i
    · simp
    · have hi128 : i < 128 := by
        by_contra hge
        rw [testBit_ge_128 ha (by omega)] at hai
        exact absurd hai (by simp)
      rw [h i hai]
      simp [hi128]

theorem bsub_refl (a : Nat) : BSub a a := fun _ h => h

theorem bsub_trans {a b c : Nat} (h1 : BSub a b) (h2 : BSub b c) : BSub a c :=
  fun i hi => h2 i (h1 i hi)

theorem bsub_land_left (a b : Nat) : BSub (a &&& b) a := by
  intro i hi
  rw [Nat.testBit_and] at hi
  exact (Bool.and_eq_true _ _ ▸ hi).1

theorem bsub_union_left (a b : Nat) : BSub a (Bitset128.union a b) := by
  intro i hi
  rw [testBit_union, hi]
  rfl

theorem bsub_union_right (a b : Nat) : BSub b (Bitset128.union a b) := by
  intro i hi
  rw [testBit_union, hi]
  simp

theorem bfin_subset_of_bsub {a b : Nat} (h : BSub a b) : bfin a ⊆ bfin b := by
  intro i hi
  rw [mem_bfin] at hi ⊢
  exact ⟨hi.1, h i hi.2⟩

theorem len_mono {a b : Nat} (h : BSub a b) : Bitset128.len a ≤ Bitset128.len b := by
  rw [len_eq_card, len_eq_card]
  exact Finset.card_le_card (bfin_subset_of_bsub h)

theorem len_lt_of_ssub {a b : Nat} (h : BSub a b) {t : Nat} (ht : t < 128)
    (htb : b.testBit t = true) (hta : a.testBit t = false) : Bitset128.len a < Bitset128.len b := by
  rw [len_eq_card, len_eq_card]
  apply Finset.card_lt_card
  constructor
  · exact bfin_subset_of_bsub h
  · intro hsub
    have := hsub (mem_bfin.mpr ⟨ht, htb⟩)
    rw [mem_bfin] at this
    rw [this.2] at hta
    exact absurd hta (by simp)

theorem len_le_128 (b : Nat) : Bitset128.len b ≤ 128 := by
  unfold Bitset128.len
  calc ((List.range 128).filter fun i => b.testBit i).length
      ≤ (List.range 128).length := List.length_filter_le _ _
    _ = 128 := List.length_range 128

/-- Disjoint patterns have additive popcounts. -/
theorem len_union_of_disjoint {a b : Nat} (h : a &&& b = 0) :
    Bitset128.len (Bitset128.union a b) = Bitset128.len a + Bitset128.len b := by
  rw [len_eq_card, len_eq_card, len_eq_card]
  have hdis : Disjoint (bfin a) (bfin b) := by
    rw [Finset.disjoint_left]
    intro i hia hib
    rw [mem_bfin] at hia hib
    have : (a &&& b).testBit i = true := by
      rw [Nat.testBit_and, hia.2, hib.2]
      rfl
    rw [h, Nat.zero_testBit] at this
    exact absurd this (by simp)
  rw [← Finset.card_union_of_disjoint hdis]
  congr 1
  ext i
  rw [Finset.mem_union, mem_bfin, mem_bfin, mem_bfin, testBit_union]
  constructor
  · rintro ⟨h1, h2⟩
    rcases Bool.or_eq_true _ _ |>.mp h2 with h | h
    · exact Or.inl ⟨h1, h⟩
    · exact Or.inr ⟨h1, h⟩
  · rintro (⟨h1, h2⟩ | ⟨h1, h2⟩)
    · exact ⟨h1, by rw [h2]; rfl⟩
    · exact ⟨h1, by rw [h2]; simp⟩

theorem zero_lt_len {b : Nat} {t : Nat} (ht : t < 128) (htb : b.testBit t = true) :
    0 < Bitset128.len b := by
  rw [len_eq_card]
  exact Finset.card_pos.mpr ⟨t, mem_bfin.mpr ⟨ht, htb⟩⟩

/-- A nonzero 128-bit pattern has a set bit below 128. -/
theorem exists_testBit_of_ne_zero {b : Nat} (hb : b ≠ 0) (hlt : b < 2 ^ 128) :
    ∃ t, t < 128 ∧ b.testBit t = true := by
  obtain ⟨t, ht⟩ := Nat.ne_zero_implies_bit_true hb
  refine ⟨t, ?_, ht⟩
  by_contra hge
  have : b.testBit t = false := Nat.testBit_lt_two_pow
    (lt_of_lt_of_le hlt (Nat.pow_le_pow_right (by omega) (by omega)))
  rw [this] at ht
  exact absurd ht (by simp)

/-- Folding `Bitset128.union` over a list: bitwise characterization. -/
theorem testBit_foldl_union (es : List Nat) : ∀ (b0 : Nat) (i : Nat),
    (es.foldl Bitset128.union b0).testBit i = (b0.testBit i || es.any fun e => e.testBit i) := by
  induction es with
  | nil => intro b0 i; simp
  | cons e es ih =>
    intro b0 i
    rw [List.foldl_cons, ih, testBit_union]
    simp [Bool.or_assoc]

theorem bsub_foldl_union_init (es : List Nat) (b0 : Nat) : BSub b0 (es.foldl Bitset128.union b0) := by
  intro i hi
  rw [testBit_foldl_union, hi]
  rfl

theorem bsub_foldl_union_mem {es : List Nat} {e : Nat} (he : e ∈ es) (b0 : Nat) :
    BSub e (es.foldl Bitset128.union b0) := by
  intro i hi
  rw [testBit_foldl_union]
  have : es.any (fun e => e.testBit i) = true := List.any_eq_true.mpr ⟨e, he, hi⟩
  rw [this]
  simp

theorem foldl_union_lt (es : List Nat) : ∀ b0 : Nat, b0 < 2 ^ 128 →
    (∀ e ∈ es, e < 2 ^ 128) → es.foldl Bitset128.union b0 < 2 ^ 128 := by
  induction es with
  | nil => intro b0 h _; exact h
  | cons e es ih =>
    intro b0 h hall
    rw [List.foldl_cons]
    exact ih _ (Nat.or_lt_two_pow h (hall e (List.mem_cons_self e es)))
      fun x hx => hall x (List.mem_cons_of_mem e hx)

/-- `minus` distributes over a Bitset128.union fold. -/
theorem minus_foldl_union (es : List Nat) (m : Nat) : ∀ b0 : Nat,
    (es.map fun e => Bitset128.minus e m).foldl Bitset128.union (Bitset128.minus b0 m) = Bitset128.minus (es.foldl Bitset128.union b0) m := by
  induction es with
  | nil => intro b0; rfl
  | cons e es ih =>
    intro b0
    rw [List.map_cons, List.foldl_cons, List.foldl_cons, ← ih]
    congr 1
    unfold Bitset128.minus Bitset128.union
    apply Nat.eq_of_testBit_eq
    intro i
    simp [Nat.testBit_or, Nat.testBit_and, Bool.and_or_distrib_right]

/-- A pattern sharing no bit with its successor is all-ones. -/
theorem flattened_exists {b : Nat} (hb : b &&& (b + 1) = 0) : ∃ k, b = 2 ^ k - 1 := by
  induction b using Nat.strong_induction_on with
  | _ b ih =>
    rcases Nat.eq_zero_or_pos b with h0 | hpos
    · exact ⟨0, by omega⟩
    have hodd : b % 2 = 1 := by
      by_contra hodd
      have heven : b % 2 = 0 := by omega
      have hq : b / 2 ≠ 0 := by omega
      obtain ⟨i, hi⟩ := Nat.ne_zero_implies_bit_true hq
      have h1 : b.testBit (i + 1) = true := by
        rw [Nat.testBit_succ]
        exact hi
      have h2 : (b + 1).testBit (i + 1) = true := by
        rw [Nat.testBit_succ]
        have : (b + 1) / 2 = b / 2 := by omega
        rw [this]
        exact hi
      have : (b &&& (b + 1)).testBit (i + 1) = true := by
        rw [Nat.testBit_and, h1, h2]
        rfl
      rw [hb, Nat.zero_testBit] at this
      exact absurd this (by simp)
    have hsplit : b &&& (b + 1) = 2 * ((b / 2) &&& (b / 2 + 1)) := by
      apply Nat.eq_of_testBit_eq
      intro i
      cases i with
      | zero =>
        rw [Nat.testBit_and, Nat.testBit_zero, Nat.testBit_zero, Nat.testBit_zero]
        have h1 : (b + 1) % 2 = 0 := by omega
        have h2 : 2 * (b / 2 &&& (b / 2 + 1)) % 2 = 0 := by omega
        rw [h1, h2]
        simp
      | succ j =>
        rw [Nat.testBit_and, Nat.testBit_succ, Nat.testBit_succ, Nat.testBit_succ]
        have h1 : (b + 1) / 2 = b / 2 + 1 := by omega
        have h2 : 2 * (b / 2 &&& (b / 2 + 1)) / 2 = b / 2 &&& (b / 2 + 1) := by omega
        rw [h1, h2, Nat.testBit_and]
    rw [hsplit] at hb
    have hq : b / 2 &&& (b / 2 + 1) = 0 := by omega
    obtain ⟨j, hj⟩ := ih (b / 2) (by omega) hq
    refine ⟨j + 1, ?_⟩
    have hpow : 2 ^ (j + 1) = 2 * 2 ^ j := by rw [Nat.pow_succ]; omega
    have hjpos : 1 ≤ 2 ^ j := Nat.one_le_two_pow
    omega

/-- A flattened 128-bit pattern is `2 ^ (Bitset128.len b) - 1`. -/
theorem is_flattened_eq {b : Nat} (hb : Bitset128.is_flattened b = true) (hlt : b < 2 ^ 128) :
    b = 2 ^ (Bitset128.len b) - 1 := by
  unfold Bitset128.is_flattened at hb
  rw [beq_iff_eq] at hb
  obtain ⟨k, hk⟩ := flattened_exists hb
  have hk128 : k ≤ 128 := by
    by_contra hgt
    have h1 : (2 : Nat) ^ 128 < 2 ^ k := Nat.pow_lt_pow_right (by omega) (by omega)
    omega
  have hlen : Bitset128.len b = k := by
    rw [len_eq_card]
    have : bfin b = Finset.range k := by
      ext i
      rw [mem_bfin, Finset.mem_range, hk, Nat.testBit_two_pow_sub_one]
      constructor
      · rintro ⟨_, h2⟩
        exact of_decide_eq_true h2
      · intro h
        exact ⟨by omega, decide_eq_true h⟩
    rw [this, Finset.card_range]
  rw [hlen, hk]

theorem foldl_if_getLastD (q : Nat → Bool) : ∀ (l : List Nat) (a : Nat),
    l.foldl (fun acc i => if q i then i else acc) a = (l.filter q).getLastD a := by
  intro l
  induction l with
  | nil => intro a; rfl
  | cons x xs ih =>
    intro a
    rw [List.foldl_cons, List.filter_cons]
    cases hq : q x
    · show List.foldl (fun acc i => if q i = true then i else acc) a xs
        = (List.filter q xs).getLastD a
      exact ih a
    · show List.foldl (fun acc i => if q i = true then i else acc) x xs
        = (x :: List.filter q xs).getLastD a
      rw [List.getLastD_cons]
      exact ih x

theorem top_bit_eq_getLastD (b : Nat) : Bitset128.top_bit b = (Bitset128.iter b).getLastD 0 :=
  foldl_if_getLastD (fun i => b.testBit i) (List.range 128) 0

theorem getLastD_mem {α : Type _} : ∀ (l : List α) (a : α), l ≠ [] → l.getLastD a ∈ l := by
  intro l
  induction l with
  | nil => intro a h; exact absurd rfl h
  | cons y ys ih =>
    intro a _
    rw [List.getLastD_cons]
    cases ys with
    | nil => exact List.mem_cons_self y []
    | cons z zs => exact List.mem_cons_of_mem y (ih y (by simp))

theorem le_getLastD_of_pairwise : ∀ {l : List Nat}, l.Pairwise (· < ·) →
    ∀ {x : Nat}, x ∈ l → ∀ a : Nat, x ≤ l.getLastD a := by
  intro l
  induction l with
  | nil => intro _ x hx; exact absurd hx (List.not_mem_nil x)
  | cons y ys ih =>
    intro hp x hx a
    rw [List.getLastD_cons]
    rcases List.mem_cons.mp hx with rfl | hmem
    · rcases hys : ys with _ | ⟨z, zs⟩
      · simp
      · have hlt : x < (z :: zs).getLastD x := by
          have hm : (z :: zs).getLastD x ∈ z :: zs := getLastD_mem _ x (by simp)
          exact (List.pairwise_cons.mp hp).1 _ (hys ▸ hm)
        rw [← hys] at hlt ⊢
        omega
    · exact ih (List.pairwise_cons.mp hp).2 hmem y

theorem iter_pairwise (b : Nat) : (Bitset128.iter b).Pairwise (· < ·) :=
  List.Pairwise.sublist (List.filter_sublist _) (List.pairwise_lt_range 128)

theorem iter_ne_nil {b : Nat} (hb : b ≠ 0) (hlt : b < 2 ^ 128) : Bitset128.iter b ≠ [] := by
  obtain ⟨t, ht, htb⟩ := exists_testBit_of_ne_zero hb hlt
  intro h
  have : t ∈ Bitset128.iter b := mem_iter.mpr ⟨ht, htb⟩
  rw [h] at this
  exact absurd this (List.not_mem_nil t)

theorem top_bit_testBit {b : Nat} (hb : b ≠ 0) (hlt : b < 2 ^ 128) :
    b.testBit (Bitset128.top_bit b) = true ∧ Bitset128.top_bit b < 128 := by
  rw [top_bit_eq_getLastD]
  have hm : (Bitset128.iter b).getLastD 0 ∈ Bitset128.iter b := getLastD_mem _ 0 (iter_ne_nil hb hlt)
  have := mem_iter.mp hm
  exact ⟨this.2, this.1⟩

theorem top_bit_max {b : Nat} (hlt : b < 2 ^ 128) {j : Nat} (hj : b.testBit j = true) :
    j ≤ Bitset128.top_bit b := by
  have hj128 : j < 128 := by
    by_contra hge
    rw [testBit_ge_128 hlt (by omega)] at hj
    exact absurd hj (by simp)
  rw [top_bit_eq_getLastD]
  exact le_getLastD_of_pairwise (iter_pairwise b) (mem_iter.mpr ⟨hj128, hj⟩) 0

theorem pop_snd_spec {b : Nat} (hb : b ≠ 0) (hlt : b < 2 ^ 128) :
    Bitset128.len ((Bitset128.pop b).2) + 1 = Bitset128.len b ∧ BSub (Bitset128.pop b).2 b ∧ (Bitset128.pop b).2 < 2 ^ 128 := by
  unfold Bitset128.pop
  rw [if_neg hb]
  obtain ⟨htb, ht128⟩ := top_bit_testBit hb hlt
  have hbit : ∀ i, (b % 2 ^ Bitset128.top_bit b).testBit i = (decide (i < Bitset128.top_bit b) && b.testBit i) :=
    fun i => Nat.testBit_mod_two_pow b (Bitset128.top_bit b) i
  have hsub : BSub (b % 2 ^ Bitset128.top_bit b) b := by
    intro i hi
    rw [hbit i] at hi
    exact (Bool.and_eq_true _ _ ▸ hi).2
  refine ⟨?_, hsub, lt_of_le_of_lt (Nat.mod_le _ _) hlt⟩
  have hfin : bfin (b % 2 ^ Bitset128.top_bit b) = (bfin b).erase (Bitset128.top_bit b) := by
    ext i
    rw [mem_bfin, Finset.mem_erase, mem_bfin, hbit i]
    constructor
    · rintro ⟨h1, h2⟩
      rw [Bool.and_eq_true] at h2
      exact ⟨by have := of_decide_eq_true h2.1; omega, h1, h2.2⟩
    · rintro ⟨hne, h1, h2⟩
      refine ⟨h1, ?_⟩
      rw [Bool.and_eq_true]
      refine ⟨decide_eq_true ?_, h2⟩
      have := top_bit_max hlt h2
      omega
  rw [len_eq_card, len_eq_card, hfin, Finset.card_erase_of_mem (mem_bfin.mpr ⟨ht128, htb⟩)]
  have : 0 < (bfin b).card := Finset.card_pos.mpr ⟨Bitset128.top_bit b, mem_bfin.mpr ⟨ht128, htb⟩⟩
  omega

theorem len_zero : Bitset128.len 0 = 0 := by decide

theorem removal_chain_length : ∀ (fuel : Nat) (p : Nat), p < 2 ^ 128 → Bitset128.len p < fuel →
    (TakingGame.removal_chain fuel p).length = Bitset128.len p + 1 := by
  intro fuel
  induction fuel with
  | zero => intro p _ h; omega
  | succ n ih =>
    intro p hlt hfuel
    rw [TakingGame.removal_chain]
    by_cases hp : p = 0
    · subst hp
      rw [if_pos rfl]
      simp [len_zero]
    · rw [if_neg hp]
      obtain ⟨hlen, _, hlt'⟩ := pop_snd_spec hp hlt
      rw [List.length_cons, ih (Bitset128.pop p).2 hlt' (by omega)]
      omega

theorem removal_chain_mem_bsub : ∀ (fuel : Nat) (p : Nat), p < 2 ^ 128 →
    ∀ x ∈ TakingGame.removal_chain fuel p, BSub x p ∧ x < 2 ^ 128 := by
  intro fuel
  induction fuel with
  | zero =>
    intro p hlt x hx
    rw [TakingGame.removal_chain] at hx
    rcases List.mem_cons.mp hx with rfl | hx
    · exact ⟨bsub_refl x, hlt⟩
    · exact absurd hx (List.not_mem_nil x)
  | succ n ih =>
    intro p hlt x hx
    rw [TakingGame.removal_chain] at hx
    rcases List.mem_cons.mp hx with rfl | hx
    · exact ⟨bsub_refl x, hlt⟩
    · by_cases hp : p = 0
      · rw [if_pos hp] at hx
        exact absurd hx (List.not_mem_nil x)
      · rw [if_neg hp] at hx
        obtain ⟨_, hsub, hlt'⟩ := pop_snd_spec hp hlt
        obtain ⟨h1, h2⟩ := ih (Bitset128.pop p).2 hlt' x hx
        exact ⟨bsub_trans h1 hsub, h2⟩

theorem list_swap_length {α : Type _} (l : List α) (i j : Nat) :
    (TakingGame.list_swap l i j).length = l.length := by
  unfold TakingGame.list_swap
  cases hi : l.get? i <;> cases hj : l.get? j
  · rfl
  · rfl
  · rfl
  · rw [List.length_set, List.length_set]

theorem removal_choices_length {p : Nat} (hlt : p < 2 ^ 128) :
    (TakingGame.removal_choices p).length = Bitset128.len p + 1 := by
  unfold TakingGame.removal_choices
  rw [list_swap_length, removal_chain_length (Bitset128.len p + 1) p hlt (by omega)]

theorem flatMap_map_const_length {α : Type _} (M : List (List α)) :
    ∀ l : List α, (l.flatMap fun x => M.map (fun t => x :: t)).length = l.length * M.length := by
  intro l
  induction l with
  | nil => simp
  | cons x xs ih =>
    rw [List.flatMap_cons, List.length_append, List.length_map, ih, List.length_cons]
    ring

theorem mcp_length {α : Type _} : ∀ ls : List (List α),
    (TakingGame.multi_cartesian_product ls).length = (ls.map List.length).prod := by
  intro ls
  induction ls with
  | nil => rfl
  | cons l ls ih =>
    rw [TakingGame.multi_cartesian_product, flatMap_map_const_length, ih, List.map_cons, List.prod_cons]

/-! ## Label obliviousness

Everything the pipeline computes — hyperedges, both structure partitions
and the length of the node list — depends on the input only through its
hyperedges, partitions and node-list *length*; the node labels are just
carried along.  `NodesOnlyDiffer` captures agreement on everything but
the labels, and the lemmas below push it through the pipeline. -/

/-- Two hypergraphs agreeing on everything except their node labels. -/
def NodesOnlyDiffer (g g' : StructuredHypergraph) : Prop :=
  g.hyperedges = g'.hyperedges ∧
  g.node_structure_partitions = g'.node_structure_partitions ∧
  g.edge_structure_partitions = g'.edge_structure_partitions ∧
  g.nodes.length = g'.nodes.length

namespace NodesOnlyDiffer

theorem refl (g : StructuredHypergraph) : NodesOnlyDiffer g g :=
  ⟨rfl, rfl, rfl, rfl⟩

theorem dual_eq {g g' : StructuredHypergraph} (h : NodesOnlyDiffer g g') :
    g.dual = g'.dual := by
  unfold StructuredHypergraph.dual
  rw [h.1, h.2.2.2]

theorem nr_nodes_eq {g g' : StructuredHypergraph} (h : NodesOnlyDiffer g g') :
    g.nr_nodes = g'.nr_nodes := h.2.2.2

theorem apply_node_map {g g' : StructuredHypergraph} (h : NodesOnlyDiffer g g')
    (m : List Nat) : NodesOnlyDiffer (g.apply_node_map m) (g'.apply_node_map m) := by
  unfold StructuredHypergraph.apply_node_map
  exact ⟨by simp [h.1], h.2.1, h.2.2.1, by simp⟩

theorem apply_edge_map {g g' : StructuredHypergraph} (h : NodesOnlyDiffer g g')
    (m : List Nat) : NodesOnlyDiffer (g.apply_edge_map m) (g'.apply_edge_map m) := by
  unfold StructuredHypergraph.apply_edge_map
  exact ⟨by simp [h.1], h.2.1, h.2.2.1, h.2.2.2⟩

theorem flatten_nodes {g g' : StructuredHypergraph} (h : NodesOnlyDiffer g g') :
    NodesOnlyDiffer g.flatten_nodes g'.flatten_nodes := by
  unfold StructuredHypergraph.flatten_nodes
  rw [← h.1]
  by_cases hf : Bitset128.is_flattened (g.hyperedges.foldl Bitset128.union 0)
  · simp only [hf, if_true]
    exact ⟨rfl, h.2.1, h.2.2.1, by simp [h.2.2.2]⟩
  · simp only [hf, if_false]
    exact apply_node_map h _

end NodesOnlyDiffer

/-- Sorter states agreeing on everything except the node labels of the
carried hypergraph. -/
def SorterRel (s s' : SorterState) : Prop :=
  s.node_map = s'.node_map ∧ s.edge_map = s'.edge_map ∧
  s.node_keys = s'.node_keys ∧ s.edge_keys = s'.edge_keys ∧
  s.dual = s'.dual ∧ NodesOnlyDiffer s.hypergraph s'.hypergraph

namespace SorterRel

theorem new {g g' : StructuredHypergraph} (h : NodesOnlyDiffer g g') :
    SorterRel (SorterState.new g) (SorterState.new g') := by
  obtain ⟨he, hnp, hep, hn⟩ := h
  unfold SorterState.new
  exact ⟨by rw [hn], by rw [he], by rw [NodesOnlyDiffer.dual_eq ⟨he, hnp, hep, hn⟩],
    by rw [he], NodesOnlyDiffer.dual_eq ⟨he, hnp, hep, hn⟩, he, hnp, hep, hn⟩

theorem build_node_keys {s s' : SorterState} (h : SorterRel s s') (km : List Nat) :
    SorterRel (s.build_node_keys km) (s'.build_node_keys km) := by
  obtain ⟨h1, h2, h3, h4, h5, h6⟩ := h
  unfold SorterState.build_node_keys
  exact ⟨h1, h2, by rw [h5], h4, h5, h6⟩

theorem build_edge_keys {s s' : SorterState} (h : SorterRel s s') (km : List Nat) :
    SorterRel (s.build_edge_keys km) (s'.build_edge_keys km) := by
  obtain ⟨h1, h2, h3, h4, h5, h6⟩ := h
  unfold SorterState.build_edge_keys
  exact ⟨h1, h2, h3, by rw [h6.1], h5, h6⟩

theorem sort_nodes {s s' : SorterState} (h : SorterRel s s') :
    SorterRel s.sort_nodes s'.sort_nodes := by
  obtain ⟨h1, h2, h3, h4, h5, h6⟩ := h
  unfold SorterState.sort_nodes
  exact ⟨by rw [h1, h3, h6.2.1], h2, h3, h4, h5, h6⟩

theorem sort_edges {s s' : SorterState} (h : SorterRel s s') :
    SorterRel s.sort_edges s'.sort_edges := by
  obtain ⟨h1, h2, h3, h4, h5, h6⟩ := h
  unfold SorterState.sort_edges
  exact ⟨h1, by rw [h2, h4, h6.2.2.1], h3, h4, h5, h6⟩

theorem refine_nodes {s s' : SorterState} (h : SorterRel s s') :
    SorterRel s.refine_nodes s'.refine_nodes := by
  obtain ⟨h1, h2, h3, h4, h5, h6⟩ := h
  unfold SorterState.refine_nodes
  exact ⟨h1, h2, h3, h4, h5, h6.1, by rw [h1, h3], h6.2.2.1, h6.2.2.2⟩

theorem refine_edges {s s' : SorterState} (h : SorterRel s s') :
    SorterRel s.refine_edges s'.refine_edges := by
  obtain ⟨h1, h2, h3, h4, h5, h6⟩ := h
  unfold SorterState.refine_edges
  exact ⟨h1, h2, h3, h4, h5, h6.1, h6.2.1, by rw [h2, h4], h6.2.2.2⟩

theorem partition_count_eq {s s' : SorterState} (h : SorterRel s s') :
    SorterState.partition_count s = SorterState.partition_count s' := by
  unfold SorterState.partition_count
  rw [h.2.2.2.2.2.2.1, h.2.2.2.2.2.2.2.1]

theorem classes_half {s s' : SorterState} (h : SorterRel s s') :
    SorterRel (SorterState.classes_half s) (SorterState.classes_half s') := by
  have hkm : SorterState.edge_class_km s = SorterState.edge_class_km s' := by
    unfold SorterState.edge_class_km
    rw [h.2.1, h.2.2.2.2.2.2.2.1]
  unfold SorterState.classes_half
  rw [hkm]
  exact refine_nodes (sort_nodes (build_node_keys h _))

theorem classes_step {s s' : SorterState} (h : SorterRel s s') :
    SorterRel (SorterState.classes_step s) (SorterState.classes_step s') := by
  have h1 := classes_half h
  have hkm : SorterState.node_class_km (SorterState.classes_half s)
      = SorterState.node_class_km (SorterState.classes_half s') := by
    unfold SorterState.node_class_km
    rw [h1.1, h1.2.2.2.2.2.2.1]
  unfold SorterState.classes_step
  rw [hkm]
  exact refine_edges (sort_edges (build_edge_keys h1 _))

theorem build_structural_eq_classes {s s' : SorterState} (h : SorterRel s s') :
    ∀ fuel, SorterRel (SorterState.build_structural_eq_classes fuel s)
      (SorterState.build_structural_eq_classes fuel s') := by
  intro fuel
  induction fuel generalizing s s' with
  | zero => exact h
  | succ n ih =>
    unfold SorterState.build_structural_eq_classes
    have hstep := classes_step h
    rw [partition_count_eq h, partition_count_eq hstep]
    by_cases hc : SorterState.partition_count s'
      = SorterState.partition_count (SorterState.classes_step s')
    · simp only [hc, if_pos]
      exact hstep
    · simp only [hc, if_neg, not_false_iff]
      exact ih hstep

theorem canon_half {s s' : SorterState} (h : SorterRel s s') :
    SorterRel (SorterState.canon_half s) (SorterState.canon_half s') := by
  have hkm : SorterState.reversed_positions s.edge_map
      = SorterState.reversed_positions s'.edge_map := by rw [h.2.1]
  unfold SorterState.canon_half
  rw [hkm]
  exact sort_nodes (build_node_keys h _)

theorem canon_full {s s' : SorterState} (h : SorterRel s s') :
    SorterRel (SorterState.canon_full s) (SorterState.canon_full s') := by
  have h1 := canon_half h
  have hkm : SorterState.reversed_positions (SorterState.canon_half s).node_map
      = SorterState.reversed_positions (SorterState.canon_half s').node_map := by rw [h1.1]
  unfold SorterState.canon_full
  rw [hkm]
  exact sort_edges (build_edge_keys h1 _)

theorem canon_stable_eq {s s' : SorterState} (h : SorterRel s s') :
    SorterState.canon_stable s = SorterState.canon_stable s' := by
  unfold SorterState.canon_stable
  rw [h.1, (canon_half h).1, (canon_half h).2.1, (canon_full h).2.1]

theorem sort_canonically {s s' : SorterState} (h : SorterRel s s') :
    ∀ fuel, SorterRel (SorterState.sort_canonically fuel s)
      (SorterState.sort_canonically fuel s') := by
  intro fuel
  induction fuel generalizing s s' with
  | zero => exact h
  | succ n ih =>
    unfold SorterState.sort_canonically
    rw [canon_stable_eq h]
    by_cases hc : SorterState.canon_stable s' = true
    · simp only [hc, if_pos]
      exact canon_full h
    · simp only [Bool.not_eq_true] at hc
      simp only [hc, if_false]
      exact ih (canon_full h)

theorem initial_state {g g' : StructuredHypergraph} (h : NodesOnlyDiffer g g') :
    SorterRel (SorterState.initial_state g) (SorterState.initial_state g') := by
  obtain ⟨h1, h2, h3, h4, h5, h6⟩ := new h
  unfold SorterState.initial_state
  exact ⟨h1, h2, h3, h4, h5, h6.1, by rw [h.2.2.2], by rw [h.1], h6.2.2.2⟩

theorem sorted_state {g g' : StructuredHypergraph} (h : NodesOnlyDiffer g g') :
    SorterRel (SorterState.sorted_state g) (SorterState.sorted_state g') := by
  have hfuel : SorterState.classes_fuel g = SorterState.classes_fuel g' := by
    unfold SorterState.classes_fuel
    rw [h.1, h.2.2.2]
  unfold SorterState.sorted_state
  rw [hfuel]
  exact sort_canonically (build_structural_eq_classes
    (sort_nodes (sort_edges (initial_state h))) _) 128

/-- Node labels do not influence the sorter's output apart from being
reordered: `sort` sends label-equivalent inputs to label-equivalent
outputs. -/
theorem sort {g g' : StructuredHypergraph} (h : NodesOnlyDiffer g g') :
    NodesOnlyDiffer (SorterState.sort g) (SorterState.sort g') := by
  have hs := sorted_state h
  unfold SorterState.sort
  rw [hs.1, hs.2.1]
  exact NodesOnlyDiffer.apply_node_map (NodesOnlyDiffer.apply_edge_map hs.2.2.2.2.2 _) _

end SorterRel

/-- If two lists are mapped by functions that agree on related pairs, the
images are related elementwise. -/
theorem forall2_map_same {R : β → β → Prop} {l : List α} {f f' : α → β}
    (h : ∀ x ∈ l, R (f x) (f' x)) : List.Forall₂ R (l.map f) (l.map f') := by
  induction l with
  | nil => exact List.Forall₂.nil
  | cons x xs ih =>
    exact List.Forall₂.cons (h x (List.mem_cons_self x xs))
      (ih fun y hy => h y (List.mem_cons_of_mem x hy))

/-- A function constant on `R`-related pairs maps `Forall₂ R`-related lists
to equal lists. -/
theorem map_eq_of_forall2 {R : α → α → Prop} {l l' : List α} {f : α → β}
    (h : List.Forall₂ R l l') (hf : ∀ a b, R a b → f a = f b) : l.map f = l'.map f := by
  induction h with
  | nil => rfl
  | cons hab _ ih => simp [hf _ _ hab, ih]

namespace NodesOnlyDiffer

theorem remove_redundant_hyperedges {g g' : StructuredHypergraph} (h : NodesOnlyDiffer g g') :
    NodesOnlyDiffer g.remove_redundant_hyperedges g'.remove_redundant_hyperedges := by
  have hf := flatten_nodes h
  unfold StructuredHypergraph.remove_redundant_hyperedges
  rw [← hf.1]
  by_cases hc : (StructuredHypergraph.desc_len_sorted g.flatten_nodes.hyperedges).length
    ≠ (StructuredHypergraph.keep_non_redundant
      (StructuredHypergraph.desc_len_sorted g.flatten_nodes.hyperedges)).length
  · rw [if_pos hc, if_pos hc]
    apply flatten_nodes
    exact ⟨rfl, hf.2.1, hf.2.2.1, hf.2.2.2⟩
  · rw [if_neg hc, if_neg hc]
    exact ⟨rfl, hf.2.1, hf.2.2.1, hf.2.2.2⟩

theorem edge_buckets_eq {g g' : StructuredHypergraph} (h : NodesOnlyDiffer g g') :
    StructuredHypergraph.edge_buckets g = StructuredHypergraph.edge_buckets g' := by
  unfold StructuredHypergraph.edge_buckets
  rw [h.1, h.2.2.2]

theorem get_parts {g g' : StructuredHypergraph} (h : NodesOnlyDiffer g g') :
    List.Forall₂ NodesOnlyDiffer g.get_parts g'.get_parts := by
  unfold StructuredHypergraph.get_parts
  rw [← edge_buckets_eq h]
  by_cases hb : (StructuredHypergraph.edge_buckets g).length = 1
  · simp only [hb, if_pos]
    exact List.Forall₂.cons (SorterRel.sort h) List.Forall₂.nil
  · simp only [hb, if_neg, not_false_iff]
    rw [← h.1]
    exact forall2_map_same fun p _ =>
      SorterRel.sort (flatten_nodes ⟨rfl, rfl, rfl, h.2.2.2⟩)

end NodesOnlyDiffer

/-- Node labels (of equal count) do not influence the hyperedges, the
partitions or the node counts of the constructed components. -/
theorem from_hyperedges_with_nodes_congr {es : List Bits} {ns ns' : List Nat}
    (h : ns.length = ns'.length) :
    List.Forall₂ NodesOnlyDiffer (StructuredHypergraph.from_hyperedges_with_nodes es ns)
      (StructuredHypergraph.from_hyperedges_with_nodes es ns') := by
  unfold StructuredHypergraph.from_hyperedges_with_nodes
  exact NodesOnlyDiffer.get_parts
    (NodesOnlyDiffer.remove_redundant_hyperedges ⟨rfl, rfl, rfl, h⟩)

/-- `minus` congruence: label-equivalent inputs yield componentwise
label-equivalent outputs. -/
theorem minus_congr {g g' : StructuredHypergraph} (h : NodesOnlyDiffer g g') (mask : Bits) :
    List.Forall₂ NodesOnlyDiffer (g.minus mask) (g'.minus mask) := by
  unfold StructuredHypergraph.minus
  rw [← h.1]
  exact from_hyperedges_with_nodes_congr h.2.2.2

/-- Positions whose graphs differ only in node labels. -/
def TGRel (a b : TakingGame) : Prop := NodesOnlyDiffer a.graph b.graph

/-- Map both sides of an elementwise relation. -/
theorem forall2_map_both {R : α → α → Prop} {S : β → β → Prop} {l l' : List α} {f : α → β}
    (h : List.Forall₂ R l l') (hf : ∀ a b, R a b → S (f a) (f b)) :
    List.Forall₂ S (l.map f) (l'.map f) := by
  induction h with
  | nil => exact List.Forall₂.nil
  | cons hab _ ih => exact List.Forall₂.cons (hf _ _ hab) ih

theorem with_nodes_removed_congr {a b : TakingGame} (h : TGRel a b) (mask : Bits) :
    List.Forall₂ TGRel (a.with_nodes_removed mask) (b.with_nodes_removed mask) := by
  unfold TakingGame.with_nodes_removed
  exact forall2_map_both (minus_congr h mask) fun x y hxy => hxy

/-- The part of a position its Sprague–Grundy value can depend on: the
hyperedges and the node count. -/
def GRel (a b : TakingGame) : Prop :=
  a.graph.hyperedges = b.graph.hyperedges ∧ a.graph.nodes.length = b.graph.nodes.length

theorem minus_congr_weak {g g' : StructuredHypergraph} (hE : g.hyperedges = g'.hyperedges)
    (hN : g.nodes.length = g'.nodes.length) (mask : Bits) :
    List.Forall₂ NodesOnlyDiffer (g.minus mask) (g'.minus mask) := by
  unfold StructuredHypergraph.minus
  rw [hE]
  exact from_hyperedges_with_nodes_congr hN

theorem with_nodes_removed_congr_weak {a b : TakingGame} (h : GRel a b) (mask : Bits) :
    List.Forall₂ GRel (a.with_nodes_removed mask) (b.with_nodes_removed mask) := by
  unfold TakingGame.with_nodes_removed
  exact forall2_map_both (minus_congr_weak h.1 h.2 mask) fun x y hxy => ⟨hxy.1, hxy.2.2.2⟩

theorem legal_removals_congr {a b : TakingGame} (h : GRel a b) :
    legal_removals a = legal_removals b := by
  unfold legal_removals
  rw [h.1]

theorem gvalC_zero (g : TakingGame) : gvalC 0 g = none := rfl

theorem gvalC_succ (fuel : Nat) (g : TakingGame) :
    gvalC (fuel + 1) g = (option_list ((legal_removals g).map fun m =>
      gvalS fuel (g.with_nodes_removed m))).map mex := rfl

theorem gvalS_eq (fuel : Nat) (l : List TakingGame) :
    gvalS fuel l = (option_list (l.map fun c => gvalC fuel c)).map xor_fold := rfl

/-- `gvalC` is invariant under `GRel`: node labels and structure
partitions do not influence the value. -/
theorem gvalC_congr : ∀ fuel, ∀ {a b : TakingGame}, GRel a b →
    gvalC fuel a = gvalC fuel b := by
  intro fuel
  induction fuel with
  | zero => intro a b _; rw [gvalC_zero, gvalC_zero]
  | succ n ih =>
    intro a b h
    rw [gvalC_succ, gvalC_succ, legal_removals_congr h]
    have hmaps : ((legal_removals b).map fun m => gvalS n (a.with_nodes_removed m))
        = ((legal_removals b).map fun m => gvalS n (b.with_nodes_removed m)) := by
      refine List.map_congr_left fun m _ => ?_
      rw [gvalS_eq, gvalS_eq,
        map_eq_of_forall2 (with_nodes_removed_congr_weak h m) fun x y hxy => ih hxy]
    rw [hmaps]

theorem gvalS_congr (fuel : Nat) {l l' : List TakingGame} (h : List.Forall₂ GRel l l') :
    gvalS fuel l = gvalS fuel l' := by
  rw [gvalS_eq, gvalS_eq, map_eq_of_forall2 h fun x y hxy => gvalC_congr fuel hxy]

/-- If every element of a mapped option-list succeeds at `f` then it also
succeeds, with the same values, at any pointwise-larger `f'`. -/
theorem option_list_map_mono {f f' : α → Option β} {l : List α} {vs : List β}
    (h : option_list (l.map f) = some vs)
    (hf : ∀ x ∈ l, ∀ v, f x = some v → f' x = some v) :
    option_list (l.map f') = some vs := by
  induction l generalizing vs with
  | nil => simpa [option_list] using h
  | cons x xs ih =>
    rw [List.map_cons] at h
    cases hx : f x with
    | none => rw [hx, option_list] at h; exact absurd h (by simp)
    | some v =>
      rw [hx, option_list] at h
      obtain ⟨ws, hws, hcons⟩ := Option.map_eq_some'.mp h
      rw [List.map_cons, hf x (List.mem_cons_self x xs) v hx, option_list,
        ih hws (fun y hy => hf y (List.mem_cons_of_mem x hy))]
      simpa using hcons

/-- Fuel monotonicity: a defined value stays the same with more fuel. -/
theorem gval_mono : ∀ fuel,
    (∀ g v, gvalC fuel g = some v → gvalC (fuel + 1) g = some v) ∧
    (∀ l v, gvalS fuel l = some v → gvalS (fuel + 1) l = some v) := by
  intro fuel
  induction fuel with
  | zero =>
    constructor
    · intro g v h
      rw [gvalC_zero] at h
      exact absurd h (by simp)
    · intro l v h
      rw [gvalS_eq] at h
      rw [gvalS_eq]
      obtain ⟨vs, hvs, hv⟩ := Option.map_eq_some'.mp h
      rw [Option.map_eq_some']
      refine ⟨vs, option_list_map_mono hvs (fun x _ w hx => ?_), hv⟩
      rw [gvalC_zero] at hx
      exact absurd hx (by simp)
  | succ n ih =>
    have hC : ∀ g v, gvalC (n + 1) g = some v → gvalC (n + 1 + 1) g = some v := by
      intro g v h
      rw [gvalC_succ] at h
      rw [gvalC_succ]
      obtain ⟨vs, hvs, hv⟩ := Option.map_eq_some'.mp h
      rw [Option.map_eq_some']
      exact ⟨vs, option_list_map_mono hvs (fun m _ w hm => ih.2 _ w hm), hv⟩
    refine ⟨hC, ?_⟩
    intro l v h
    rw [gvalS_eq] at h
    rw [gvalS_eq]
    obtain ⟨vs, hvs, hv⟩ := Option.map_eq_some'.mp h
    rw [Option.map_eq_some']
    exact ⟨vs, option_list_map_mono hvs (fun x _ w hx => hC x w hx), hv⟩

theorem gvalC_mono_le {g : TakingGame} {v : Nat} {k k' : Nat} (hk : k ≤ k')
    (h : gvalC k g = some v) : gvalC k' g = some v := by
  induction k' with
  | zero => cases Nat.le_zero.mp hk; exact h
  | succ n ih =>
    rcases Nat.lt_or_ge k (n + 1) with hlt | hge
    · exact (gval_mono n).1 g v (ih (Nat.lt_succ_iff.mp hlt))
    · cases Nat.le_antisymm hk hge; exact h

theorem gvalS_mono_le {l : List TakingGame} {v : Nat} {k k' : Nat} (hk : k ≤ k')
    (h : gvalS k l = some v) : gvalS k' l = some v := by
  induction k' with
  | zero => cases Nat.le_zero.mp hk; exact h
  | succ n ih =>
    rcases Nat.lt_or_ge k (n + 1) with hlt | hge
    · exact (gval_mono n).2 l v (ih (Nat.lt_succ_iff.mp hlt))
    · cases Nat.le_antisymm hk hge; exact h

/-- The Sprague–Grundy value of a position is unique. -/
theorem hasValC_unique {g : TakingGame} {v w : Nat} (hv : HasValC g v) (hw : HasValC g w) :
    v = w := by
  obtain ⟨k1, h1⟩ := hv
  obtain ⟨k2, h2⟩ := hw
  have e1 := gvalC_mono_le (Nat.le_max_left k1 k2) h1
  have e2 := gvalC_mono_le (Nat.le_max_right k1 k2) h2
  rw [e1] at e2
  exact Option.some_inj.mp e2

/-- The Sprague–Grundy value of a game state is unique. -/
theorem hasValS_unique {l : List TakingGame} {v w : Nat} (hv : HasValS l v) (hw : HasValS l w) :
    v = w := by
  obtain ⟨k1, h1⟩ := hv
  obtain ⟨k2, h2⟩ := hw
  have e1 := gvalS_mono_le (Nat.le_max_left k1 k2) h1
  have e2 := gvalS_mono_le (Nat.le_max_right k1 k2) h2
  rw [e1] at e2
  exact Option.some_inj.mp e2

/-! ## Certified value tables

A table assigns a value to a key `(hyperedges, node count)` — the data
`gvalC` depends on (`gvalC_congr`).  The checker replays, for the
representative position of every key, every legal removal, looks the
resulting components up in the table (insisting that their node counts
strictly decrease) and recomputes the mex.  Its soundness theorem turns
one successful run of the checker into `HasValC` facts. -/

/-- The canonical representative position of a table key. -/
def rep_game (k : List Bits × Nat) : TakingGame :=
  ⟨⟨k.1, List.range k.2, [], []⟩⟩

/-- Look a position up in a value table by its hyperedges and node count. -/
def lookup_val (tbl : List ((List Bits × Nat) × Nat)) (g : TakingGame) : Option Nat :=
  (tbl.find? fun e => e.1.1 == g.graph.hyperedges && e.1.2 == g.graph.nodes.length).map (·.2)

/-- Check one table entry: every successor component is in the table with
a strictly smaller node count, and the entry's value is the mex of the
successor values. -/
def check_entry (tbl : List ((List Bits × Nat) × Nat)) (e : (List Bits × Nat) × Nat) : Bool :=
  ((legal_removals (rep_game e.1)).all fun m =>
    ((rep_game e.1).with_nodes_removed m).all fun c =>
      (lookup_val tbl c).isSome && decide (c.graph.nodes.length < e.1.2))
  && (e.2 == mex ((legal_removals (rep_game e.1)).map fun m =>
      xor_fold (((rep_game e.1).with_nodes_removed m).map fun c => (lookup_val tbl c).getD 0)))

/-- Check a whole value table. -/
def check_table (tbl : List ((List Bits × Nat) × Nat)) : Bool := tbl.all (check_entry tbl)

theorem option_list_map_eq_some {f : α → Option β} {g : α → β} {l : List α}
    (h : ∀ x ∈ l, f x = some (g x)) : option_list (l.map f) = some (l.map g) := by
  induction l with
  | nil => rfl
  | cons x xs ih =>
    rw [List.map_cons, h x (List.mem_cons_self x xs), option_list,
      ih fun y hy => h y (List.mem_cons_of_mem x hy)]
    rfl

theorem gvalS_of_components {K : Nat} {comps : List TakingGame} {f : TakingGame → Nat}
    (h : ∀ c ∈ comps, gvalC K c = some (f c)) :
    gvalS K comps = some (xor_fold (comps.map f)) := by
  rw [gvalS_eq, option_list_map_eq_some h]
  rfl

theorem exists_uniform_fuel {l : List TakingGame} {f : TakingGame → Nat}
    (h : ∀ c ∈ l, HasValC c (f c)) : ∃ K, ∀ c ∈ l, gvalC K c = some (f c) := by
  induction l with
  | nil => exact ⟨0, by simp⟩
  | cons x xs ih =>
    obtain ⟨K1, h1⟩ := h x (List.mem_cons_self x xs)
    obtain ⟨K2, h2⟩ := ih fun c hc => h c (List.mem_cons_of_mem x hc)
    refine ⟨max K1 K2, fun c hc => ?_⟩
    rcases List.mem_cons.mp hc with rfl | hmem
    · exact gvalC_mono_le (Nat.le_max_left K1 K2) h1
    · exact gvalC_mono_le (Nat.le_max_right K1 K2) (h2 c hmem)

theorem entry_sound_of {tbl : List ((List Bits × Nat) × Nat)} {e : (List Bits × Nat) × Nat}
    (hce : check_entry tbl e = true)
    (hIH : ∀ m ∈ legal_removals (rep_game e.1), ∀ c ∈ (rep_game e.1).with_nodes_removed m,
      HasValC c ((lookup_val tbl c).getD 0)) :
    HasValC (rep_game e.1) e.2 := by
  have hce' := hce
  rw [check_entry, Bool.and_eq_true] at hce'
  have hval : e.2 = mex ((legal_removals (rep_game e.1)).map fun m =>
      xor_fold (((rep_game e.1).with_nodes_removed m).map fun c =>
        (lookup_val tbl c).getD 0)) := eq_of_beq hce'.2
  have hflat : ∀ c ∈ (legal_removals (rep_game e.1)).flatMap
      (fun m => (rep_game e.1).with_nodes_removed m),
      HasValC c ((lookup_val tbl c).getD 0) := by
    intro c hc
    obtain ⟨m, hm, hcm⟩ := List.mem_flatMap.mp hc
    exact hIH m hm c hcm
  obtain ⟨K, hK⟩ := exists_uniform_fuel hflat
  refine ⟨K + 1, ?_⟩
  rw [gvalC_succ, option_list_map_eq_some fun m hm =>
    gvalS_of_components fun c hc =>
      hK c (List.mem_flatMap.mpr ⟨m, hm, hc⟩)]
  rw [Option.map_some']
  rw [← hval]

theorem check_table_sound {tbl : List ((List Bits × Nat) × Nat)}
    (hck : check_table tbl = true) : ∀ e ∈ tbl, HasValC (rep_game e.1) e.2 := by
  suffices H : ∀ n, ∀ e ∈ tbl, e.1.2 ≤ n → HasValC (rep_game e.1) e.2 by
    exact fun e he => H e.1.2 e he (Nat.le_refl _)
  intro n
  induction n with
  | zero =>
    intro e he hle
    have hce : check_entry tbl e = true := List.all_eq_true.mp hck e he
    refine entry_sound_of hce fun m hm c hc => ?_
    have hce' := hce
    rw [check_entry, Bool.and_eq_true] at hce'
    have h2 := List.all_eq_true.mp (List.all_eq_true.mp hce'.1 m hm) c hc
    rw [Bool.and_eq_true] at h2
    have hlt := of_decide_eq_true h2.2
    omega
  | succ n ih =>
    intro e he hle
    have hce : check_entry tbl e = true := List.all_eq_true.mp hck e he
    refine entry_sound_of hce fun m hm c hc => ?_
    have hce' := hce
    rw [check_entry, Bool.and_eq_true] at hce'
    have h2 := List.all_eq_true.mp (List.all_eq_true.mp hce'.1 m hm) c hc
    rw [Bool.and_eq_true] at h2
    have hlt := of_decide_eq_true h2.2
    have hsome := h2.1
    obtain ⟨vc, hvc⟩ := Option.isSome_iff_exists.mp hsome
    obtain ⟨en, hfind, hen2⟩ := Option.map_eq_some'.mp hvc
    have hmem := List.mem_of_find?_eq_some hfind
    have hpred := List.find?_some hfind
    rw [Bool.and_eq_true] at hpred
    obtain ⟨hkey1, hkey2⟩ := hpred
    have hk1 : en.1.1 = c.graph.hyperedges := eq_of_beq hkey1
    have hk2 : en.1.2 = c.graph.nodes.length := eq_of_beq hkey2
    have hrep := ih en hmem (by omega)
    have hcongr : GRel (rep_game en.1) c := by
      unfold rep_game GRel
      exact ⟨hk1, by simpa using hk2⟩
    rw [hvc]
    obtain ⟨K, hKv⟩ := hrep
    refine ⟨K, ?_⟩
    rw [← gvalC_congr K hcongr, hKv, hen2]
    rfl

/-- A table lookup that matches a position's hyperedges and node count
yields its Sprague–Grundy value, once the table checks out. -/
theorem hasValC_of_table (tbl : List ((List Bits × Nat) × Nat)) (e : (List Bits × Nat) × Nat)
    (g : TakingGame) (hck : check_table tbl = true) (he : e ∈ tbl)
    (h1 : g.graph.hyperedges = e.1.1) (h2 : g.graph.nodes.length = e.1.2) :
    HasValC g e.2 := by
  obtain ⟨K, hK⟩ := check_table_sound hck e he
  have hrel : GRel g (rep_game e.1) := by
    refine ⟨?_, ?_⟩
    · rw [h1]; rfl
    · rw [h2]; simp [rep_game]
  exact ⟨K, by rw [gvalC_congr K hrel]; exact hK⟩

/-- A single-component state has the value of its component. -/
theorem hasValS_singleton {c : TakingGame} {v : Nat} (h : HasValC c v) : HasValS [c] v := by
  obtain ⟨K, hK⟩ := h
  refine ⟨K, ?_⟩
  rw [gvalS_eq]
  have hx : Nat.xor 0 v = v := Nat.zero_xor v
  simp [option_list, hK, xor_fold, hx]

set_option maxHeartbeats 8000000
set_option maxRecDepth 100000

/-! ## Sorter permutation invariant -/

theorem insertLe_perm {α : Type _} (le : α → α → Bool) (x : α) :
    ∀ l : List α, (insertLe le x l).Perm (x :: l) := by
  intro l
  induction l with
  | nil => exact List.Perm.refl _
  | cons y ys ih =>
    rw [insertLe]
    by_cases h : le x y = true
    · rw [if_pos h]
    · rw [if_neg h]
      exact (List.Perm.cons y ih).trans (List.Perm.swap x y ys)

theorem sortLe_perm {α : Type _} (le : α → α → Bool) :
    ∀ l : List α, (sortLe le l).Perm l := by
  intro l
  induction l with
  | nil => exact List.Perm.refl _
  | cons x xs ih =>
    rw [sortLe]
    exact (insertLe_perm le x (sortLe le xs)).trans (List.Perm.cons x ih)

/-- Valid window boundaries: every consecutive pair is ordered and within
`k`. -/
def IsBounds (b : List Nat) (k : Nat) : Prop :=
  ∀ w ∈ b.zip b.tail, w.1 ≤ w.2 ∧ w.2 ≤ k

theorem window_perm {α : Type _} {l : List α} {w1 w2 : Nat} (h1 : w1 ≤ w2)
    (h2 : w2 ≤ l.length) (le : α → α → Bool) :
    (l.take w1 ++ sortLe le ((l.drop w1).take (w2 - w1)) ++ l.drop w2).Perm l := by
  have hd : (l.drop w1).drop (w2 - w1) = l.drop w2 := by
    rw [List.drop_drop]
    congr 1
    omega
  have hsplit : l = l.take w1 ++ ((l.drop w1).take (w2 - w1) ++ l.drop w2) := by
    conv_lhs => rw [← List.take_append_drop w1 l]
    congr 1
    rw [← hd, List.take_append_drop]
  have hperm : (l.take w1 ++ (sortLe le ((l.drop w1).take (w2 - w1)) ++ l.drop w2)).Perm
      (l.take w1 ++ ((l.drop w1).take (w2 - w1) ++ l.drop w2)) :=
    List.Perm.append_left _ (List.Perm.append_right _ (sortLe_perm le _))
  rw [List.append_assoc]
  exact hperm.trans (List.Perm.of_eq hsplit.symm)

theorem sort_partitions_perm (keys : List (List Nat)) :
    ∀ (ws : List (Nat × Nat)) (p : List Nat),
    (∀ w ∈ ws, w.1 ≤ w.2 ∧ w.2 ≤ p.length) →
    (ws.foldl
      (fun perm w =>
        perm.take w.1 ++ sortLe (fun a b => lexLe (keys.getD a []) (keys.getD b []))
          ((perm.drop w.1).take (w.2 - w.1)) ++ perm.drop w.2)
      p).Perm p := by
  intro ws
  induction ws with
  | nil => intro p _; exact List.Perm.refl p
  | cons w ws ih =>
    intro p hb
    rw [List.foldl_cons]
    have hw := hb w (List.mem_cons_self w ws)
    have hstep := window_perm hw.1 hw.2
      (fun a b => lexLe (keys.getD a []) (keys.getD b []))
    refine (ih _ ?_).trans hstep
    intro v hv
    rw [hstep.length_eq]
    exact hb v (List.mem_cons_of_mem w hv)

theorem sort_partitions_by_key_perm {b : List Nat} {k : Nat} (hb : IsBounds b k)
    {p : List Nat} (hp : p.length = k) (keys : List (List Nat)) :
    (SorterState.sort_partitions_by_key b p keys).Perm p := by
  unfold SorterState.sort_partitions_by_key
  apply sort_partitions_perm keys
  intro w hw
  obtain ⟨h1, h2⟩ := hb w hw
  omega

theorem pairwise_zip_tail {R : Nat → Nat → Prop} :
    ∀ {l : List Nat}, l.Pairwise R → ∀ w ∈ l.zip l.tail, R w.1 w.2 := by
  intro l
  induction l with
  | nil => intro _ w hw; exact absurd hw (List.not_mem_nil w)
  | cons x xs ih =>
    intro hp w hw
    cases xs with
    | nil => exact absurd hw (List.not_mem_nil w)
    | cons y ys =>
      rw [show (x :: y :: ys).tail = y :: ys from rfl, List.zip_cons_cons] at hw
      rcases List.mem_cons.mp hw with rfl | hmem
      · exact (List.pairwise_cons.mp hp).1 y (List.mem_cons_self y ys)
      · exact ih (List.pairwise_cons.mp hp).2 w hmem

theorem isBounds_of_sorted {l : List Nat} {k : Nat} (hp : l.Pairwise (· ≤ ·))
    (hk : ∀ x ∈ l, x ≤ k) : IsBounds l k := by
  intro w hw
  refine ⟨pairwise_zip_tail hp w hw, ?_⟩
  have := List.of_mem_zip hw
  exact hk w.2 (List.mem_of_mem_tail this.2)

theorem refine_isBounds (perm : List Nat) (keys : List (List Nat)) :
    IsBounds (SorterState.refine_partitions_by_key perm keys) keys.length := by
  unfold SorterState.refine_partitions_by_key
  have hmemF : ∀ x ∈ ((List.range keys.length).drop 1).filter
      (fun i => !(keys.getD (perm.getD (i - 1) 0) [] == keys.getD (perm.getD i 0) [])),
      x < keys.length := by
    intro x hx
    have := List.mem_of_mem_filter hx
    have := List.mem_of_mem_drop this
    exact List.mem_range.mp this
  apply isBounds_of_sorted
  · rw [List.pairwise_append]
    refine ⟨?_, List.pairwise_singleton _ _, ?_⟩
    · refine List.Pairwise.cons ?_ ?_
      · intro y _
        omega
      · apply List.Pairwise.imp (fun h => Nat.le_of_lt h)
        apply List.Pairwise.sublist (List.filter_sublist _)
        apply List.Pairwise.sublist (List.drop_sublist 1 _)
        exact List.pairwise_lt_range keys.length
    · intro a ha b hb
      rw [List.mem_singleton] at hb
      subst hb
      rcases List.mem_cons.mp ha with rfl | ha
      · omega
      · exact Nat.le_of_lt (hmemF a ha)
  · intro x hx
    rcases List.mem_append.mp hx with hx | hx
    · rcases List.mem_cons.mp hx with rfl | hx
      · omega
      · exact Nat.le_of_lt (hmemF x hx)
    · rw [List.mem_singleton] at hx
      omega

/-- Everything the sorter maintains: the two permutations, valid partition
boundaries, key lengths, and the untouched hypergraph data. -/
structure SInv (g : StructuredHypergraph) (s : SorterState) : Prop where
  nm : s.node_map.Perm (List.range g.nodes.length)
  em : s.edge_map.Perm (List.range g.hyperedges.length)
  nb : IsBounds s.hypergraph.node_structure_partitions g.nodes.length
  eb : IsBounds s.hypergraph.edge_structure_partitions g.hyperedges.length
  nk : s.node_keys.length = g.nodes.length
  ek : s.edge_keys.length = g.hyperedges.length
  du : s.dual = g.dual
  he : s.hypergraph.hyperedges = g.hyperedges
  no : s.hypergraph.nodes = g.nodes

theorem dual_length (g : StructuredHypergraph) : g.dual.length = g.nodes.length := by
  unfold StructuredHypergraph.dual
  rw [List.length_map, List.length_range]

theorem sInv_build_node_keys {g : StructuredHypergraph} {s : SorterState} (h : SInv g s)
    (km : List Nat) : SInv g (SorterState.build_node_keys s km) := by
  cases h with
  | mk nm em nb eb nk ek du he no =>
    refine ⟨nm, em, nb, eb, ?_, ek, du, he, no⟩
    show (s.dual.map _).length = g.nodes.length
    rw [List.length_map, du, dual_length]

theorem sInv_build_edge_keys {g : StructuredHypergraph} {s : SorterState} (h : SInv g s)
    (km : List Nat) : SInv g (SorterState.build_edge_keys s km) := by
  cases h with
  | mk nm em nb eb nk ek du he no =>
    refine ⟨nm, em, nb, eb, nk, ?_, du, he, no⟩
    show (s.hypergraph.hyperedges.map _).length = g.hyperedges.length
    rw [List.length_map, he]

theorem sInv_sort_nodes {g : StructuredHypergraph} {s : SorterState} (h : SInv g s) :
    SInv g (SorterState.sort_nodes s) := by
  cases h with
  | mk nm em nb eb nk ek du he no =>
    refine ⟨?_, em, nb, eb, nk, ek, du, he, no⟩
    show (SorterState.sort_partitions_by_key s.hypergraph.node_structure_partitions
      s.node_map s.node_keys).Perm (List.range g.nodes.length)
    refine (sort_partitions_by_key_perm nb ?_ s.node_keys).trans nm
    rw [nm.length_eq, List.length_range]

theorem sInv_sort_edges {g : StructuredHypergraph} {s : SorterState} (h : SInv g s) :
    SInv g (SorterState.sort_edges s) := by
  cases h with
  | mk nm em nb eb nk ek du he no =>
    refine ⟨nm, ?_, nb, eb, nk, ek, du, he, no⟩
    show (SorterState.sort_partitions_by_key s.hypergraph.edge_structure_partitions
      s.edge_map s.edge_keys).Perm (List.range g.hyperedges.length)
    refine (sort_partitions_by_key_perm eb ?_ s.edge_keys).trans em
    rw [em.length_eq, List.length_range]

theorem sInv_refine_nodes {g : StructuredHypergraph} {s : SorterState} (h : SInv g s) :
    SInv g (SorterState.refine_nodes s) := by
  cases h with
  | mk nm em nb eb nk ek du he no =>
    refine ⟨nm, em, ?_, eb, nk, ek, du, he, no⟩
    show IsBounds (SorterState.refine_partitions_by_key s.node_map s.node_keys) g.nodes.length
    rw [← nk]
    exact refine_isBounds s.node_map s.node_keys

theorem sInv_refine_edges {g : StructuredHypergraph} {s : SorterState} (h : SInv g s) :
    SInv g (SorterState.refine_edges s) := by
  cases h with
  | mk nm em nb eb nk ek du he no =>
    refine ⟨nm, em, nb, ?_, nk, ek, du, he, no⟩
    show IsBounds (SorterState.refine_partitions_by_key s.edge_map s.edge_keys)
      g.hyperedges.length
    rw [← ek]
    exact refine_isBounds s.edge_map s.edge_keys

theorem sInv_classes_half {g : StructuredHypergraph} {s : SorterState} (h : SInv g s) :
    SInv g (SorterState.classes_half s) :=
  sInv_refine_nodes (sInv_sort_nodes (sInv_build_node_keys h _))

theorem sInv_classes_step {g : StructuredHypergraph} {s : SorterState} (h : SInv g s) :
    SInv g (SorterState.classes_step s) :=
  sInv_refine_edges (sInv_sort_edges (sInv_build_edge_keys (sInv_classes_half h) _))

theorem sInv_build_classes {g : StructuredHypergraph} : ∀ (fuel : Nat) {s : SorterState},
    SInv g s → SInv g (SorterState.build_structural_eq_classes fuel s) := by
  intro fuel
  induction fuel with
  | zero => intro s h; exact h
  | succ n ih =>
    intro s h
    rw [SorterState.build_structural_eq_classes]
    by_cases hc : SorterState.partition_count s
        = SorterState.partition_count (SorterState.classes_step s)
    · rw [if_pos hc]
      exact sInv_classes_step h
    · rw [if_neg hc]
      exact ih (sInv_classes_step h)

theorem sInv_canon_half {g : StructuredHypergraph} {s : SorterState} (h : SInv g s) :
    SInv g (SorterState.canon_half s) :=
  sInv_sort_nodes (sInv_build_node_keys h _)

theorem sInv_canon_full {g : StructuredHypergraph} {s : SorterState} (h : SInv g s) :
    SInv g (SorterState.canon_full s) :=
  sInv_sort_edges (sInv_build_edge_keys (sInv_canon_half h) _)

theorem sInv_sort_canonically {g : StructuredHypergraph} : ∀ (fuel : Nat) {s : SorterState},
    SInv g s → SInv g (SorterState.sort_canonically fuel s) := by
  intro fuel
  induction fuel with
  | zero => intro s h; exact h
  | succ n ih =>
    intro s h
    rw [SorterState.sort_canonically]
    by_cases hc : SorterState.canon_stable s = true
    · rw [if_pos hc]
      exact sInv_canon_full h
    · rw [if_neg hc]
      exact ih (sInv_canon_full h)

theorem sInv_initial_state (g : StructuredHypergraph) : SInv g (SorterState.initial_state g) := by
  refine ⟨List.Perm.refl _, List.Perm.refl _, ?_, ?_, ?_, ?_, rfl, rfl, rfl⟩
  · show IsBounds [0, g.nodes.length] g.nodes.length
    intro w hw
    have hw' : w = (0, g.nodes.length) := by simpa using hw
    subst hw'
    exact ⟨Nat.zero_le _, le_refl _⟩
  · show IsBounds [0, g.hyperedges.length] g.hyperedges.length
    intro w hw
    have hw' : w = (0, g.hyperedges.length) := by simpa using hw
    subst hw'
    exact ⟨Nat.zero_le _, le_refl _⟩
  · show (SorterState.get_initial_keys (g.dual.map List.length)).length = g.nodes.length
    unfold SorterState.get_initial_keys
    rw [List.length_map, List.length_map, dual_length]
  · show (SorterState.get_initial_keys (g.hyperedges.map Bitset128.len)).length
      = g.hyperedges.length
    unfold SorterState.get_initial_keys
    rw [List.length_map, List.length_map]

theorem sInv_sorted_state (g : StructuredHypergraph) : SInv g (SorterState.sorted_state g) := by
  unfold SorterState.sorted_state
  exact sInv_sort_canonically 128
    (sInv_build_classes _ (sInv_sort_nodes (sInv_sort_edges (sInv_initial_state g))))

theorem apply_node_map_nodes (g : StructuredHypergraph) (m : List Nat) :
    (g.apply_node_map m).nodes = m.map fun old => g.nodes.getD old 0 := rfl

theorem apply_node_map_hyperedges (g : StructuredHypergraph) (m : List Nat) :
    (g.apply_node_map m).hyperedges
      = g.hyperedges.map fun e => Bitset128.apply_node_map e m := rfl

theorem apply_edge_map_nodes (g : StructuredHypergraph) (m : List Nat) :
    (g.apply_edge_map m).nodes = g.nodes := rfl

theorem apply_edge_map_hyperedges (g : StructuredHypergraph) (m : List Nat) :
    (g.apply_edge_map m).hyperedges = m.map fun i => g.hyperedges.getD i 0 := rfl

theorem sort_nodes_form (g : StructuredHypergraph) :
    (SorterState.sort g).nodes
      = (SorterState.sorted_state g).node_map.map fun old => g.nodes.getD old 0 := by
  unfold SorterState.sort
  rw [apply_node_map_nodes, apply_edge_map_nodes, (sInv_sorted_state g).no]

theorem sort_nodes_length (g : StructuredHypergraph) :
    (SorterState.sort g).nodes.length = g.nodes.length := by
  rw [sort_nodes_form, List.length_map, (sInv_sorted_state g).nm.length_eq, List.length_range]

theorem sort_hyperedges_form (g : StructuredHypergraph) :
    (SorterState.sort g).hyperedges
      = ((SorterState.sorted_state g).edge_map.map fun i => g.hyperedges.getD i 0).map
        fun e => Bitset128.apply_node_map e (SorterState.sorted_state g).node_map := by
  unfold SorterState.sort
  rw [apply_node_map_hyperedges, apply_edge_map_hyperedges, (sInv_sorted_state g).he]

/-! ## Pipeline node accounting -/

theorem len_eq_iter_length (b : Nat) : Bitset128.len b = (Bitset128.iter b).length := rfl

theorem len_le_of_lt_two_pow {b k : Nat} (h : b < 2 ^ k) : Bitset128.len b ≤ k := by
  rw [len_eq_card]
  have hsub : bfin b ⊆ Finset.range k := by
    intro i hi
    rw [mem_bfin] at hi
    rw [Finset.mem_range]
    by_contra hik
    have hf : b.testBit i = false := Nat.testBit_lt_two_pow
      (lt_of_lt_of_le h (Nat.pow_le_pow_right (by omega) (by omega)))
    rw [hf] at hi
    exact absurd hi.2 (by simp)
  calc (bfin b).card ≤ (Finset.range k).card := Finset.card_le_card hsub
    _ = k := Finset.card_range k

theorem lt_two_pow_of_testBit_false {b k : Nat} (h : ∀ i, k ≤ i → b.testBit i = false) :
    b < 2 ^ k := by
  by_contra hge
  push_neg at hge
  have hq : b / 2 ^ k ≠ 0 := by
    have h1 : 0 < 2 ^ k := Nat.pos_pow_of_pos k (by omega)
    have := Nat.one_le_div_iff h1 |>.mpr hge
    omega
  obtain ⟨j, hj⟩ := Nat.ne_zero_implies_bit_true hq
  rw [← Nat.shiftRight_eq_div_pow, Nat.testBit_shiftRight] at hj
  rw [h (k + j) (by omega)] at hj
  exact absurd hj (by simp)

theorem foldl_union_lt_pow {k : Nat} (es : List Nat) : ∀ b0 : Nat, b0 < 2 ^ k →
    (∀ e ∈ es, e < 2 ^ k) → es.foldl Bitset128.union b0 < 2 ^ k := by
  induction es with
  | nil => intro b0 h _; exact h
  | cons e es ih =>
    intro b0 h hall
    rw [List.foldl_cons]
    exact ih _ (Nat.or_lt_two_pow h (hall e (List.mem_cons_self e es)))
      fun x hx => hall x (List.mem_cons_of_mem e hx)

theorem bsub_foldl_union_of_subset {l1 l2 : List Nat} (h : ∀ e ∈ l1, e ∈ l2) :
    BSub (l1.foldl Bitset128.union 0) (l2.foldl Bitset128.union 0) := by
  intro i hi
  rw [testBit_foldl_union] at hi ⊢
  rcases Bool.or_eq_true _ _ |>.mp hi with hz | ha
  · rw [Nat.zero_testBit] at hz
    exact absurd hz (by simp)
  · obtain ⟨e, he, hbit⟩ := List.any_eq_true.mp ha
    have : l2.any (fun e => e.testBit i) = true := List.any_eq_true.mpr ⟨e, h e he, hbit⟩
    rw [this]
    simp

theorem apply_node_map_lt_two_pow {m : List Nat} (hm : m.length ≤ 128) (b : Nat) :
    Bitset128.apply_node_map b m < 2 ^ m.length := by
  unfold Bitset128.apply_node_map
  have haux : ∀ (idxs : List Nat), (∀ i ∈ idxs, i < m.length) →
      ∀ acc : Nat, acc < 2 ^ m.length →
      (idxs.foldl (fun acc new_idx =>
        if (b >>> ((m.getD new_idx 0) % 128)) &&& 1 != 0 then
          acc ||| (1 <<< (new_idx % 128))
        else acc) acc) < 2 ^ m.length := by
    intro idxs
    induction idxs with
    | nil => intro _ acc hacc; exact hacc
    | cons i idxs ih =>
      intro hmem acc hacc
      rw [List.foldl_cons]
      apply ih (fun x hx => hmem x (List.mem_cons_of_mem i hx))
      by_cases hc : ((b >>> ((m.getD i 0) % 128)) &&& 1 != 0) = true
      · rw [if_pos hc]
        have hilt : i < m.length := hmem i (List.mem_cons_self i idxs)
        have hmod : i % 128 = i := Nat.mod_eq_of_lt (by omega)
        have hsh : (1 : Nat) <<< (i % 128) = 2 ^ i := by
          rw [hmod, Nat.one_shiftLeft]
        rw [hsh]
        exact Nat.or_lt_two_pow hacc
          (Nat.pow_lt_pow_right (by omega) hilt)
      · rw [if_neg hc]
        exact hacc
  apply haux
  · intro i hi
    exact List.mem_range.mp hi
  · exact Nat.pos_pow_of_pos _ (by omega)

/-- Bit `t` of `apply_node_map b m` (for `t` within the map) is bit
`m[t] % 128` of `b`. -/
theorem apply_node_map_testBit_aux (b : Nat) (m : List Nat) :
    ∀ (idxs : List Nat) (acc : Nat) (t : Nat),
    ((idxs.foldl (fun acc new_idx =>
        if (b >>> ((m.getD new_idx 0) % 128)) &&& 1 != 0 then
          acc ||| (1 <<< (new_idx % 128))
        else acc) acc).testBit t)
      = (acc.testBit t || idxs.any fun idx =>
          decide (idx % 128 = t) && b.testBit ((m.getD idx 0) % 128)) := by
  have hcond : ∀ v : Nat, ((b >>> (v % 128)) &&& 1 != 0) = b.testBit (v % 128) := by
    intro v
    rw [Nat.shiftRight_eq_div_pow, Nat.and_one_is_mod, Nat.testBit_to_div_mod]
    rcases Nat.mod_two_eq_zero_or_one (b / 2 ^ (v % 128)) with h | h <;> rw [h] <;> rfl
  intro idxs
  induction idxs with
  | nil =>
    intro acc t
    simp
  | cons i idxs ih =>
    intro acc t
    rw [List.foldl_cons, ih]
    rw [List.any_cons]
    by_cases hc : ((b >>> ((m.getD i 0) % 128)) &&& 1 != 0) = true
    · rw [if_pos hc]
      have hb : b.testBit ((m.getD i 0) % 128) = true := by rw [← hcond]; exact hc
      rw [Nat.testBit_or, hb]
      have hsh : ((1 : Nat) <<< (i % 128)).testBit t = decide (i % 128 = t) := by
        rw [Nat.one_shiftLeft, Nat.testBit_two_pow]
      rw [hsh]
      cases hacc : acc.testBit t <;> cases hd : decide (i % 128 = t) <;> simp
    · rw [if_neg hc]
      have hb : b.testBit ((m.getD i 0) % 128) = false := by
        cases hx : b.testBit ((m.getD i 0) % 128)
        · rfl
        · rw [← hcond] at hx; exact absurd hx hc
      rw [hb]
      simp

theorem testBit_apply_node_map {m : List Nat} (hm : m.length ≤ 128) (b : Nat) (t : Nat) :
    (Bitset128.apply_node_map b m).testBit t
      = (decide (t < m.length) && b.testBit ((m.getD t 0) % 128)) := by
  unfold Bitset128.apply_node_map
  rw [apply_node_map_testBit_aux]
  rw [Nat.zero_testBit]
  by_cases ht : t < m.length
  · have : ((List.range m.length).any fun idx =>
        decide (idx % 128 = t) && b.testBit ((m.getD idx 0) % 128))
        = b.testBit ((m.getD t 0) % 128) := by
      cases hb : b.testBit ((m.getD t 0) % 128)
      · rw [List.any_eq_false]
        intro idx hidx
        rw [List.mem_range] at hidx
        have hidxm : idx % 128 = idx := Nat.mod_eq_of_lt (by omega)
        rw [hidxm]
        by_cases he : idx = t
        · subst he
          rw [hb]
          simp
        · simp [he]
      · refine List.any_eq_true.mpr ⟨t, List.mem_range.mpr ht, ?_⟩
        have : t % 128 = t := Nat.mod_eq_of_lt (by omega)
        rw [this, hb]
        simp
    rw [this]
    simp [ht]
  · have : ((List.range m.length).any fun idx =>
        decide (idx % 128 = t) && b.testBit ((m.getD idx 0) % 128)) = false := by
      rw [List.any_eq_false]
      intro idx hidx
      rw [List.mem_range] at hidx
      have hidxm : idx % 128 = idx := Nat.mod_eq_of_lt (by omega)
      rw [hidxm]
      have : idx ≠ t := by omega
      simp [this]
    rw [this]
    simp [ht]

theorem flatten_nodes_length_le (g : StructuredHypergraph) :
    g.flatten_nodes.nodes.length
      ≤ Bitset128.len (g.hyperedges.foldl Bitset128.union 0) := by
  unfold StructuredHypergraph.flatten_nodes
  simp only []
  by_cases hf : Bitset128.is_flattened (g.hyperedges.foldl Bitset128.union 0) = true
  · rw [if_pos hf]
    show (g.nodes.take (Bitset128.len (g.hyperedges.foldl Bitset128.union 0))).length ≤ _
    rw [List.length_take]
    exact min_le_left _ _
  · rw [if_neg hf]
    rw [apply_node_map_nodes, List.length_map, len_eq_iter_length]

theorem flatten_edges_lt (g : StructuredHypergraph)
    (hw : ∀ e ∈ g.hyperedges, e < 2 ^ 128) :
    ∀ e ∈ g.flatten_nodes.hyperedges,
      e < 2 ^ (Bitset128.len (g.hyperedges.foldl Bitset128.union 0)) := by
  have hU : g.hyperedges.foldl Bitset128.union 0 < 2 ^ 128 :=
    foldl_union_lt_pow _ 0 (Nat.pos_pow_of_pos _ (by omega)) hw
  unfold StructuredHypergraph.flatten_nodes
  simp only []
  by_cases hf : Bitset128.is_flattened (g.hyperedges.foldl Bitset128.union 0) = true
  · rw [if_pos hf]
    intro e he
    have he' : e ∈ g.hyperedges := he
    have hflat := is_flattened_eq hf hU
    apply lt_two_pow_of_testBit_false
    intro i hi
    have hU_i : (g.hyperedges.foldl Bitset128.union 0).testBit i = false := by
      rw [hflat, Nat.testBit_two_pow_sub_one]
      simp
      omega
    cases hx : e.testBit i
    · rfl
    · have := bsub_foldl_union_mem he' 0 i hx
      rw [hU_i] at this
      exact absurd this (by simp)
  · rw [if_neg hf]
    rw [apply_node_map_hyperedges]
    intro e he
    obtain ⟨e0, _, rfl⟩ := List.mem_map.mp he
    rw [len_eq_iter_length]
    exact apply_node_map_lt_two_pow (by rw [← len_eq_iter_length]; exact len_le_128 _) e0

theorem keep_non_redundant_mem : ∀ (es acc : List Nat),
    ∀ x ∈ es.foldl
      (fun acc e =>
        if !(Bitset128.is_empty e) && acc.all (fun ue => !(Bitset128.is_subset e ue)) then
          acc ++ [e]
        else acc) acc,
    x ∈ acc ∨ x ∈ es := by
  intro es
  induction es with
  | nil => intro acc x hx; exact Or.inl hx
  | cons e es ih =>
    intro acc x hx
    rw [List.foldl_cons] at hx
    rcases ih _ x hx with hx | hx
    · by_cases hc : (!(Bitset128.is_empty e)
          && acc.all fun ue => !(Bitset128.is_subset e ue)) = true
      · rw [if_pos hc] at hx
        rcases List.mem_append.mp hx with hx | hx
        · exact Or.inl hx
        · rw [List.mem_singleton] at hx
          exact Or.inr (hx ▸ List.mem_cons_self e es)
      · rw [if_neg hc] at hx
        exact Or.inl hx
    · exact Or.inr (List.mem_cons_of_mem e hx)

theorem keep_non_redundant_subset (es : List Nat) :
    ∀ x ∈ StructuredHypergraph.keep_non_redundant es, x ∈ es := by
  intro x hx
  rcases keep_non_redundant_mem es [] x hx with h | h
  · exact absurd h (List.not_mem_nil x)
  · exact h

theorem keep_non_redundant_nonzero : ∀ (es acc : List Nat), (∀ x ∈ acc, x ≠ 0) →
    ∀ x ∈ es.foldl
      (fun acc e =>
        if !(Bitset128.is_empty e) && acc.all (fun ue => !(Bitset128.is_subset e ue)) then
          acc ++ [e]
        else acc) acc,
    x ≠ 0 := by
  intro es
  induction es with
  | nil => intro acc hacc x hx; exact hacc x hx
  | cons e es ih =>
    intro acc hacc x hx
    rw [List.foldl_cons] at hx
    refine ih _ ?_ x hx
    by_cases hc : (!(Bitset128.is_empty e)
        && acc.all fun ue => !(Bitset128.is_subset e ue)) = true
    · rw [if_pos hc]
      intro y hy
      rcases List.mem_append.mp hy with hy | hy
      · exact hacc y hy
      · rw [List.mem_singleton] at hy
        subst hy
        rw [Bool.and_eq_true] at hc
        have := hc.1
        rw [Bool.not_eq_true'] at this
        unfold Bitset128.is_empty at this
        intro h0
        rw [h0] at this
        exact absurd this (by simp)
    · rw [if_neg hc]
      exact hacc

theorem desc_len_sorted_mem (es : List Nat) :
    ∀ x ∈ StructuredHypergraph.desc_len_sorted es, x ∈ es := by
  intro x hx
  unfold StructuredHypergraph.desc_len_sorted at hx
  exact (sortLe_perm _ es).mem_iff.mp hx

theorem apply_node_map_ne_zero {m : List Nat} (hm : m.length ≤ 128) {e : Nat} {k : Nat}
    (hk : k < m.length) (hbit : e.testBit (m.getD k 0 % 128) = true) :
    Bitset128.apply_node_map e m ≠ 0 := by
  intro h0
  have htb := testBit_apply_node_map hm e k
  rw [h0, Nat.zero_testBit, hbit] at htb
  simp [hk] at htb

theorem headD_mem {α : Type _} : ∀ (l : List α) (a : α), l ≠ [] → l.headD a ∈ l := by
  intro l a h
  cases l with
  | nil => exact absurd rfl h
  | cons x xs => exact List.mem_cons_self x xs

theorem flatten_edges_nonzero (g : StructuredHypergraph)
    (hw : ∀ e ∈ g.hyperedges, e < 2 ^ 128) (hnz : ∀ e ∈ g.hyperedges, e ≠ 0) :
    ∀ e ∈ g.flatten_nodes.hyperedges, e ≠ 0 := by
  unfold StructuredHypergraph.flatten_nodes
  simp only []
  by_cases hf : Bitset128.is_flattened (g.hyperedges.foldl Bitset128.union 0) = true
  · rw [if_pos hf]
    exact hnz
  · rw [if_neg hf]
    rw [apply_node_map_hyperedges]
    intro e he
    obtain ⟨e0, he0, rfl⟩ := List.mem_map.mp he
    obtain ⟨t, ht128, htbit⟩ := exists_testBit_of_ne_zero (hnz e0 he0) (hw e0 he0)
    have htU : t ∈ Bitset128.iter (g.hyperedges.foldl Bitset128.union 0) := by
      rw [mem_iter]
      exact ⟨ht128, bsub_foldl_union_mem he0 0 t htbit⟩
    obtain ⟨k, hk, hgetk⟩ := List.getElem_of_mem htU
    apply apply_node_map_ne_zero (by rw [← len_eq_iter_length]; exact len_le_128 _) hk
    rw [List.getD_eq_getElem _ _ hk, hgetk, Nat.mod_eq_of_lt ht128]
    exact htbit

theorem keep_nonzero (es : List Nat) :
    ∀ x ∈ StructuredHypergraph.keep_non_redundant es, x ≠ 0 := by
  intro x hx
  unfold StructuredHypergraph.keep_non_redundant at hx
  exact keep_non_redundant_nonzero es [] (fun y hy => absurd hy (List.not_mem_nil y)) x hx

/-- Node count, edge bounds and support of `remove_redundant_hyperedges`. -/
theorem remove_redundant_core (g : StructuredHypergraph)
    (hw : ∀ e ∈ g.hyperedges, e < 2 ^ 128) :
    g.remove_redundant_hyperedges.nodes.length
        ≤ Bitset128.len (g.hyperedges.foldl Bitset128.union 0) ∧
    (∀ e ∈ g.remove_redundant_hyperedges.hyperedges, e < 2 ^ 128 ∧ e ≠ 0) ∧
    Bitset128.len (g.remove_redundant_hyperedges.hyperedges.foldl Bitset128.union 0)
        ≤ Bitset128.len (g.hyperedges.foldl Bitset128.union 0) := by
  have hKmem : ∀ x ∈ StructuredHypergraph.keep_non_redundant
      (StructuredHypergraph.desc_len_sorted g.flatten_nodes.hyperedges),
      x ∈ g.flatten_nodes.hyperedges := fun x hx =>
    desc_len_sorted_mem _ x (keep_non_redundant_subset _ x hx)
  have hKlt : ∀ x ∈ StructuredHypergraph.keep_non_redundant
      (StructuredHypergraph.desc_len_sorted g.flatten_nodes.hyperedges),
      x < 2 ^ Bitset128.len (g.hyperedges.foldl Bitset128.union 0) := fun x hx =>
    flatten_edges_lt g hw x (hKmem x hx)
  have hKnz : ∀ x ∈ StructuredHypergraph.keep_non_redundant
      (StructuredHypergraph.desc_len_sorted g.flatten_nodes.hyperedges), x ≠ 0 :=
    keep_nonzero _
  have h2le : (2 : Nat) ^ Bitset128.len (g.hyperedges.foldl Bitset128.union 0) ≤ 2 ^ 128 :=
    Nat.pow_le_pow_right (by omega) (len_le_128 _)
  have hKlt128 : ∀ x ∈ StructuredHypergraph.keep_non_redundant
      (StructuredHypergraph.desc_len_sorted g.flatten_nodes.hyperedges),
      x < 2 ^ 128 := fun x hx => lt_of_lt_of_le (hKlt x hx) h2le
  have hfoldK : (StructuredHypergraph.keep_non_redundant
      (StructuredHypergraph.desc_len_sorted g.flatten_nodes.hyperedges)).foldl
        Bitset128.union 0
      < 2 ^ Bitset128.len (g.hyperedges.foldl Bitset128.union 0) :=
    foldl_union_lt_pow _ 0 (Nat.pos_pow_of_pos _ (by omega)) hKlt
  have hlenK : Bitset128.len ((StructuredHypergraph.keep_non_redundant
      (StructuredHypergraph.desc_len_sorted g.flatten_nodes.hyperedges)).foldl
        Bitset128.union 0)
      ≤ Bitset128.len (g.hyperedges.foldl Bitset128.union 0) :=
    len_le_of_lt_two_pow hfoldK
  unfold StructuredHypergraph.remove_redundant_hyperedges
  by_cases hcond : (StructuredHypergraph.desc_len_sorted g.flatten_nodes.hyperedges).length
      ≠ (StructuredHypergraph.keep_non_redundant
        (StructuredHypergraph.desc_len_sorted g.flatten_nodes.hyperedges)).length
  · rw [if_pos hcond]
    refine ⟨?_, ?_, ?_⟩
    · exact le_trans (flatten_nodes_length_le _) hlenK
    · intro e he
      refine ⟨?_, ?_⟩
      · have := flatten_edges_lt { g.flatten_nodes with
          hyperedges := StructuredHypergraph.keep_non_redundant
            (StructuredHypergraph.desc_len_sorted g.flatten_nodes.hyperedges) } hKlt128 e he
        exact lt_of_lt_of_le this (Nat.pow_le_pow_right (by omega) (len_le_128 _))
      · exact flatten_edges_nonzero _ hKlt128 hKnz e he
    · have hlt := flatten_edges_lt { g.flatten_nodes with
        hyperedges := StructuredHypergraph.keep_non_redundant
          (StructuredHypergraph.desc_len_sorted g.flatten_nodes.hyperedges) } hKlt128
      have hfold2 := foldl_union_lt_pow (({ g.flatten_nodes with
        hyperedges := StructuredHypergraph.keep_non_redundant
          (StructuredHypergraph.desc_len_sorted
            g.flatten_nodes.hyperedges) } : StructuredHypergraph).flatten_nodes.hyperedges)
        0 (Nat.pos_pow_of_pos _ (by omega)) hlt
      exact le_trans (le_trans (len_le_of_lt_two_pow hfold2) hlenK) (le_refl _)
  · rw [if_neg hcond]
    refine ⟨?_, ?_, ?_⟩
    · exact flatten_nodes_length_le g
    · intro e he
      exact ⟨hKlt128 e he, hKnz e he⟩
    · exact hlenK

/-! ## Union-find block disjointness and bucket accounting -/

theorem land_eq_zero_iff {a b : Nat} :
    a &&& b = 0 ↔ ∀ i, a.testBit i = true → b.testBit i = false := by
  constructor
  · intro h i hai
    cases hbi : b.testBit i
    · rfl
    · have : (a &&& b).testBit i = true := by
        rw [Nat.testBit_and, hai, hbi]
        rfl
      rw [h, Nat.zero_testBit] at this
      exact absurd this (by simp)
  · intro h
    apply Nat.eq_of_testBit_eq
    intro i
    rw [Nat.testBit_and, Nat.zero_testBit]
    cases hai : a.testBit i
    · simp
    · rw [h i hai]
      simp

theorem land_comm_zero {a b : Nat} (h : a &&& b = 0) : b &&& a = 0 := by
  rw [Nat.land_comm]
  exact h

/-- Pairwise-disjoint bit patterns. -/
def PairwiseDisj (bs : List Nat) : Prop := bs.Pairwise fun a b => a &&& b = 0

theorem land_foldl_union_zero {m : Nat} {l : List Nat} (h : ∀ x ∈ l, m &&& x = 0)
    {b0 : Nat} (hb0 : m &&& b0 = 0) : m &&& l.foldl Bitset128.union b0 = 0 := by
  rw [land_eq_zero_iff]
  intro i hmi
  rw [testBit_foldl_union]
  have h1 : b0.testBit i = false := land_eq_zero_iff.mp hb0 i hmi
  have h2 : (l.any fun e => e.testBit i) = false := by
    rw [List.any_eq_false]
    intro e he
    rw [land_eq_zero_iff.mp (h e he) i hmi]
    simp
  rw [h1, h2]
  rfl

theorem uf_step_spec {blocks : List Nat} (hd : PairwiseDisj blocks) (e : Nat) :
    PairwiseDisj ((blocks.filter fun b => !(Bitset128.intersects b e)) ++
        [(blocks.filter fun b => Bitset128.intersects b e).foldl Bitset128.union e]) ∧
    (∀ b ∈ blocks,
      ∃ b' ∈ (blocks.filter fun b => !(Bitset128.intersects b e)) ++
        [(blocks.filter fun b => Bitset128.intersects b e).foldl Bitset128.union e],
        BSub b b') ∧
    BSub e ((blocks.filter fun b => Bitset128.intersects b e).foldl Bitset128.union e) := by
  have hsym : Symmetric fun a b : Nat => a &&& b = 0 := fun a b h => land_comm_zero h
  have hdis_um : ∀ u ∈ blocks.filter fun b => !(Bitset128.intersects b e),
      u &&& (blocks.filter fun b => Bitset128.intersects b e).foldl Bitset128.union e = 0 := by
    intro u hu
    have humem := List.mem_of_mem_filter hu
    have hucond := List.of_mem_filter hu
    rw [Bool.not_eq_true'] at hucond
    unfold Bitset128.intersects at hucond
    have hue : u &&& e = 0 := by
      by_contra hne
      have hbne : ((u &&& e) != 0) = true := by
        rw [bne_iff_ne]
        exact hne
      rw [hbne] at hucond
      exact absurd hucond (by simp)
    refine land_foldl_union_zero ?_ hue
    intro t ht
    have htmem := List.mem_of_mem_filter ht
    have htcond := List.of_mem_filter ht
    unfold Bitset128.intersects at htcond
    have hune : u ≠ t := by
      intro hut
      subst hut
      rw [hucond] at htcond
      exact absurd htcond (by simp)
    exact List.Pairwise.forall hsym hd humem htmem hune
  refine ⟨?_, ?_, bsub_foldl_union_init _ _⟩
  · rw [PairwiseDisj, List.pairwise_append]
    refine ⟨List.Pairwise.sublist (List.filter_sublist _) hd, List.pairwise_singleton _ _, ?_⟩
    intro u hu m hm
    rw [List.mem_singleton] at hm
    subst hm
    exact hdis_um u hu
  · intro b hb
    by_cases hbe : Bitset128.intersects b e = true
    · refine ⟨(blocks.filter fun b => Bitset128.intersects b e).foldl Bitset128.union e,
        List.mem_append_right _ (List.mem_singleton.mpr rfl), ?_⟩
      exact bsub_foldl_union_mem (List.mem_filter.mpr ⟨hb, hbe⟩) e
    · refine ⟨b, List.mem_append_left _ ?_, bsub_refl b⟩
      rw [List.mem_filter]
      refine ⟨hb, ?_⟩
      rw [Bool.not_eq_true']
      cases hx : Bitset128.intersects b e
      · rfl
      · exact absurd hx hbe

theorem uf_fold_spec : ∀ (es : List Nat) (blocks : List Nat), PairwiseDisj blocks →
    PairwiseDisj (es.foldl
      (fun blocks e =>
        (blocks.filter fun b => !(Bitset128.intersects b e)) ++
          [(blocks.filter fun b => Bitset128.intersects b e).foldl Bitset128.union e])
      blocks) ∧
    (∀ b ∈ blocks, ∃ b' ∈ es.foldl
      (fun blocks e =>
        (blocks.filter fun b => !(Bitset128.intersects b e)) ++
          [(blocks.filter fun b => Bitset128.intersects b e).foldl Bitset128.union e])
      blocks, BSub b b') ∧
    (∀ e ∈ es, ∃ b' ∈ es.foldl
      (fun blocks e =>
        (blocks.filter fun b => !(Bitset128.intersects b e)) ++
          [(blocks.filter fun b => Bitset128.intersects b e).foldl Bitset128.union e])
      blocks, BSub e b') := by
  intro es
  induction es with
  | nil =>
    intro blocks hd
    exact ⟨hd, fun b hb => ⟨b, hb, bsub_refl b⟩, fun e he => absurd he (List.not_mem_nil e)⟩
  | cons e es ih =>
    intro blocks hd
    rw [List.foldl_cons]
    obtain ⟨hstep_d, hstep_m, hstep_e⟩ := uf_step_spec hd e
    obtain ⟨ih_d, ih_m, ih_e⟩ := ih _ hstep_d
    refine ⟨ih_d, ?_, ?_⟩
    · intro b hb
      obtain ⟨b1, hb1, hsub1⟩ := hstep_m b hb
      obtain ⟨b2, hb2, hsub2⟩ := ih_m b1 hb1
      exact ⟨b2, hb2, bsub_trans hsub1 hsub2⟩
    · intro x hx
      rcases List.mem_cons.mp hx with rfl | hx
      · obtain ⟨b2, hb2, hsub2⟩ := ih_m _ (List.mem_append_right _ (List.mem_singleton.mpr rfl))
        exact ⟨b2, hb2, bsub_trans hstep_e hsub2⟩
      · exact ih_e x hx

theorem singleton_blocks_disj (n : Nat) : PairwiseDisj ((List.range n).map fun i => 1 <<< i) := by
  rw [PairwiseDisj, List.pairwise_map]
  apply List.Pairwise.imp ?_ (List.pairwise_lt_range n)
  intro a b hab
  rw [Nat.one_shiftLeft, Nat.one_shiftLeft, land_eq_zero_iff]
  intro i hi
  rw [Nat.testBit_two_pow] at hi ⊢
  have ha := of_decide_eq_true hi
  subst ha
  simp
  omega

theorem ufPartition_spec (n : Nat) (edges : List Nat) :
    PairwiseDisj (StructuredHypergraph.ufPartition n edges) ∧
    ∀ e ∈ edges, ∃ b ∈ StructuredHypergraph.ufPartition n edges, BSub e b := by
  unfold StructuredHypergraph.ufPartition
  obtain ⟨h1, _, h3⟩ := uf_fold_spec edges _ (singleton_blocks_disj n)
  exact ⟨h1, h3⟩

/-- The connectivity root the bucketing computes for edge index `ei`. -/
def rootOf (g : StructuredHypergraph) (ei : Nat) : Nat :=
  (StructuredHypergraph.ufPartition g.nodes.length g.hyperedges).findIdx
    fun b => Bitset128.contains b ((Bitset128.iter (g.hyperedges.getD ei 0)).headD 0)

theorem contains_testBit (b v : Nat) : Bitset128.contains b v = b.testBit (v % 128) := by
  unfold Bitset128.contains
  rw [Nat.testBit_to_div_mod, Nat.shiftRight_eq_div_pow, Nat.and_one_is_mod]
  rfl

theorem rootOf_spec (g : StructuredHypergraph)
    (hw : ∀ e ∈ g.hyperedges, e < 2 ^ 128) (hnz : ∀ e ∈ g.hyperedges, e ≠ 0)
    {k : Nat} (hk : k < g.hyperedges.length) :
    ∃ hlt : rootOf g k
        < (StructuredHypergraph.ufPartition g.nodes.length g.hyperedges).length,
      BSub (g.hyperedges.getD k 0)
        ((StructuredHypergraph.ufPartition g.nodes.length g.hyperedges).get
          ⟨rootOf g k, hlt⟩) := by
  have hemem : g.hyperedges.getD k 0 ∈ g.hyperedges := by
    rw [List.getD_eq_getElem _ _ hk]
    exact List.getElem_mem hk
  have he0 : g.hyperedges.getD k 0 ≠ 0 := hnz _ hemem
  have helt : g.hyperedges.getD k 0 < 2 ^ 128 := hw _ hemem
  obtain ⟨hdis, hcov⟩ := ufPartition_spec g.nodes.length g.hyperedges
  obtain ⟨b, hbmem, hbsub⟩ := hcov _ hemem
  have hrep : (Bitset128.iter (g.hyperedges.getD k 0)).headD 0
      ∈ Bitset128.iter (g.hyperedges.getD k 0) :=
    headD_mem _ 0 (iter_ne_nil he0 helt)
  obtain ⟨hrep128, hrepbit⟩ := mem_iter.mp hrep
  have hbbit : Bitset128.contains b
      ((Bitset128.iter (g.hyperedges.getD k 0)).headD 0) = true := by
    rw [contains_testBit, Nat.mod_eq_of_lt hrep128]
    exact hbsub _ hrepbit
  have hlt : rootOf g k
      < (StructuredHypergraph.ufPartition g.nodes.length g.hyperedges).length :=
    List.findIdx_lt_length_of_exists ⟨b, hbmem, hbbit⟩
  refine ⟨hlt, ?_⟩
  have hsat := List.findIdx_get (w := hlt)
  have hsat' : ((StructuredHypergraph.ufPartition g.nodes.length g.hyperedges).get
      ⟨rootOf g k, hlt⟩).testBit
        ((Bitset128.iter (g.hyperedges.getD k 0)).headD 0) = true := by
    rw [← Nat.mod_eq_of_lt hrep128, ← contains_testBit]
    exact hsat
  obtain ⟨m, hm, hbm⟩ := List.getElem_of_mem hbmem
  have hreq : rootOf g k = m := by
    by_contra hne
    have hdisj : ((StructuredHypergraph.ufPartition g.nodes.length g.hyperedges)[rootOf g k])
        &&& ((StructuredHypergraph.ufPartition g.nodes.length g.hyperedges)[m]) = 0 := by
      rcases Nat.lt_or_ge (rootOf g k) m with h2 | h2
      · exact List.pairwise_iff_getElem.mp hdis _ _ hlt hm h2
      · have h3 : m < rootOf g k := by omega
        exact land_comm_zero (List.pairwise_iff_getElem.mp hdis _ _ hm hlt h3)
    have hbit2 : ((StructuredHypergraph.ufPartition g.nodes.length g.hyperedges)[m]).testBit
        ((Bitset128.iter (g.hyperedges.getD k 0)).headD 0) = true := by
      rw [hbm]
      exact hbsub _ hrepbit
    have hx := land_eq_zero_iff.mp hdisj
      ((Bitset128.iter (g.hyperedges.getD k 0)).headD 0)
      (by rw [List.get_eq_getElem] at hsat'; exact hsat')
    rw [hbit2] at hx
    exact absurd hx (by simp)
  have hgetr : (StructuredHypergraph.ufPartition g.nodes.length g.hyperedges).get
      ⟨rootOf g k, hlt⟩ = b := by
    rw [List.get_eq_getElem]
    have hx : (StructuredHypergraph.ufPartition g.nodes.length g.hyperedges)[rootOf g k]
        = (StructuredHypergraph.ufPartition g.nodes.length g.hyperedges)[m] := by
      simp only [hreq]
    rw [hx, hbm]
  rw [hgetr]
  exact hbsub

/-- Edges whose bucketing roots differ are support-disjoint. -/
theorem root_edges_disjoint (g : StructuredHypergraph)
    (hw : ∀ e ∈ g.hyperedges, e < 2 ^ 128) (hnz : ∀ e ∈ g.hyperedges, e ≠ 0)
    {i j : Nat} (hi : i < g.hyperedges.length) (hj : j < g.hyperedges.length)
    (hroot : rootOf g i ≠ rootOf g j) :
    g.hyperedges.getD i 0 &&& g.hyperedges.getD j 0 = 0 := by
  obtain ⟨hlti, hsubi⟩ := rootOf_spec g hw hnz hi
  obtain ⟨hltj, hsubj⟩ := rootOf_spec g hw hnz hj
  obtain ⟨hdis, _⟩ := ufPartition_spec g.nodes.length g.hyperedges
  have hblk : ((StructuredHypergraph.ufPartition g.nodes.length g.hyperedges)[rootOf g i])
      &&& ((StructuredHypergraph.ufPartition g.nodes.length g.hyperedges)[rootOf g j])
      = 0 := by
    rcases Nat.lt_or_ge (rootOf g i) (rootOf g j) with h2 | h2
    · exact List.pairwise_iff_getElem.mp hdis _ _ hlti hltj h2
    · have h3 : rootOf g j < rootOf g i := by omega
      exact land_comm_zero (List.pairwise_iff_getElem.mp hdis _ _ hltj hlti h3)
  rw [land_eq_zero_iff]
  intro t hti
  have h1 := hsubi t hti
  rw [List.get_eq_getElem] at h1
  have h2 := land_eq_zero_iff.mp hblk t h1
  cases htj : (g.hyperedges.getD j 0).testBit t
  · rfl
  · have h3 := hsubj t htj
    rw [List.get_eq_getElem] at h3
    rw [h3] at h2
    exact absurd h2 (by simp)

/-- State invariant of the bucketing fold: bucket keys are the roots of
their members, members are in range, and keys are pairwise distinct. -/
def BucketInv (g : StructuredHypergraph) (bs : List (Nat × List Nat)) : Prop :=
  (∀ p ∈ bs, ∀ ei ∈ p.2, rootOf g ei = p.1 ∧ ei < g.hyperedges.length) ∧
  bs.Pairwise fun p q => p.1 ≠ q.1

theorem bucket_step_inv {g : StructuredHypergraph} {bs : List (Nat × List Nat)}
    (h : BucketInv g bs) {ei : Nat} (hei : ei < g.hyperedges.length) :
    BucketInv g
      (if bs.any (fun p => p.1 == rootOf g ei) then
        bs.map fun p => if p.1 == rootOf g ei then (p.1, p.2 ++ [ei]) else p
      else bs ++ [(rootOf g ei, [ei])]) := by
  obtain ⟨hmem, hkeys⟩ := h
  by_cases hc : (bs.any fun p => p.1 == rootOf g ei) = true
  · rw [if_pos hc]
    constructor
    · intro p hp ej hej
      obtain ⟨q, hq, hqp⟩ := List.mem_map.mp hp
      by_cases hqr : (q.1 == rootOf g ei) = true
      · rw [if_pos hqr] at hqp
        subst hqp
        rcases List.mem_append.mp hej with hej | hej
        · exact hmem q hq ej hej
        · rw [List.mem_singleton] at hej
          subst hej
          exact ⟨(eq_of_beq hqr).symm, hei⟩
      · rw [if_neg hqr] at hqp
        subst hqp
        exact hmem q hq ej hej
    · rw [List.pairwise_map]
      apply List.Pairwise.imp ?_ hkeys
      intro p q hpq
      by_cases hp : (p.1 == rootOf g ei) = true <;> by_cases hq : (q.1 == rootOf g ei) = true
      · rw [if_pos hp, if_pos hq]; exact hpq
      · rw [if_pos hp, if_neg hq]; exact hpq
      · rw [if_neg hp, if_pos hq]; exact hpq
      · rw [if_neg hp, if_neg hq]; exact hpq
  · rw [if_neg hc]
    constructor
    · intro p hp ej hej
      rcases List.mem_append.mp hp with hp | hp
      · exact hmem p hp ej hej
      · rw [List.mem_singleton] at hp
        subst hp
        rw [List.mem_singleton] at hej
        subst hej
        exact ⟨rfl, hei⟩
    · rw [List.pairwise_append]
      refine ⟨hkeys, List.pairwise_singleton _ _, ?_⟩
      intro p hp q hq
      rw [List.mem_singleton] at hq
      subst hq
      intro hpr
      have : (bs.any fun p => p.1 == rootOf g ei) = true :=
        List.any_eq_true.mpr ⟨p, hp, by rw [hpr]; simp⟩
      exact absurd this hc

theorem buckets_fold_inv (g : StructuredHypergraph) :
    ∀ (idxs : List Nat) (bs : List (Nat × List Nat)), BucketInv g bs →
    (∀ i ∈ idxs, i < g.hyperedges.length) →
    BucketInv g (idxs.foldl
      (fun bs ei =>
        if bs.any (fun p => p.1 == rootOf g ei) then
          bs.map fun p => if p.1 == rootOf g ei then (p.1, p.2 ++ [ei]) else p
        else bs ++ [(rootOf g ei, [ei])])
      bs) := by
  intro idxs
  induction idxs with
  | nil => intro bs h _; exact h
  | cons i idxs ih =>
    intro bs h hlt
    rw [List.foldl_cons]
    exact ih _ (bucket_step_inv h (hlt i (List.mem_cons_self i idxs)))
      fun x hx => hlt x (List.mem_cons_of_mem i hx)

theorem edge_buckets_inv (g : StructuredHypergraph) : BucketInv g g.edge_buckets := by
  have h := buckets_fold_inv g (List.range g.hyperedges.length) []
    ⟨fun p hp => absurd hp (List.not_mem_nil p), List.Pairwise.nil⟩
    (fun i hi => List.mem_range.mp hi)
  exact h

/-! ## Popcount additivity over disjoint buckets -/

theorem foldl_union_init (l : List Nat) (b0 : Nat) :
    l.foldl Bitset128.union b0 = Bitset128.union b0 (l.foldl Bitset128.union 0) := by
  apply Nat.eq_of_testBit_eq
  intro i
  rw [testBit_foldl_union, testBit_union, testBit_foldl_union, Nat.zero_testBit]
  cases b0.testBit i <;> cases (l.any fun e => e.testBit i) <;> rfl

theorem len_sum_eq : ∀ (ms : List Nat), (ms.Pairwise fun a b => a &&& b = 0) →
    (ms.map Bitset128.len).sum = Bitset128.len (ms.foldl Bitset128.union 0) := by
  intro ms
  induction ms with
  | nil =>
    intro _
    show (0 : Nat) = Bitset128.len 0
    rw [len_zero]
  | cons m ms ih =>
    intro hd
    rw [List.map_cons, List.sum_cons, List.foldl_cons]
    have hzm : Bitset128.union 0 m = m := Nat.zero_or m
    rw [hzm, foldl_union_init, ih (List.pairwise_cons.mp hd).2]
    have hdisj : m &&& ms.foldl Bitset128.union 0 = 0 := by
      apply land_foldl_union_zero
      · exact fun x hx => (List.pairwise_cons.mp hd).1 x hx
      · exact Nat.and_zero m
    rw [Bitset128.union] at hzm ⊢
    exact (len_union_of_disjoint hdisj).symm

theorem bucket_union_disj (G : StructuredHypergraph)
    (hw : ∀ e ∈ G.hyperedges, e < 2 ^ 128) (hnz : ∀ e ∈ G.hyperedges, e ≠ 0) :
    (G.edge_buckets.map fun p =>
      (p.2.map fun ei => G.hyperedges.getD ei 0).foldl Bitset128.union 0).Pairwise
      fun a b => a &&& b = 0 := by
  obtain ⟨hmem, hkeys⟩ := edge_buckets_inv G
  rw [List.pairwise_map]
  refine List.Pairwise.imp_of_mem ?_ hkeys
  intro p q hp hq hpq
  rw [land_eq_zero_iff]
  intro t htp
  rw [testBit_foldl_union] at htp
  rcases Bool.or_eq_true _ _ |>.mp htp with hz | ha
  · rw [Nat.zero_testBit] at hz
    exact absurd hz (by simp)
  obtain ⟨x, hx, hxbit⟩ := List.any_eq_true.mp ha
  obtain ⟨ei, hei, rfl⟩ := List.mem_map.mp hx
  obtain ⟨heiroot, heilt⟩ := hmem p hp ei hei
  rw [testBit_foldl_union, Nat.zero_testBit, Bool.false_or, List.any_eq_false]
  intro y hy
  obtain ⟨ej, hej, rfl⟩ := List.mem_map.mp hy
  obtain ⟨hejroot, hejlt⟩ := hmem q hq ej hej
  have hdisj : G.hyperedges.getD ei 0 &&& G.hyperedges.getD ej 0 = 0 := by
    apply root_edges_disjoint G hw hnz heilt hejlt
    rw [heiroot, hejroot]
    exact hpq
  rw [land_eq_zero_iff.mp hdisj t hxbit]
  simp

theorem get_parts_sum (G : StructuredHypergraph)
    (hw : ∀ e ∈ G.hyperedges, e < 2 ^ 128) (hnz : ∀ e ∈ G.hyperedges, e ≠ 0) :
    ((G.get_parts).map fun h => h.nodes.length).sum
      ≤ max G.nodes.length (Bitset128.len (G.hyperedges.foldl Bitset128.union 0)) := by
  unfold StructuredHypergraph.get_parts
  by_cases hc : (G.edge_buckets).length = 1
  · rw [if_pos hc]
    rw [List.map_cons, List.map_nil, List.sum_cons, List.sum_nil]
    rw [sort_nodes_length]
    omega
  · rw [if_neg hc]
    have hlen : ∀ h : StructuredHypergraph, (SorterState.sort h).nodes.length = h.nodes.length :=
      fun h => sort_nodes_length h
    generalize hF : SorterState.sort = F at hlen ⊢
    have hmapeq : ((G.edge_buckets.map fun p => F
        ((⟨p.2.map fun ei => G.hyperedges.getD ei 0, G.nodes, [], []⟩ :
          StructuredHypergraph).flatten_nodes)).map fun h => h.nodes.length)
        = G.edge_buckets.map fun p =>
          ((⟨p.2.map fun ei => G.hyperedges.getD ei 0, G.nodes, [], []⟩ :
            StructuredHypergraph).flatten_nodes).nodes.length := by
      rw [List.map_map]
      apply List.map_congr_left
      intro p _
      exact hlen _
    rw [hmapeq]
    have hstep1 : (G.edge_buckets.map fun p =>
          ((⟨p.2.map fun ei => G.hyperedges.getD ei 0, G.nodes, [], []⟩ :
            StructuredHypergraph).flatten_nodes).nodes.length).sum
        ≤ (G.edge_buckets.map fun p : Nat × List Nat => Bitset128.len
            ((p.2.map fun ei => G.hyperedges.getD ei 0).foldl Bitset128.union 0)).sum := by
      apply List.sum_le_sum
      intro p _
      exact flatten_nodes_length_le _
    have hstep2 : (G.edge_buckets.map fun p : Nat × List Nat => Bitset128.len
          ((p.2.map fun ei => G.hyperedges.getD ei 0).foldl Bitset128.union 0)).sum
        = Bitset128.len ((G.edge_buckets.map fun p =>
            (p.2.map fun ei => G.hyperedges.getD ei 0).foldl Bitset128.union 0).foldl
              Bitset128.union 0) := by
      rw [← len_sum_eq _ (bucket_union_disj G hw hnz), List.map_map]
      rfl
    have hstep3 : Bitset128.len ((G.edge_buckets.map fun p =>
          (p.2.map fun ei => G.hyperedges.getD ei 0).foldl Bitset128.union 0).foldl
            Bitset128.union 0)
        ≤ Bitset128.len (G.hyperedges.foldl Bitset128.union 0) := by
      apply len_mono
      intro t ht
      rw [testBit_foldl_union] at ht
      rcases Bool.or_eq_true _ _ |>.mp ht with hz | ha
      · rw [Nat.zero_testBit] at hz
        exact absurd hz (by simp)
      obtain ⟨u, hu, hubit⟩ := List.any_eq_true.mp ha
      obtain ⟨p, hp, rfl⟩ := List.mem_map.mp hu
      rw [testBit_foldl_union, Nat.zero_testBit, Bool.false_or] at hubit
      obtain ⟨x, hx, hxbit⟩ := List.any_eq_true.mp hubit
      obtain ⟨ei, hei, rfl⟩ := List.mem_map.mp hx
      obtain ⟨_, heilt⟩ := (edge_buckets_inv G).1 p hp ei hei
      have hxmem : G.hyperedges.getD ei 0 ∈ G.hyperedges := by
        rw [List.getD_eq_getElem _ _ heilt]
        exact List.getElem_mem heilt
      exact bsub_foldl_union_mem hxmem 0 t hxbit
    have := le_trans hstep1 (le_of_eq hstep2)
    have := le_trans this hstep3
    exact le_trans this (le_max_right _ _)

/-! ## Every non-first product tuple removes something -/

/-- Head is the do-nothing choice, everything after it removes a node. -/
def HZT (l : List Nat) : Prop := l.head? = some 0 ∧ ∀ x ∈ l.tail, x ≠ 0

theorem removal_chain_ne_nil : ∀ (fuel p : Nat), TakingGame.removal_chain fuel p ≠ [] := by
  intro fuel p
  cases fuel <;> rw [TakingGame.removal_chain] <;> simp

theorem removal_chain_last_zero : ∀ (fuel p : Nat), p < 2 ^ 128 → Bitset128.len p < fuel →
    (TakingGame.removal_chain fuel p).getLast? = some 0 ∧
    ∀ x ∈ (TakingGame.removal_chain fuel p).dropLast, x ≠ 0 := by
  intro fuel
  induction fuel with
  | zero => intro p _ h; omega
  | succ n ih =>
    intro p hlt hfuel
    rw [TakingGame.removal_chain]
    by_cases hp : p = 0
    · subst hp
      rw [if_pos rfl]
      exact ⟨rfl, by simp⟩
    · rw [if_neg hp]
      obtain ⟨hlen, _, hlt'⟩ := pop_snd_spec hp hlt
      obtain ⟨ih1, ih2⟩ := ih (Bitset128.pop p).2 hlt' (by omega)
      cases hrest : TakingGame.removal_chain n (Bitset128.pop p).2 with
      | nil => exact absurd hrest (removal_chain_ne_nil n _)
      | cons r rs =>
        rw [hrest] at ih1 ih2
        refine ⟨?_, ?_⟩
        · rw [List.getLast?_cons_cons]
          exact ih1
        · rw [List.dropLast_cons₂]
          intro x hx
          rcases List.mem_cons.mp hx with rfl | hx
          · exact hp
          · exact ih2 x hx

theorem list_swap_getElem? {α : Type _} (l : List α) {i j : Nat} (hi : i < l.length)
    (hj : j < l.length) (k : Nat) :
    (TakingGame.list_swap l i j)[k]?
      = if k = j then l[i]? else if k = i then l[j]? else l[k]? := by
  unfold TakingGame.list_swap
  have h1 : l.get? i = some (l.get ⟨i, hi⟩) := by
    rw [List.get?_eq_getElem?, List.getElem?_eq_getElem hi]
    rfl
  have h2 : l.get? j = some (l.get ⟨j, hj⟩) := by
    rw [List.get?_eq_getElem?, List.getElem?_eq_getElem hj]
    rfl
  rw [h1, h2]
  show ((l.set i (l.get ⟨j, hj⟩)).set j (l.get ⟨i, hi⟩))[k]? = _
  by_cases hkj : k = j
  · subst hkj
    rw [if_pos rfl, List.getElem?_set_self']
    rw [List.getElem?_eq_getElem (by rw [List.length_set]; exact hj)]
    rw [List.getElem?_eq_getElem hi]
    rfl
  · rw [if_neg hkj, List.getElem?_set_ne (fun h => hkj h.symm)]
    by_cases hki : k = i
    · subst hki
      rw [if_pos rfl, List.getElem?_set_self', List.getElem?_eq_getElem hi,
        List.getElem?_eq_getElem hj]
      rfl
    · rw [if_neg hki, List.getElem?_set_ne (fun h => hki h.symm)]

theorem removal_choices_hzt {p : Nat} (hp : p < 2 ^ 128) :
    HZT (TakingGame.removal_choices p) := by
  by_cases hp0 : p = 0
  · subst hp0
    have hval : TakingGame.removal_choices 0 = [0] := by decide
    rw [hval]
    exact ⟨rfl, by simp⟩
  · obtain ⟨hlast, hmid⟩ := removal_chain_last_zero (Bitset128.len p + 1) p hp (by omega)
    have hchlen : (TakingGame.removal_chain (Bitset128.len p + 1) p).length
        = Bitset128.len p + 1 := removal_chain_length _ p hp (by omega)
    obtain ⟨t, ht128, htbit⟩ := exists_testBit_of_ne_zero hp0 hp
    have hlp : 1 ≤ Bitset128.len p := zero_lt_len ht128 htbit
    have hswap := list_swap_getElem? (TakingGame.removal_chain (Bitset128.len p + 1) p)
      (show 0 < (TakingGame.removal_chain (Bitset128.len p + 1) p).length by omega)
      (show (TakingGame.removal_chain (Bitset128.len p + 1) p).length - 1
        < (TakingGame.removal_chain (Bitset128.len p + 1) p).length by omega)
    have hswlen : (TakingGame.list_swap (TakingGame.removal_chain (Bitset128.len p + 1) p) 0
        ((TakingGame.removal_chain (Bitset128.len p + 1) p).length - 1)).length
        = (TakingGame.removal_chain (Bitset128.len p + 1) p).length :=
      list_swap_length _ _ _
    constructor
    · rw [TakingGame.removal_choices, List.head?_eq_getElem?, hswap 0,
        if_neg (by omega), if_pos rfl, ← List.getLast?_eq_getElem?]
      exact hlast
    · intro x hx
      rw [TakingGame.removal_choices] at hx
      obtain ⟨idx, hidx, hxval⟩ := List.mem_iff_getElem.mp hx
      rw [List.getElem_tail] at hxval
      have hidxlen : idx < (TakingGame.removal_chain (Bitset128.len p + 1) p).length - 1 := by
        rw [List.length_tail, hswlen] at hidx
        omega
      have hidx' : idx + 1 < (TakingGame.list_swap (TakingGame.removal_chain
          (Bitset128.len p + 1) p) 0
          ((TakingGame.removal_chain (Bitset128.len p + 1) p).length - 1)).length := by
        rw [hswlen]
        omega
      have hgv : (TakingGame.list_swap (TakingGame.removal_chain (Bitset128.len p + 1) p) 0
          ((TakingGame.removal_chain (Bitset128.len p + 1) p).length - 1))[idx + 1]?
          = some x := by
        rw [List.getElem?_eq_getElem hidx', hxval]
      rw [hswap (idx + 1)] at hgv
      by_cases hk : idx + 1 = (TakingGame.removal_chain (Bitset128.len p + 1) p).length - 1
      · rw [if_pos hk] at hgv
        have hl0 : (TakingGame.removal_chain (Bitset128.len p + 1) p)[0]? = some p := by
          rw [TakingGame.removal_chain]
          exact List.getElem?_cons_zero
        rw [hl0] at hgv
        exact (Option.some_inj.mp hgv) ▸ hp0
      · rw [if_neg hk, if_neg (by omega : ¬ (idx + 1 = 0))] at hgv
        have hxmem : x ∈ (TakingGame.removal_chain (Bitset128.len p + 1) p).dropLast := by
          rw [List.mem_iff_getElem]
          have hlt3 : idx + 1
              < (TakingGame.removal_chain (Bitset128.len p + 1) p).dropLast.length := by
            rw [List.length_dropLast]
            omega
          refine ⟨idx + 1, hlt3, ?_⟩
          rw [List.getElem_dropLast]
          have hlt4 : idx + 1 < (TakingGame.removal_chain (Bitset128.len p + 1) p).length := by
            omega
          rw [List.getElem?_eq_getElem hlt4] at hgv
          exact Option.some_inj.mp hgv
        exact hmid x hxmem

theorem list_swap_mem {α : Type _} (l : List α) (i j : Nat) :
    ∀ x ∈ TakingGame.list_swap l i j, x ∈ l := by
  intro x hx
  unfold TakingGame.list_swap at hx
  cases hgi : l.get? i with
  | none =>
    rw [hgi] at hx
    cases hgj : l.get? j with
    | none => rw [hgj] at hx; exact hx
    | some b => rw [hgj] at hx; exact hx
  | some a =>
    rw [hgi] at hx
    cases hgj : l.get? j with
    | none => rw [hgj] at hx; exact hx
    | some b =>
      rw [hgj] at hx
      rcases List.mem_or_eq_of_mem_set hx with hx2 | hx2
      · rcases List.mem_or_eq_of_mem_set hx2 with hx3 | hx3
        · exact hx3
        · subst hx3
          exact List.get?_mem hgj
      · subst hx2
        exact List.get?_mem hgi

theorem mcp_ne_nil {α : Type _} : ∀ F : List (List α), (∀ f ∈ F, f ≠ []) →
    TakingGame.multi_cartesian_product F ≠ [] := by
  intro F
  induction F with
  | nil => intro _; simp [TakingGame.multi_cartesian_product]
  | cons f F ih =>
    intro hne
    rw [TakingGame.multi_cartesian_product]
    cases hf : f with
    | nil => exact absurd hf (hne f (List.mem_cons_self f F))
    | cons a as =>
      intro hemp
      rw [List.flatMap_cons] at hemp
      have h1 := ih fun x hx => hne x (List.mem_cons_of_mem f hx)
      cases hm : TakingGame.multi_cartesian_product F with
      | nil => exact h1 hm
      | cons m ms =>
        rw [hm] at hemp
        simp at hemp

theorem mcp_mem_forall2 {α : Type _} : ∀ (F : List (List α)) (τ : List α),
    τ ∈ TakingGame.multi_cartesian_product F → List.Forall₂ (fun x f => x ∈ f) τ F := by
  intro F
  induction F with
  | nil =>
    intro τ hτ
    rw [TakingGame.multi_cartesian_product, List.mem_singleton] at hτ
    subst hτ
    exact List.Forall₂.nil
  | cons f F ih =>
    intro τ hτ
    rw [TakingGame.multi_cartesian_product, List.mem_flatMap] at hτ
    obtain ⟨x, hxf, hτ2⟩ := hτ
    obtain ⟨τ2, hτ2m, rfl⟩ := List.mem_map.mp hτ2
    exact List.Forall₂.cons hxf (ih τ2 hτ2m)

theorem forall2_mem_left {α β : Type _} {R : α → β → Prop} :
    ∀ {τ : List α} {F : List β}, List.Forall₂ R τ F → ∀ x ∈ τ, ∃ f ∈ F, R x f := by
  intro τ F h
  induction h with
  | nil => intro x hx; exact absurd hx (List.not_mem_nil x)
  | cons hr _ ih =>
    intro x hx
    rcases List.mem_cons.mp hx with rfl | hx
    · exact ⟨_, List.mem_cons_self _ _, hr⟩
    · obtain ⟨f, hf, hrf⟩ := ih x hx
      exact ⟨f, List.mem_cons_of_mem _ hf, hrf⟩

theorem mcp_drop_one_nonzero : ∀ F : List (List Nat), (∀ f ∈ F, HZT f) →
    ∀ τ ∈ (TakingGame.multi_cartesian_product F).drop 1, ∃ x ∈ τ, x ≠ 0 := by
  intro F
  induction F with
  | nil =>
    intro _ τ hτ
    rw [TakingGame.multi_cartesian_product] at hτ
    simp at hτ
  | cons f F ih =>
    intro hzt τ hτ
    have hf0 := (hzt f (List.mem_cons_self f F)).1
    have hftail := (hzt f (List.mem_cons_self f F)).2
    cases hf : f with
    | nil => rw [hf] at hf0; exact absurd hf0 (by simp)
    | cons a as =>
      rw [hf] at hf0
      have ha0 : a = 0 := by
        rw [List.head?_cons] at hf0
        exact Option.some_inj.mp hf0
      subst ha0
      rw [TakingGame.multi_cartesian_product, hf, List.flatMap_cons] at hτ
      have hmne : TakingGame.multi_cartesian_product F ≠ [] :=
        mcp_ne_nil F fun x hx => by
          have := (hzt x (List.mem_cons_of_mem f hx)).1
          intro hempty
          rw [hempty] at this
          exact absurd this (by simp)
      have hmaplen : 1 ≤ ((TakingGame.multi_cartesian_product F).map
          (fun t => (0 : Nat) :: t)).length := by
        rw [List.length_map]
        cases hm : TakingGame.multi_cartesian_product F with
        | nil => exact absurd hm hmne
        | cons m ms => simp
      rw [List.drop_append_of_le_length hmaplen] at hτ
      rcases List.mem_append.mp hτ with hτ | hτ
      · rw [← List.map_drop] at hτ
        obtain ⟨τ2, hτ2, rfl⟩ := List.mem_map.mp hτ
        obtain ⟨x, hxτ, hx0⟩ := ih (fun x hx => hzt x (List.mem_cons_of_mem f hx)) τ2 hτ2
        exact ⟨x, List.mem_cons_of_mem 0 hxτ, hx0⟩
      · rw [List.mem_flatMap] at hτ
        obtain ⟨y, hy, hτ2⟩ := hτ
        obtain ⟨τ2, _, rfl⟩ := List.mem_map.mp hτ2
        refine ⟨y, List.mem_cons_self y τ2, ?_⟩
        have : y ∈ f.tail := by
          rw [hf]
          exact hy
        exact hftail y this

theorem removal_choices_bsub {p : Nat} (hp : p < 2 ^ 128) :
    ∀ x ∈ TakingGame.removal_choices p, BSub x p ∧ x < 2 ^ 128 := by
  intro x hx
  rw [TakingGame.removal_choices] at hx
  exact removal_chain_mem_bsub _ p hp x (list_swap_mem _ _ _ x hx)

theorem edge_getD_facts (hyperedges : List Nat) (hw : ∀ e ∈ hyperedges, e < 2 ^ 128)
    (h : Nat) : hyperedges.getD h 0 < 2 ^ 128 ∧
      (hyperedges.getD h 0 ≠ 0 → hyperedges.getD h 0 ∈ hyperedges) := by
  by_cases hlt : h < hyperedges.length
  · have hg : hyperedges.getD h 0 = hyperedges[h] := List.getD_eq_getElem hyperedges 0 hlt
    rw [hg]
    exact ⟨hw _ (List.getElem_mem hlt), fun _ => List.getElem_mem hlt⟩
  · have hg : hyperedges.getD h 0 = 0 := List.getD_eq_default hyperedges 0 (by omega)
    rw [hg]
    exact ⟨by positivity, fun h0 => absurd rfl h0⟩

theorem partition_piece_facts (e : Nat) (he : e < 2 ^ 128) (parts : List (Nat × Nat)) :
    ∀ p ∈ Bitset128.partition e parts, p < 2 ^ 128 ∧ BSub p e := by
  intro p hp
  unfold Bitset128.partition at hp
  obtain ⟨pr, _, hpe⟩ := List.mem_map.mp hp
  constructor
  · rw [← hpe]
    exact lt_of_le_of_lt Nat.and_le_left he
  · rw [← hpe]
    exact bsub_land_left _ _

theorem fhwn_nodes_sum (es : List Nat) (ns : List Nat) (hw : ∀ e ∈ es, e < 2 ^ 128) :
    ((StructuredHypergraph.from_hyperedges_with_nodes es ns).map fun h => h.nodes.length).sum
      ≤ Bitset128.len (es.foldl Bitset128.union 0) := by
  unfold StructuredHypergraph.from_hyperedges_with_nodes
  obtain ⟨h1, h2, h3⟩ := remove_redundant_core ⟨es, ns, [], []⟩ hw
  have h4 := get_parts_sum
    (StructuredHypergraph.remove_redundant_hyperedges ⟨es, ns, [], []⟩)
    (fun e he => (h2 e he).1) (fun e he => (h2 e he).2)
  exact le_trans h4 (max_le h1 h3)

theorem minus_nodes_sum (G : StructuredHypergraph) (m : Nat)
    (hw : ∀ e ∈ G.hyperedges, e < 2 ^ 128)
    (t : Nat) (ht : t < 128)
    (hU : (G.hyperedges.foldl Bitset128.union 0).testBit t = true)
    (hm : m.testBit t = true) :
    ((G.minus m).map fun h => h.nodes.length).sum
      < Bitset128.len (G.hyperedges.foldl Bitset128.union 0) := by
  unfold StructuredHypergraph.minus
  have hw2 : ∀ e ∈ G.hyperedges.map fun e => Bitset128.minus e m, e < 2 ^ 128 := by
    intro e he
    obtain ⟨e0, he0, rfl⟩ := List.mem_map.mp he
    unfold Bitset128.minus
    exact lt_of_le_of_lt Nat.and_le_left (hw e0 he0)
  have h1 := fhwn_nodes_sum (G.hyperedges.map fun e => Bitset128.minus e m) G.nodes hw2
  have hz : Bitset128.minus 0 m = 0 := by
    unfold Bitset128.minus
    exact Nat.zero_and _
  have hfold : (G.hyperedges.map fun e => Bitset128.minus e m).foldl Bitset128.union 0
      = Bitset128.minus (G.hyperedges.foldl Bitset128.union 0) m := by
    have h2 := minus_foldl_union G.hyperedges m 0
    rw [hz] at h2
    exact h2
  rw [hfold] at h1
  have hUlt : (G.hyperedges.foldl Bitset128.union 0) < 2 ^ 128 :=
    foldl_union_lt_pow G.hyperedges 0 (by positivity) hw
  have hbs : BSub (Bitset128.minus (G.hyperedges.foldl Bitset128.union 0) m)
      (G.hyperedges.foldl Bitset128.union 0) := by
    unfold Bitset128.minus
    exact bsub_land_left _ _
  have hlt : Bitset128.len (Bitset128.minus (G.hyperedges.foldl Bitset128.union 0) m)
      < Bitset128.len (G.hyperedges.foldl Bitset128.union 0) := by
    apply len_lt_of_ssub hbs ht hU
    rw [testBit_minus hUlt, hm]
    simp
  omega

theorem split_moves_mask (g : TakingGame) (hw : ∀ e ∈ g.graph.hyperedges, e < 2 ^ 128) :
    ∀ s ∈ TakingGame.get_split_moves g, ∃ mask,
      s = g.with_nodes_removed mask ∧
      ∃ t, t < 128 ∧ mask.testBit t = true ∧
        (g.graph.hyperedges.foldl Bitset128.union 0).testBit t = true := by
  intro s hs
  rw [TakingGame.get_split_moves] at hs
  by_cases hemp : g.graph.is_empty
  · rw [if_pos hemp] at hs
    exact absurd hs (List.not_mem_nil s)
  · rw [if_neg hemp, List.mem_flatMap] at hs
    obtain ⟨ep, _, hs⟩ := hs
    rw [TakingGame.get_moves_of_edge] at hs
    simp only [List.mem_map] at hs
    obtain ⟨mask, hmask, heq⟩ := hs
    rw [← List.map_drop] at hmask
    obtain ⟨τ, hτdrop, hτmask⟩ := List.mem_map.mp hmask
    have hedge := edge_getD_facts g.graph.hyperedges hw ep.1
    have hpieces := partition_piece_facts (g.graph.hyperedges.getD ep.1 0) hedge.1
      g.graph.get_node_partitions
    have hhzt : ∀ f ∈ (Bitset128.partition (g.graph.hyperedges.getD ep.1 0)
        g.graph.get_node_partitions).map TakingGame.removal_choices, HZT f := by
      intro f hf
      obtain ⟨p, hp, rfl⟩ := List.mem_map.mp hf
      exact removal_choices_hzt (hpieces p hp).1
    obtain ⟨x, hxτ, hx0⟩ := mcp_drop_one_nonzero _ hhzt τ hτdrop
    have hτmem := List.mem_of_mem_drop hτdrop
    obtain ⟨f, hf, hxf⟩ := forall2_mem_left (mcp_mem_forall2 _ τ hτmem) x hxτ
    obtain ⟨p, hp, rfl⟩ := List.mem_map.mp hf
    obtain ⟨hxsub, hxlt⟩ := removal_choices_bsub (hpieces p hp).1 x hxf
    obtain ⟨t, ht128, htx⟩ := exists_testBit_of_ne_zero hx0 hxlt
    refine ⟨mask, heq.symm, t, ht128, ?_, ?_⟩
    · rw [← hτmask]
      exact bsub_foldl_union_mem hxτ 0 t htx
    · have het : (g.graph.hyperedges.getD ep.1 0).testBit t = true :=
        (hpieces p hp).2 t (hxsub t htx)
      have hene : g.graph.hyperedges.getD ep.1 0 ≠ 0 := by
        intro h0
        rw [h0, Nat.zero_testBit] at het
        exact absurd het (by simp)
      exact bsub_foldl_union_mem (hedge.2 hene) 0 t het

theorem c7_split_moves_decrease (g : TakingGame)
    (hw : ∀ e ∈ g.graph.hyperedges, e < 2 ^ 128)
    (hn : Bitset128.len (g.graph.hyperedges.foldl Bitset128.union 0) ≤ g.nr_nodes) :
    ∀ s ∈ TakingGame.get_split_moves g, (s.map TakingGame.nr_nodes).sum < g.nr_nodes := by
  intro s hs
  obtain ⟨mask, rfl, t, ht, hmt, hUt⟩ := split_moves_mask g hw s hs
  have hmap : ((g.with_nodes_removed mask).map TakingGame.nr_nodes)
      = (g.graph.minus mask).map fun h => h.nodes.length := by
    rw [TakingGame.with_nodes_removed, List.map_map]
    rfl
  rw [hmap]
  exact lt_of_lt_of_le (minus_nodes_sum g.graph mask hw t ht hUt hmt) hn

theorem c7_split_moves_decrease_witness :
    (∀ e ∈ (TakingGame.mk ⟨[3], [0, 1], [0, 2], [0, 1]⟩).graph.hyperedges, e < 2 ^ 128) ∧
    Bitset128.len ((TakingGame.mk ⟨[3], [0, 1], [0, 2], [0, 1]⟩).graph.hyperedges.foldl
        Bitset128.union 0) ≤ (TakingGame.mk ⟨[3], [0, 1], [0, 2], [0, 1]⟩).nr_nodes ∧
    (TakingGame.mk ⟨[3], [0, 1], [0, 2], [0, 1]⟩).with_nodes_removed 1
      ∈ TakingGame.get_split_moves (TakingGame.mk ⟨[3], [0, 1], [0, 2], [0, 1]⟩) ∧
    (((TakingGame.mk ⟨[3], [0, 1], [0, 2], [0, 1]⟩).with_nodes_removed 1).map
        TakingGame.nr_nodes).sum < (TakingGame.mk ⟨[3], [0, 1], [0, 2], [0, 1]⟩).nr_nodes :=
  ⟨by decide, by decide, by decide,
    c7_split_moves_decrease _ (by decide) (by decide) _ (by decide)⟩


/-! ## Antichain invariant of the constructors -/

theorem eq_of_bsub_len_le {a b : Nat} (ha : a < 2 ^ 128) (hb : b < 2 ^ 128)
    (hs : BSub a b) (hl : Bitset128.len b ≤ Bitset128.len a) : a = b := by
  have hsub : bfin a ⊆ bfin b := bfin_subset_of_bsub hs
  have hcard : (bfin b).card ≤ (bfin a).card := by
    rw [← len_eq_card, ← len_eq_card]
    exact hl
  have hfin : bfin a = bfin b := Finset.eq_of_subset_of_card_le hsub hcard
  apply Nat.eq_of_testBit_eq
  intro i
  by_cases hi : i < 128
  · cases hta : a.testBit i with
    | true =>
      have h1 : i ∈ bfin b := hfin ▸ mem_bfin.mpr ⟨hi, hta⟩
      exact ((mem_bfin.mp h1).2).symm
    | false =>
      cases htb : b.testBit i with
      | true =>
        have h1 : i ∈ bfin a := hfin ▸ mem_bfin.mpr ⟨hi, htb⟩
        rw [(mem_bfin.mp h1).2] at hta
        exact absurd hta (by simp)
      | false => rfl
  · rw [testBit_ge_128 ha (by omega), testBit_ge_128 hb (by omega)]

theorem insertLe_pairwise {α : Type _} (le : α → α → Bool)
    (htot : ∀ a b, le a b = false → le b a = true)
    (htrans : ∀ a b c, le a b = true → le b c = true → le a c = true)
    (x : α) : ∀ l : List α, l.Pairwise (fun a b => le a b = true) →
    (insertLe le x l).Pairwise (fun a b => le a b = true) := by
  intro l
  induction l with
  | nil => intro _; exact List.pairwise_singleton _ x
  | cons y ys ih =>
    intro hp
    rw [insertLe]
    rcases List.pairwise_cons.mp hp with ⟨hy, hys⟩
    by_cases h : le x y = true
    · rw [if_pos h]
      refine List.pairwise_cons.mpr ⟨?_, hp⟩
      intro z hz
      rcases List.mem_cons.mp hz with rfl | hz
      · exact h
      · exact htrans x y z h (hy z hz)
    · rw [if_neg h]
      refine List.pairwise_cons.mpr ⟨?_, ih hys⟩
      intro z hz
      rcases List.mem_cons.mp ((insertLe_perm le x ys).mem_iff.mp hz) with hz2 | hz2
      · rw [hz2]
        exact htot x y (by revert h; cases le x y <;> simp)
      · exact hy z hz2

theorem sortLe_pairwise {α : Type _} (le : α → α → Bool)
    (htot : ∀ a b, le a b = false → le b a = true)
    (htrans : ∀ a b c, le a b = true → le b c = true → le a c = true) :
    ∀ l : List α, (sortLe le l).Pairwise (fun a b => le a b = true) := by
  intro l
  induction l with
  | nil => exact List.Pairwise.nil
  | cons x xs ih =>
    rw [sortLe]
    exact insertLe_pairwise le htot htrans x _ ih

theorem desc_len_sorted_pairwise (es : List Nat) :
    (StructuredHypergraph.desc_len_sorted es).Pairwise
      (fun a b => Bitset128.len b ≤ Bitset128.len a) := by
  unfold StructuredHypergraph.desc_len_sorted
  have h := sortLe_pairwise (fun a b => Nat.ble (Bitset128.len b) (Bitset128.len a))
    (fun a b hab => by
      show Nat.ble (Bitset128.len a) (Bitset128.len b) = true
      have hab2 : Nat.ble (Bitset128.len b) (Bitset128.len a) = false := hab
      have h2 : ¬ Bitset128.len b ≤ Bitset128.len a := by
        rw [← Nat.ble_eq, hab2]
        simp
      rw [Nat.ble_eq]
      omega)
    (fun a b c hab hbc => by
      show Nat.ble (Bitset128.len c) (Bitset128.len a) = true
      have hab2 : Nat.ble (Bitset128.len b) (Bitset128.len a) = true := hab
      have hbc2 : Nat.ble (Bitset128.len c) (Bitset128.len b) = true := hbc
      rw [Nat.ble_eq] at hab2 hbc2 ⊢
      omega) es
  exact h.imp fun hab => Nat.ble_eq.mp hab

theorem keep_fold_inv : ∀ (l acc : List Nat),
    (∀ x ∈ acc, x < 2 ^ 128) → (∀ x ∈ l, x < 2 ^ 128) →
    (∀ a ∈ acc, ∀ b ∈ l, Bitset128.len b ≤ Bitset128.len a) →
    l.Pairwise (fun a b => Bitset128.len b ≤ Bitset128.len a) →
    acc.Pairwise (fun a b => ¬ BSub b a) →
    acc.Pairwise (fun a b => Bitset128.len b ≤ Bitset128.len a) →
    (l.foldl
      (fun acc e =>
        if !(Bitset128.is_empty e) && acc.all (fun ue => !(Bitset128.is_subset e ue)) then
          acc ++ [e]
        else acc)
      acc).Pairwise (fun a b => (¬ BSub b a) ∧ Bitset128.len b ≤ Bitset128.len a) := by
  intro l
  induction l with
  | nil =>
    intro acc hacc _ _ _ hinv hsort
    exact hinv.and hsort
  | cons e l ih =>
    intro acc hacc hl hord hlsort hinv hsort
    rw [List.foldl_cons]
    have he128 : e < 2 ^ 128 := hl e (List.mem_cons_self e l)
    rcases List.pairwise_cons.mp hlsort with ⟨hehead, hltail⟩
    by_cases hc : (!(Bitset128.is_empty e)
        && acc.all (fun ue => !(Bitset128.is_subset e ue))) = true
    · rw [if_pos hc]
      have hall := (Bool.and_eq_true _ _ ▸ hc).2
      rw [List.all_eq_true] at hall
      apply ih
      · intro x hx
        rcases List.mem_append.mp hx with hx | hx
        · exact hacc x hx
        · rw [List.mem_singleton.mp hx]
          exact he128
      · intro x hx
        exact hl x (List.mem_cons_of_mem e hx)
      · intro a ha b hb
        rcases List.mem_append.mp ha with ha | ha
        · exact hord a ha b (List.mem_cons_of_mem e hb)
        · rw [List.mem_singleton.mp ha]
          exact hehead b hb
      · exact hltail
      · rw [List.pairwise_append]
        refine ⟨hinv, List.pairwise_singleton _ e, ?_⟩
        intro a ha b hb
        rw [List.mem_singleton.mp hb]
        intro hBS
        have hfalse : Bitset128.is_subset e a = false := by
          have := hall a ha
          revert this
          cases Bitset128.is_subset e a <;> simp
        rw [(is_subset_iff he128).mpr hBS] at hfalse
        exact absurd hfalse (by simp)
      · rw [List.pairwise_append]
        refine ⟨hsort, List.pairwise_singleton _ e, ?_⟩
        intro a ha b hb
        rw [List.mem_singleton.mp hb]
        exact hord a ha e (List.mem_cons_self e l)
    · rw [if_neg hc]
      apply ih
      · exact hacc
      · intro x hx
        exact hl x (List.mem_cons_of_mem e hx)
      · intro a ha b hb
        exact hord a ha b (List.mem_cons_of_mem e hb)
      · exact hltail
      · exact hinv
      · exact hsort

/-- Index-level antichain: no hyperedge is a subset of another one. -/
def AntichainE (es : List Nat) : Prop :=
  ∀ i j, i < es.length → j < es.length → i ≠ j →
    ¬ BSub (es.getD i 0) (es.getD j 0)

theorem antichainE_of_pairwise {es : List Nat}
    (h : es.Pairwise fun a b => ¬ BSub a b ∧ ¬ BSub b a) : AntichainE es := by
  intro i j hi hj hne
  rw [List.getD_eq_getElem es 0 hi, List.getD_eq_getElem es 0 hj]
  rcases Nat.lt_or_ge i j with hij | hij
  · exact (List.pairwise_iff_getElem.mp h i j hi hj hij).1
  · have hji : j < i := by omega
    exact (List.pairwise_iff_getElem.mp h j i hj hi hji).2

theorem keep_desc_antichain (es : List Nat) (hw : ∀ e ∈ es, e < 2 ^ 128) :
    (StructuredHypergraph.keep_non_redundant
      (StructuredHypergraph.desc_len_sorted es)).Pairwise
      (fun a b => ¬ BSub a b ∧ ¬ BSub b a) := by
  have hd : ∀ x ∈ StructuredHypergraph.desc_len_sorted es, x < 2 ^ 128 :=
    fun x hx => hw x (desc_len_sorted_mem es x hx)
  have hfold := keep_fold_inv (StructuredHypergraph.desc_len_sorted es) []
    (fun x hx => absurd hx (List.not_mem_nil x)) hd
    (fun a ha => absurd ha (List.not_mem_nil a))
    (desc_len_sorted_pairwise es) List.Pairwise.nil List.Pairwise.nil
  have hmem : ∀ x ∈ StructuredHypergraph.keep_non_redundant
      (StructuredHypergraph.desc_len_sorted es), x < 2 ^ 128 :=
    fun x hx => hd x (keep_non_redundant_subset _ x hx)
  have hk : StructuredHypergraph.keep_non_redundant
      (StructuredHypergraph.desc_len_sorted es)
      = (StructuredHypergraph.desc_len_sorted es).foldl
        (fun acc e =>
          if !(Bitset128.is_empty e) && acc.all (fun ue => !(Bitset128.is_subset e ue)) then
            acc ++ [e]
          else acc) [] := by
    unfold StructuredHypergraph.keep_non_redundant
    rfl
  rw [← hk] at hfold
  refine hfold.imp_of_mem ?_
  intro a b ha hb hab
  refine ⟨?_, hab.1⟩
  intro hBS
  have heq : a = b := eq_of_bsub_len_le (hmem a ha) (hmem b hb) hBS hab.2
  exact hab.1 (heq ▸ bsub_refl b)

theorem anm_not_bsub {m : List Nat} (hm : m.length ≤ 128) {e1 e2 : Nat}
    (hcov : ∀ t, e1.testBit t = true → ∃ s, s < m.length ∧ m.getD s 0 = t ∧ t < 128)
    (hns : ¬ BSub e1 e2) :
    ¬ BSub (Bitset128.apply_node_map e1 m) (Bitset128.apply_node_map e2 m) := by
  have hex : ∃ t, e1.testBit t = true ∧ e2.testBit t = false := by
    by_contra hno
    push_neg at hno
    apply hns
    intro i hi
    cases h2 : e2.testBit i with
    | true => rfl
    | false => exact absurd h2 (hno i hi)
  obtain ⟨t, ht1, ht2⟩ := hex
  obtain ⟨s, hs, hms, ht128⟩ := hcov t ht1
  intro hB
  have h1 := testBit_apply_node_map hm e1 s
  have h2 := testBit_apply_node_map hm e2 s
  rw [hms, Nat.mod_eq_of_lt ht128] at h1 h2
  have hb1 : (Bitset128.apply_node_map e1 m).testBit s = true := by
    rw [h1, ht1]
    simp [hs]
  have hb2 := hB s hb1
  rw [h2, ht2] at hb2
  simp at hb2

theorem map_anm_antichain {m : List Nat} (hm : m.length ≤ 128) {es : List Nat}
    (hcov : ∀ e ∈ es, ∀ t, e.testBit t = true → ∃ s, s < m.length ∧ m.getD s 0 = t ∧ t < 128)
    (hA : AntichainE es) :
    AntichainE (es.map fun e => Bitset128.apply_node_map e m) := by
  intro i j hi hj hne
  rw [List.length_map] at hi hj
  rw [List.getD_eq_getElem _ 0 (by rw [List.length_map]; exact hi),
      List.getD_eq_getElem _ 0 (by rw [List.length_map]; exact hj),
      List.getElem_map, List.getElem_map]
  apply anm_not_bsub hm (hcov _ (List.getElem_mem hi))
  have h := hA i j hi hj hne
  rw [List.getD_eq_getElem es 0 hi, List.getD_eq_getElem es 0 hj] at h
  exact h

theorem map_anm_nonzero {m : List Nat} (hm : m.length ≤ 128) {es : List Nat}
    (hcov : ∀ e ∈ es, ∀ t, e.testBit t = true → ∃ s, s < m.length ∧ m.getD s 0 = t ∧ t < 128)
    (hnz : ∀ e ∈ es, e ≠ 0) (hw : ∀ e ∈ es, e < 2 ^ 128) :
    ∀ x ∈ es.map (fun e => Bitset128.apply_node_map e m), x ≠ 0 := by
  intro x hx
  obtain ⟨e, he, rfl⟩ := List.mem_map.mp hx
  obtain ⟨t, ht128, htb⟩ := exists_testBit_of_ne_zero (hnz e he) (hw e he)
  obtain ⟨s, hs, hms, ht128b⟩ := hcov e he t htb
  apply apply_node_map_ne_zero hm hs
  rw [hms, Nat.mod_eq_of_lt ht128b]
  exact htb

theorem select_antichain {es idxs : List Nat} (hnd : idxs.Nodup)
    (hv : ∀ i ∈ idxs, i < es.length) (hA : AntichainE es) :
    AntichainE (idxs.map fun i => es.getD i 0) := by
  intro i j hi hj hne
  rw [List.length_map] at hi hj
  rw [List.getD_eq_getElem _ 0 (by rw [List.length_map]; exact hi),
      List.getD_eq_getElem _ 0 (by rw [List.length_map]; exact hj),
      List.getElem_map, List.getElem_map]
  have hii : idxs[i] < es.length := hv _ (List.getElem_mem hi)
  have hjj : idxs[j] < es.length := hv _ (List.getElem_mem hj)
  have hneidx : idxs[i] ≠ idxs[j] := by
    have hnd2 := List.pairwise_iff_getElem.mp hnd
    rcases Nat.lt_or_ge i j with h | h
    · exact hnd2 i j hi hj h
    · have hji : j < i := by omega
      exact fun he => (hnd2 j i hj hi hji) he.symm
  exact hA idxs[i] idxs[j] hii hjj hneidx

theorem bucket_fold_nodup (g : StructuredHypergraph) :
    ∀ (idxs : List Nat) (bs : List (Nat × List Nat)), idxs.Nodup →
    (∀ p ∈ bs, ∀ x ∈ p.2, x ∉ idxs) → (∀ p ∈ bs, p.2.Nodup) →
    ∀ p ∈ idxs.foldl
      (fun bs ei =>
        if bs.any (fun p => p.1 == rootOf g ei) then
          bs.map fun p => if p.1 == rootOf g ei then (p.1, p.2 ++ [ei]) else p
        else bs ++ [(rootOf g ei, [ei])])
      bs, p.2.Nodup := by
  intro idxs
  induction idxs with
  | nil => intro bs _ _ hnd p hp; exact hnd p hp
  | cons ei idxs ih
  =>
    intro bs hndl hcl hnd
    rw [List.foldl_cons]
    rcases List.pairwise_cons.mp hndl with ⟨hei, hndl2⟩
    by_cases hc : (bs.any fun p => p.1 == rootOf g ei) = true
    · rw [if_pos hc]
      apply ih _ hndl2
      · intro p hp x hx
        obtain ⟨q, hq, rfl⟩ := List.mem_map.mp hp
        by_cases hroot : (q.1 == rootOf g ei) = true
        · rw [if_pos hroot] at hx
          rcases List.mem_append.mp hx with hx2 | hx2
          · exact fun hmem => hcl q hq x hx2 (List.mem_cons_of_mem ei hmem)
          · rw [List.mem_singleton.mp hx2]
            intro hmem
            exact (hei ei hmem) rfl
        · rw [if_neg hroot] at hx
          exact fun hmem => hcl q hq x hx (List.mem_cons_of_mem ei hmem)
      · intro p hp
        obtain ⟨q, hq, rfl⟩ := List.mem_map.mp hp
        by_cases hroot : (q.1 == rootOf g ei) = true
        · rw [if_pos hroot]
          show (q.2 ++ [ei]).Nodup
          rw [List.nodup_append]
          refine ⟨hnd q hq, List.nodup_singleton ei, ?_⟩
          intro x hx hx2
          rw [List.mem_singleton.mp hx2] at hx
          exact hcl q hq ei hx (List.mem_cons_self ei idxs)
        · rw [if_neg hroot]
          exact hnd q hq
    · rw [if_neg hc]
      apply ih _ hndl2
      · intro p hp x hx
        rcases List.mem_append.mp hp with hp2 | hp2
        · exact fun hmem => hcl p hp2 x hx (List.mem_cons_of_mem ei hmem)
        · rw [List.mem_singleton.mp hp2] at hx
          rw [List.mem_singleton.mp hx]
          intro hmem
          exact (hei ei hmem) rfl
      · intro p hp
        rcases List.mem_append.mp hp with hp2 | hp2
        · exact hnd p hp2
        · rw [List.mem_singleton.mp hp2]
          exact List.nodup_singleton ei

theorem edge_buckets_nodup (g : StructuredHypergraph) :
    ∀ p ∈ g.edge_buckets, p.2.Nodup := by
  have h := bucket_fold_nodup g (List.range g.hyperedges.length) []
    (List.nodup_range _)
    (fun p hp => absurd hp (List.not_mem_nil p))
    (fun p hp => absurd hp (List.not_mem_nil p))
  exact h

theorem iter_cov {U : Nat} (hU : U < 2 ^ 128) {e : Nat} (hsub : BSub e U) :
    ∀ t, e.testBit t = true →
      ∃ s, s < (Bitset128.iter U).length ∧ (Bitset128.iter U).getD s 0 = t ∧ t < 128 := by
  intro t htb
  have hUt : U.testBit t = true := hsub t htb
  have ht128 : t < 128 := by
    by_contra hge
    rw [testBit_ge_128 hU (by omega)] at hUt
    exact absurd hUt (by simp)
  have hmem : t ∈ Bitset128.iter U := mem_iter.mpr ⟨ht128, hUt⟩
  obtain ⟨s, hs, hst⟩ := List.getElem_of_mem hmem
  exact ⟨s, hs, by rw [List.getD_eq_getElem _ 0 hs]; exact hst, ht128⟩

theorem iter_length_le (U : Nat) : (Bitset128.iter U).length ≤ 128 := by
  rw [← len_eq_iter_length]
  exact len_le_128 U

theorem flatten_nodes_length_eq (g : StructuredHypergraph)
    (hn : Bitset128.len (g.hyperedges.foldl Bitset128.union 0) ≤ g.nodes.length) :
    g.flatten_nodes.nodes.length
      = Bitset128.len (g.hyperedges.foldl Bitset128.union 0) := by
  unfold StructuredHypergraph.flatten_nodes
  simp only []
  by_cases hf : Bitset128.is_flattened (g.hyperedges.foldl Bitset128.union 0) = true
  · rw [if_pos hf]
    show (g.nodes.take (Bitset128.len (g.hyperedges.foldl Bitset128.union 0))).length = _
    rw [List.length_take]
    omega
  · rw [if_neg hf, apply_node_map_nodes, List.length_map, len_eq_iter_length]

theorem flatten_antichain (g : StructuredHypergraph)
    (hw : ∀ e ∈ g.hyperedges, e < 2 ^ 128)
    (hA : AntichainE g.hyperedges) (hnz : ∀ e ∈ g.hyperedges, e ≠ 0) :
    AntichainE g.flatten_nodes.hyperedges ∧ ∀ e ∈ g.flatten_nodes.hyperedges, e ≠ 0 := by
  have hU : g.hyperedges.foldl Bitset128.union 0 < 2 ^ 128 :=
    foldl_union_lt_pow _ 0 (by positivity) hw
  unfold StructuredHypergraph.flatten_nodes
  simp only []
  by_cases hf : Bitset128.is_flattened (g.hyperedges.foldl Bitset128.union 0) = true
  · rw [if_pos hf]
    exact ⟨hA, hnz⟩
  · rw [if_neg hf, apply_node_map_hyperedges]
    have hm : (Bitset128.iter (g.hyperedges.foldl Bitset128.union 0)).length ≤ 128 :=
      iter_length_le _
    have hcov : ∀ e ∈ g.hyperedges, ∀ t, e.testBit t = true →
        ∃ s, s < (Bitset128.iter (g.hyperedges.foldl Bitset128.union 0)).length ∧
          (Bitset128.iter (g.hyperedges.foldl Bitset128.union 0)).getD s 0 = t ∧ t < 128 :=
      fun e he => iter_cov hU (bsub_foldl_union_mem he 0)
    exact ⟨map_anm_antichain hm hcov hA, map_anm_nonzero hm hcov hnz hw⟩

theorem sort_antichain_core (g : StructuredHypergraph) (h128 : g.nodes.length ≤ 128)
    (hE : ∀ e ∈ g.hyperedges, e < 2 ^ g.nodes.length)
    (hA : AntichainE g.hyperedges) (hnz : ∀ e ∈ g.hyperedges, e ≠ 0) :
    AntichainE (SorterState.sort g).hyperedges ∧
    (∀ e ∈ (SorterState.sort g).hyperedges, e ≠ 0) ∧
    (∀ e ∈ (SorterState.sort g).hyperedges, e < 2 ^ 128) := by
  rw [sort_hyperedges_form]
  have hem := (sInv_sorted_state g).em
  have hnm := (sInv_sorted_state g).nm
  have hemnd : (SorterState.sorted_state g).edge_map.Nodup :=
    hem.nodup_iff.mpr (List.nodup_range _)
  have hemv : ∀ i ∈ (SorterState.sorted_state g).edge_map, i < g.hyperedges.length :=
    fun i hi => List.mem_range.mp (hem.mem_iff.mp hi)
  have hsel : AntichainE ((SorterState.sorted_state g).edge_map.map
      fun i => g.hyperedges.getD i 0) := select_antichain hemnd hemv hA
  have hselmem : ∀ e ∈ (SorterState.sorted_state g).edge_map.map
      (fun i => g.hyperedges.getD i 0), e ∈ g.hyperedges := by
    intro e he
    obtain ⟨i, hi, rfl⟩ := List.mem_map.mp he
    rw [List.getD_eq_getElem _ 0 (hemv i hi)]
    exact List.getElem_mem (hemv i hi)
  have hmlen : (SorterState.sorted_state g).node_map.length = g.nodes.length := by
    rw [hnm.length_eq, List.length_range]
  have hm : (SorterState.sorted_state g).node_map.length ≤ 128 := by omega
  have hcov : ∀ e ∈ (SorterState.sorted_state g).edge_map.map
      (fun i => g.hyperedges.getD i 0), ∀ t, e.testBit t = true →
      ∃ s, s < (SorterState.sorted_state g).node_map.length ∧
        (SorterState.sorted_state g).node_map.getD s 0 = t ∧ t < 128 := by
    intro e he t htb
    have he2 := hE e (hselmem e he)
    have ht : t < g.nodes.length := by
      by_contra hge
      rw [Nat.testBit_lt_two_pow (lt_of_lt_of_le he2
        (Nat.pow_le_pow_right (by omega) (by omega)))] at htb
      exact absurd htb (by simp)
    have hmem : t ∈ (SorterState.sorted_state g).node_map :=
      hnm.mem_iff.mpr (List.mem_range.mpr ht)
    obtain ⟨s, hs, hst⟩ := List.getElem_of_mem hmem
    exact ⟨s, hs, by rw [List.getD_eq_getElem _ 0 hs]; exact hst, by omega⟩
  refine ⟨map_anm_antichain hm hcov hsel, ?_, ?_⟩
  · apply map_anm_nonzero hm hcov
    · exact fun e he => hnz e (hselmem e he)
    · exact fun e he => lt_of_lt_of_le (hE e (hselmem e he))
        (Nat.pow_le_pow_right (by omega) h128)
  · intro x hx
    obtain ⟨e, _, rfl⟩ := List.mem_map.mp hx
    exact lt_of_lt_of_le (apply_node_map_lt_two_pow hm e)
      (Nat.pow_le_pow_right (by omega) hm)

theorem get_parts_good (g : StructuredHypergraph) (h128 : g.nodes.length ≤ 128)
    (hE : ∀ e ∈ g.hyperedges, e < 2 ^ g.nodes.length)
    (hA : AntichainE g.hyperedges) (hnz : ∀ e ∈ g.hyperedges, e ≠ 0) :
    ∀ h ∈ g.get_parts, AntichainE h.hyperedges ∧ (∀ e ∈ h.hyperedges, e ≠ 0) ∧
      (∀ e ∈ h.hyperedges, e < 2 ^ 128) := by
  intro h hh
  unfold StructuredHypergraph.get_parts at hh
  by_cases hc : (g.edge_buckets).length = 1
  · rw [if_pos hc] at hh
    rw [List.mem_singleton.mp hh]
    exact sort_antichain_core g h128 hE hA hnz
  · rw [if_neg hc] at hh
    obtain ⟨p, hp, rfl⟩ := List.mem_map.mp hh
    have hbinv := edge_buckets_inv g
    have hnd := edge_buckets_nodup g p hp
    have hval : ∀ ei ∈ p.2, ei < g.hyperedges.length := fun ei hei => (hbinv.1 p hp ei hei).2
    have hsubA : AntichainE (p.2.map fun ei => g.hyperedges.getD ei 0) :=
      select_antichain hnd hval hA
    have hsubmem : ∀ e ∈ p.2.map (fun ei => g.hyperedges.getD ei 0), e ∈ g.hyperedges := by
      intro e he
      obtain ⟨i, hi, rfl⟩ := List.mem_map.mp he
      rw [List.getD_eq_getElem _ 0 (hval i hi)]
      exact List.getElem_mem (hval i hi)
    have hsubE : ∀ e ∈ p.2.map (fun ei => g.hyperedges.getD ei 0), e < 2 ^ g.nodes.length :=
      fun e he => hE e (hsubmem e he)
    have hsubw : ∀ e ∈ p.2.map (fun ei => g.hyperedges.getD ei 0), e < 2 ^ 128 :=
      fun e he => lt_of_lt_of_le (hsubE e he) (Nat.pow_le_pow_right (by omega) h128)
    have hsubnz : ∀ e ∈ p.2.map (fun ei => g.hyperedges.getD ei 0), e ≠ 0 :=
      fun e he => hnz e (hsubmem e he)
    have hnle : Bitset128.len ((p.2.map fun ei => g.hyperedges.getD ei 0).foldl
        Bitset128.union 0) ≤ g.nodes.length :=
      len_le_of_lt_two_pow (foldl_union_lt_pow _ 0 (by positivity) hsubE)
    have hflat := flatten_antichain
      { hyperedges := p.2.map fun ei => g.hyperedges.getD ei 0
        nodes := g.nodes
        node_structure_partitions := []
        edge_structure_partitions := [] } hsubw hsubA hsubnz
    have hflen : (StructuredHypergraph.flatten_nodes
        { hyperedges := p.2.map fun ei => g.hyperedges.getD ei 0
          nodes := g.nodes
          node_structure_partitions := []
          edge_structure_partitions := [] }).nodes.length
        = Bitset128.len ((p.2.map fun ei => g.hyperedges.getD ei 0).foldl
            Bitset128.union 0) := flatten_nodes_length_eq
      { hyperedges := p.2.map fun ei => g.hyperedges.getD ei 0
        nodes := g.nodes
        node_structure_partitions := []
        edge_structure_partitions := [] } hnle
    have hfE : ∀ e ∈ (StructuredHypergraph.flatten_nodes
        { hyperedges := p.2.map fun ei => g.hyperedges.getD ei 0
          nodes := g.nodes
          node_structure_partitions := []
          edge_structure_partitions := [] }).hyperedges,
        e < 2 ^ Bitset128.len ((p.2.map fun ei => g.hyperedges.getD ei 0).foldl
            Bitset128.union 0) := flatten_edges_lt
      { hyperedges := p.2.map fun ei => g.hyperedges.getD ei 0
        nodes := g.nodes
        node_structure_partitions := []
        edge_structure_partitions := [] } hsubw
    apply sort_antichain_core
    · rw [hflen]
      omega
    · intro e he
      rw [hflen]
      exact hfE e he
    · exact hflat.1
    · exact hflat.2

theorem remove_redundant_good (g : StructuredHypergraph)
    (hw : ∀ e ∈ g.hyperedges, e < 2 ^ 128)
    (hn : Bitset128.len (g.hyperedges.foldl Bitset128.union 0) ≤ g.nodes.length) :
    g.remove_redundant_hyperedges.nodes.length ≤ 128 ∧
    (∀ e ∈ g.remove_redundant_hyperedges.hyperedges,
      e < 2 ^ g.remove_redundant_hyperedges.nodes.length) ∧
    AntichainE g.remove_redundant_hyperedges.hyperedges ∧
    (∀ e ∈ g.remove_redundant_hyperedges.hyperedges, e ≠ 0) := by
  have hU128 : Bitset128.len (g.hyperedges.foldl Bitset128.union 0) ≤ 128 := len_le_128 _
  have hFLw : ∀ e ∈ g.flatten_nodes.hyperedges, e < 2 ^ 128 :=
    fun e he => lt_of_lt_of_le (flatten_edges_lt g hw e he)
      (Nat.pow_le_pow_right (by omega) hU128)
  have hKmem : ∀ x ∈ StructuredHypergraph.keep_non_redundant
      (StructuredHypergraph.desc_len_sorted g.flatten_nodes.hyperedges),
      x ∈ g.flatten_nodes.hyperedges := fun x hx =>
    desc_len_sorted_mem _ x (keep_non_redundant_subset _ x hx)
  have hKE : ∀ x ∈ StructuredHypergraph.keep_non_redundant
      (StructuredHypergraph.desc_len_sorted g.flatten_nodes.hyperedges),
      x < 2 ^ Bitset128.len (g.hyperedges.foldl Bitset128.union 0) := fun x hx =>
    flatten_edges_lt g hw x (hKmem x hx)
  have hKw : ∀ x ∈ StructuredHypergraph.keep_non_redundant
      (StructuredHypergraph.desc_len_sorted g.flatten_nodes.hyperedges),
      x < 2 ^ 128 := fun x hx => hFLw x (hKmem x hx)
  have hKA : AntichainE (StructuredHypergraph.keep_non_redundant
      (StructuredHypergraph.desc_len_sorted g.flatten_nodes.hyperedges)) :=
    antichainE_of_pairwise (keep_desc_antichain g.flatten_nodes.hyperedges hFLw)
  have hKnz : ∀ x ∈ StructuredHypergraph.keep_non_redundant
      (StructuredHypergraph.desc_len_sorted g.flatten_nodes.hyperedges), x ≠ 0 :=
    keep_nonzero _
  have hFLlen : g.flatten_nodes.nodes.length
      = Bitset128.len (g.hyperedges.foldl Bitset128.union 0) :=
    flatten_nodes_length_eq g hn
  unfold StructuredHypergraph.remove_redundant_hyperedges
  by_cases hbr : (StructuredHypergraph.desc_len_sorted g.flatten_nodes.hyperedges).length
      ≠ (StructuredHypergraph.keep_non_redundant
        (StructuredHypergraph.desc_len_sorted g.flatten_nodes.hyperedges)).length
  · rw [if_pos hbr]
    have hgKnle : Bitset128.len ((StructuredHypergraph.keep_non_redundant
        (StructuredHypergraph.desc_len_sorted g.flatten_nodes.hyperedges)).foldl
          Bitset128.union 0)
        ≤ ({ g.flatten_nodes with
            hyperedges := StructuredHypergraph.keep_non_redundant
              (StructuredHypergraph.desc_len_sorted g.flatten_nodes.hyperedges)
            } : StructuredHypergraph).nodes.length := by
      show _ ≤ g.flatten_nodes.nodes.length
      rw [hFLlen]
      exact len_le_of_lt_two_pow (foldl_union_lt_pow _ 0 (by positivity) hKE)
    have hR1 : (StructuredHypergraph.flatten_nodes
        { g.flatten_nodes with
          hyperedges := StructuredHypergraph.keep_non_redundant
            (StructuredHypergraph.desc_len_sorted g.flatten_nodes.hyperedges)
          }).nodes.length
        = Bitset128.len ((StructuredHypergraph.keep_non_redundant
            (StructuredHypergraph.desc_len_sorted g.flatten_nodes.hyperedges)).foldl
              Bitset128.union 0) :=
      flatten_nodes_length_eq _ hgKnle
    have hR2 : ∀ e ∈ (StructuredHypergraph.flatten_nodes
        { g.flatten_nodes with
          hyperedges := StructuredHypergraph.keep_non_redundant
            (StructuredHypergraph.desc_len_sorted g.flatten_nodes.hyperedges)
          }).hyperedges,
        e < 2 ^ Bitset128.len ((StructuredHypergraph.keep_non_redundant
            (StructuredHypergraph.desc_len_sorted g.flatten_nodes.hyperedges)).foldl
              Bitset128.union 0) :=
      flatten_edges_lt _ hKw
    have hR3 := flatten_antichain
      { g.flatten_nodes with
        hyperedges := StructuredHypergraph.keep_non_redundant
          (StructuredHypergraph.desc_len_sorted g.flatten_nodes.hyperedges)
        } hKw hKA hKnz
    refine ⟨?_, ?_, hR3.1, hR3.2⟩
    · rw [hR1]
      exact len_le_128 _
    · intro e he
      rw [hR1]
      exact hR2 e he
  · rw [if_neg hbr]
    refine ⟨?_, ?_, hKA, hKnz⟩
    · show g.flatten_nodes.nodes.length ≤ 128
      omega
    · intro e he
      show e < 2 ^ g.flatten_nodes.nodes.length
      rw [hFLlen]
      exact hKE e he

theorem fhwn_good (es ns : List Nat) (hw : ∀ e ∈ es, e < 2 ^ 128)
    (hn : Bitset128.len (es.foldl Bitset128.union 0) ≤ ns.length) :
    ∀ h ∈ StructuredHypergraph.from_hyperedges_with_nodes es ns,
      AntichainE h.hyperedges ∧ (∀ e ∈ h.hyperedges, e ≠ 0) ∧
      (∀ e ∈ h.hyperedges, e < 2 ^ 128) := by
  unfold StructuredHypergraph.from_hyperedges_with_nodes
  obtain ⟨h1, h2, h3, h4⟩ := remove_redundant_good ⟨es, ns, [], []⟩ hw hn
  exact fun h hh => get_parts_good _ h1 h2 h3 h4 h hh

theorem le_foldl_max : ∀ (l : List Nat) (a : Nat),
    a ≤ l.foldl Nat.max a ∧ ∀ x ∈ l, x ≤ l.foldl Nat.max a := by
  intro l
  induction l with
  | nil =>
    intro a
    exact ⟨Nat.le_refl a, fun x hx => absurd hx (List.not_mem_nil x)⟩
  | cons y ys ih =>
    intro a
    rw [List.foldl_cons]
    obtain ⟨h1, h2⟩ := ih (Nat.max a y)
    refine ⟨le_trans (Nat.le_max_left a y) h1, ?_⟩
    intro x hx
    rcases List.mem_cons.mp hx with rfl | hx
    · exact le_trans (Nat.le_max_right a x) h1
    · exact h2 x hx

theorem from_hyperedges_good (es : List Nat) (hw : ∀ e ∈ es, e < 2 ^ 128) :
    ∀ h ∈ StructuredHypergraph.from_hyperedges es,
      AntichainE h.hyperedges ∧ (∀ e ∈ h.hyperedges, e ≠ 0) ∧
      (∀ e ∈ h.hyperedges, e < 2 ^ 128) := by
  have hU : es.foldl Bitset128.union 0 < 2 ^ 128 :=
    foldl_union_lt_pow _ 0 (by positivity) hw
  unfold StructuredHypergraph.from_hyperedges
  simp only []
  apply fhwn_good es _ hw
  rw [List.length_range]
  by_cases hemp : (es.flatMap Bitset128.iter).isEmpty = true
  · rw [if_pos hemp]
    have hz : ∀ e ∈ es, e = 0 := by
      intro e he
      rw [List.isEmpty_iff] at hemp
      have hie : Bitset128.iter e = [] := by
        rcases List.flatMap_eq_nil_iff.mp hemp e he with h
        exact h
      have : e < 2 ^ 0 := by
        apply lt_two_pow_of_testBit_false
        intro i _
        by_contra hbit
        have h128 : i < 128 := by
          by_contra hge
          rw [testBit_ge_128 (hw e he) (by omega)] at hbit
          exact absurd rfl hbit
        have : i ∈ Bitset128.iter e := mem_iter.mpr ⟨h128, by
          cases hx : e.testBit i with
          | true => rfl
          | false => rw [hx] at hbit; exact absurd rfl hbit⟩
        rw [hie] at this
        exact absurd this (List.not_mem_nil i)
      rw [pow_zero] at this
      exact Nat.lt_one_iff.mp this
    have hfold : es.foldl Bitset128.union 0 = 0 := by
      have hlt : es.foldl Bitset128.union 0 < 2 ^ 0 := by
        apply foldl_union_lt_pow
        · decide
        · intro e he
          rw [hz e he]
          decide
      rw [pow_zero] at hlt
      exact Nat.lt_one_iff.mp hlt
    rw [hfold]
    rw [len_zero]
  · rw [if_neg hemp]
    have hbits : ∀ t, (es.foldl Bitset128.union 0).testBit t = true →
        t < (es.flatMap Bitset128.iter).foldl Nat.max 0 + 1 := by
      intro t ht
      rw [testBit_foldl_union] at ht
      rcases Bool.or_eq_true _ _ |>.mp ht with h0 | ha
      · rw [Nat.zero_testBit] at h0
        exact absurd h0 (by simp)
      · obtain ⟨e, he, hbit⟩ := List.any_eq_true.mp ha
        have ht128 : t < 128 := by
          by_contra hge
          rw [testBit_ge_128 (hw e he) (by omega)] at hbit
          exact absurd hbit (by simp)
        have hmem : t ∈ es.flatMap Bitset128.iter :=
          List.mem_flatMap.mpr ⟨e, he, mem_iter.mpr ⟨ht128, hbit⟩⟩
        have := (le_foldl_max (es.flatMap Bitset128.iter) 0).2 t hmem
        omega
    apply len_le_of_lt_two_pow
    apply lt_two_pow_of_testBit_false
    intro i hi
    cases hx : (es.foldl Bitset128.union 0).testBit i with
    | true =>
      have := hbits i hx
      omega
    | false => rfl

theorem minus_good (G : StructuredHypergraph) (m : Nat)
    (hw : ∀ e ∈ G.hyperedges, e < 2 ^ 128)
    (hn : Bitset128.len (G.hyperedges.foldl Bitset128.union 0) ≤ G.nodes.length) :
    ∀ h ∈ G.minus m,
      AntichainE h.hyperedges ∧ (∀ e ∈ h.hyperedges, e ≠ 0) ∧
      (∀ e ∈ h.hyperedges, e < 2 ^ 128) := by
  unfold StructuredHypergraph.minus
  apply fhwn_good
  · intro e he
    obtain ⟨e0, he0, rfl⟩ := List.mem_map.mp he
    unfold Bitset128.minus
    exact lt_of_le_of_lt Nat.and_le_left (hw e0 he0)
  · have hz : Bitset128.minus 0 m = 0 := by
      unfold Bitset128.minus
      exact Nat.zero_and _
    have hfold : (G.hyperedges.map fun e => Bitset128.minus e m).foldl Bitset128.union 0
        = Bitset128.minus (G.hyperedges.foldl Bitset128.union 0) m := by
      have h2 := minus_foldl_union G.hyperedges m 0
      rw [hz] at h2
      exact h2
    rw [hfold]
    have hbs : BSub (Bitset128.minus (G.hyperedges.foldl Bitset128.union 0) m)
        (G.hyperedges.foldl Bitset128.union 0) := by
      unfold Bitset128.minus
      exact bsub_land_left _ _
    exact le_trans (len_mono hbs) hn

theorem from_slice_lt (l : List Nat) : Bitset128.from_slice l < 2 ^ 128 := by
  unfold Bitset128.from_slice
  have haux : ∀ (xs : List Nat) (b0 : Nat), b0 < 2 ^ 128 →
      xs.foldl Bitset128.insert b0 < 2 ^ 128 := by
    intro xs
    induction xs with
    | nil => intro b0 h; exact h
    | cons x xs ih =>
      intro b0 h
      rw [List.foldl_cons]
      apply ih
      unfold Bitset128.insert
      apply Nat.or_lt_two_pow h
      rw [Nat.one_shiftLeft]
      exact Nat.pow_lt_pow_right (by omega) (Nat.mod_lt x (by omega))
  exact haux l 0 (by positivity)

theorem antichain_is_subset {es : List Nat} (hA : AntichainE es)
    (hw : ∀ e ∈ es, e < 2 ^ 128) :
    ∀ i j, i < es.length → j < es.length → i ≠ j →
      Bitset128.is_subset (es.getD i 0) (es.getD j 0) = false := by
  intro i j hi hj hne
  cases hx : Bitset128.is_subset (es.getD i 0) (es.getD j 0) with
  | false => rfl
  | true =>
    have hmem : es.getD i 0 ∈ es := by
      rw [List.getD_eq_getElem es 0 hi]
      exact List.getElem_mem hi
    have hB := (is_subset_iff (hw _ hmem)).mp hx
    exact absurd hB (hA i j hi hj hne)

/-- **C6.** Every position produced by `from_hyperesges`,
`from_hyperedges_with_nodes` (on 128-bit edges whose support fits the
node list) or `minus` has no empty hyperedge and no hyperedge that is a
subset of another hyperedge of the same position. -/
theorem c6_edges_nonempty_antichain :
    (∀ (edges : List (List Nat)), ∀ t ∈ TakingGame.from_hyperesges edges,
      (∀ e ∈ t.graph.hyperedges, e ≠ 0) ∧
      ∀ i j, i < t.graph.hyperedges.length → j < t.graph.hyperedges.length → i ≠ j →
        Bitset128.is_subset (t.graph.hyperedges.getD i 0) (t.graph.hyperedges.getD j 0)
          = false) ∧
    (∀ (es ns : List Nat), (∀ e ∈ es, e < 2 ^ 128) →
      Bitset128.len (es.foldl Bitset128.union 0) ≤ ns.length →
      ∀ h ∈ StructuredHypergraph.from_hyperedges_with_nodes es ns,
        (∀ e ∈ h.hyperedges, e ≠ 0) ∧
        ∀ i j, i < h.hyperedges.length → j < h.hyperedges.length → i ≠ j →
          Bitset128.is_subset (h.hyperedges.getD i 0) (h.hyperedges.getD j 0) = false) ∧
    (∀ (G : StructuredHypergraph) (m : Nat), (∀ e ∈ G.hyperedges, e < 2 ^ 128) →
      Bitset128.len (G.hyperedges.foldl Bitset128.union 0) ≤ G.nodes.length →
      ∀ h ∈ G.minus m,
        (∀ e ∈ h.hyperedges, e ≠ 0) ∧
        ∀ i j, i < h.hyperedges.length → j < h.hyperedges.length → i ≠ j →
          Bitset128.is_subset (h.hyperedges.getD i 0) (h.hyperedges.getD j 0) = false) := by
  refine ⟨?_, ?_, ?_⟩
  · intro edges t ht
    rw [TakingGame.from_hyperesges] at ht
    obtain ⟨h, hh, rfl⟩ := List.mem_map.mp ht
    obtain ⟨hA, hnz, hwout⟩ := from_hyperedges_good (edges.map Bitset128.from_slice)
      (by
        intro e he
        obtain ⟨l, _, rfl⟩ := List.mem_map.mp he
        exact from_slice_lt l) h hh
    exact ⟨hnz, antichain_is_subset hA hwout⟩
  · intro es ns hw hn h hh
    obtain ⟨hA, hnz, hwout⟩ := fhwn_good es ns hw hn h hh
    exact ⟨hnz, antichain_is_subset hA hwout⟩
  · intro G m hw hn h hh
    obtain ⟨hA, hnz, hwout⟩ := minus_good G m hw hn h hh
    exact ⟨hnz, antichain_is_subset hA hwout⟩

theorem c6_edges_nonempty_antichain_witness :
    ((∀ e ∈ ([6, 3] : List Nat), e < 2 ^ 128) ∧
      Bitset128.len (([6, 3] : List Nat).foldl Bitset128.union 0)
        ≤ ([0, 1, 2] : List Nat).length) ∧
    (StructuredHypergraph.mk [6, 5] [0, 2, 1] [0, 2, 3] [0, 2]
        ∈ StructuredHypergraph.from_hyperedges_with_nodes [6, 3] [0, 1, 2] ∧
      ((∀ e ∈ (StructuredHypergraph.mk [6, 5] [0, 2, 1] [0, 2, 3] [0, 2]).hyperedges,
          e ≠ 0) ∧
        ∀ i j, i < (StructuredHypergraph.mk [6, 5] [0, 2, 1] [0, 2, 3] [0, 2]).hyperedges.length →
          j < (StructuredHypergraph.mk [6, 5] [0, 2, 1] [0, 2, 3] [0, 2]).hyperedges.length →
          i ≠ j →
          Bitset128.is_subset
            ((StructuredHypergraph.mk [6, 5] [0, 2, 1] [0, 2, 3] [0, 2]).hyperedges.getD i 0)
            ((StructuredHypergraph.mk [6, 5] [0, 2, 1] [0, 2, 3] [0, 2]).hyperedges.getD j 0)
            = false)) :=
  ⟨⟨by decide, by decide⟩,
    by decide,
    c6_edges_nonempty_antichain.2.1 [6, 3] [0, 1, 2] (by decide) (by decide)
      (StructuredHypergraph.mk [6, 5] [0, 2, 1] [0, 2, 3] [0, 2]) (by decide)⟩


/-! ## Relabeling invariance -/

theorem testBit_foldl_insert : ∀ (l : List Nat) (b0 j : Nat),
    (l.foldl Bitset128.insert b0).testBit j
      = (b0.testBit j || l.any fun x => decide (x % 128 = j)) := by
  intro l
  induction l with
  | nil => intro b0 j; simp
  | cons x xs ih =>
    intro b0 j
    rw [List.foldl_cons, ih]
    have hins : (Bitset128.insert b0 x).testBit j
        = (b0.testBit j || decide (x % 128 = j)) := by
      unfold Bitset128.insert
      rw [Nat.testBit_or, Nat.one_shiftLeft, Nat.testBit_two_pow]
    rw [hins, List.any_cons, Bool.or_assoc]

theorem testBit_from_slice (l : List Nat) (j : Nat) :
    (Bitset128.from_slice l).testBit j = l.any fun x => decide (x % 128 = j) := by
  unfold Bitset128.from_slice
  rw [testBit_foldl_insert, Nat.zero_testBit, Bool.false_or]

theorem strictMono_inj {f : Nat → Nat} (hm : ∀ a b, a < b → f a < f b)
    {a b : Nat} (h : f a = f b) : a = b := by
  rcases Nat.lt_trichotomy a b with hlt | heq | hgt
  · have := hm a b hlt
    omega
  · exact heq
  · have := hm b a hgt
    omega

theorem sorted_lt_nodup {l : List Nat} (h : l.Pairwise (· < ·)) : l.Nodup :=
  h.imp fun hab => Nat.ne_of_lt hab

theorem eq_of_sorted_lt_mem_iff {l1 l2 : List Nat} (h1 : l1.Pairwise (· < ·))
    (h2 : l2.Pairwise (· < ·)) (hm : ∀ x, x ∈ l1 ↔ x ∈ l2) : l1 = l2 := by
  haveI : IsAntisymm Nat (· < ·) := ⟨fun a b hab hba => by omega⟩
  apply List.eq_of_perm_of_sorted _ h1 h2
  exact (List.perm_ext_iff_of_nodup (sorted_lt_nodup h1) (sorted_lt_nodup h2)).mpr hm

theorem iter_two_pow_sub_one {k : Nat} (hk : k ≤ 128) :
    Bitset128.iter (2 ^ k - 1) = List.range k := by
  apply eq_of_sorted_lt_mem_iff (iter_pairwise _) (List.pairwise_lt_range k)
  intro x
  rw [mem_iter, List.mem_range, Nat.testBit_two_pow_sub_one]
  constructor
  · rintro ⟨h1, h2⟩
    exact of_decide_eq_true h2
  · intro h
    exact ⟨by omega, decide_eq_true h⟩

theorem anm_range_eq {k : Nat} (hk : k ≤ 128) {e : Nat} (he : e < 2 ^ k) :
    Bitset128.apply_node_map e (List.range k) = e := by
  apply Nat.eq_of_testBit_eq
  intro t
  rw [testBit_apply_node_map (by rw [List.length_range]; omega)]
  rw [List.length_range]
  by_cases ht : t < k
  · rw [List.getD_eq_getElem _ 0 (by rw [List.length_range]; exact ht),
      List.getElem_range, Nat.mod_eq_of_lt (by omega)]
    simp [ht]
  · have hrt : e.testBit t = false := Nat.testBit_lt_two_pow
      (lt_of_lt_of_le he (Nat.pow_le_pow_right (by omega) (by omega)))
    rw [hrt]
    simp [ht]

theorem flatten_hyperedges_eq (g : StructuredHypergraph)
    (hw : ∀ e ∈ g.hyperedges, e < 2 ^ 128) :
    g.flatten_nodes.hyperedges = g.hyperedges.map fun e =>
      Bitset128.apply_node_map e
        (Bitset128.iter (g.hyperedges.foldl Bitset128.union 0)) := by
  have hU : g.hyperedges.foldl Bitset128.union 0 < 2 ^ 128 :=
    foldl_union_lt_pow _ 0 (by positivity) hw
  have hlen : Bitset128.len (g.hyperedges.foldl Bitset128.union 0) ≤ 128 := len_le_128 _
  unfold StructuredHypergraph.flatten_nodes
  simp only []
  by_cases hf : Bitset128.is_flattened (g.hyperedges.foldl Bitset128.union 0) = true
  · rw [if_pos hf]
    show g.hyperedges = _
    have hUeq := is_flattened_eq hf hU
    have hpt : ∀ e ∈ g.hyperedges, Bitset128.apply_node_map e
        (Bitset128.iter (g.hyperedges.foldl Bitset128.union 0)) = e := by
      intro e he
      have hsub : BSub e (g.hyperedges.foldl Bitset128.union 0) :=
        bsub_foldl_union_mem he 0
      have helt : e < 2 ^ Bitset128.len (g.hyperedges.foldl Bitset128.union 0) := by
        apply lt_two_pow_of_testBit_false
        intro i hi
        cases hx : e.testBit i with
        | false => rfl
        | true =>
          have hUi := hsub i hx
          rw [hUeq, Nat.testBit_two_pow_sub_one] at hUi
          have := of_decide_eq_true hUi
          omega
      have hiter : Bitset128.iter (g.hyperedges.foldl Bitset128.union 0)
          = List.range (Bitset128.len (g.hyperedges.foldl Bitset128.union 0)) := by
        nth_rewrite 1 [hUeq]
        exact iter_two_pow_sub_one hlen
      rw [hiter]
      exact anm_range_eq hlen helt
    calc g.hyperedges = g.hyperedges.map id := (List.map_id _).symm
      _ = _ := (List.map_congr_left fun e he => (hpt e he).symm)
  · rw [if_neg hf, apply_node_map_hyperedges]

theorem flatten_partitions (g : StructuredHypergraph) :
    g.flatten_nodes.node_structure_partitions = g.node_structure_partitions ∧
    g.flatten_nodes.edge_structure_partitions = g.edge_structure_partitions := by
  unfold StructuredHypergraph.flatten_nodes
  simp only []
  by_cases hf : Bitset128.is_flattened (g.hyperedges.foldl Bitset128.union 0) = true
  · rw [if_pos hf]
    exact ⟨rfl, rfl⟩
  · rw [if_neg hf]
    exact ⟨rfl, rfl⟩

theorem remove_redundant_congr_of_flatten {g g' : StructuredHypergraph}
    (hf : NodesOnlyDiffer g.flatten_nodes g'.flatten_nodes) :
    NodesOnlyDiffer g.remove_redundant_hyperedges g'.remove_redundant_hyperedges := by
  unfold StructuredHypergraph.remove_redundant_hyperedges
  rw [← hf.1]
  by_cases hc : (StructuredHypergraph.desc_len_sorted g.flatten_nodes.hyperedges).length
    ≠ (StructuredHypergraph.keep_non_redundant
      (StructuredHypergraph.desc_len_sorted g.flatten_nodes.hyperedges)).length
  · rw [if_pos hc, if_pos hc]
    apply NodesOnlyDiffer.flatten_nodes
    exact ⟨rfl, hf.2.1, hf.2.2.1, hf.2.2.2⟩
  · rw [if_neg hc, if_neg hc]
    exact ⟨rfl, hf.2.1, hf.2.2.1, hf.2.2.2⟩

section Relabel

variable {f : Nat → Nat}

theorem from_slice_map_bit (hmono : ∀ a b, a < b → f a < f b)
    (l : List Nat) (hl : ∀ x ∈ l, x < 128 ∧ f x < 128) (r : Nat) :
    (Bitset128.from_slice (l.map f)).testBit (f r)
      = (Bitset128.from_slice l).testBit r := by
  rw [testBit_from_slice, testBit_from_slice]
  cases hc : l.any fun x => decide (x % 128 = r) with
  | true =>
    obtain ⟨x, hxl, hxr⟩ := List.any_eq_true.mp hc
    have hxeq : x = r := by
      have h1 := of_decide_eq_true hxr
      rw [Nat.mod_eq_of_lt (hl x hxl).1] at h1
      exact h1
    apply List.any_eq_true.mpr
    refine ⟨f x, List.mem_map.mpr ⟨x, hxl, rfl⟩, ?_⟩
    rw [Nat.mod_eq_of_lt (hl x hxl).2, hxeq]
    simp
  | false =>
    rw [List.any_eq_false] at hc
    apply List.any_eq_false.mpr
    intro y hy
    obtain ⟨x, hxl, rfl⟩ := List.mem_map.mp hy
    intro hdec
    have h1 := of_decide_eq_true hdec
    rw [Nat.mod_eq_of_lt (hl x hxl).2] at h1
    have hxr : x = r := strictMono_inj hmono h1
    apply (hc x hxl)
    apply decide_eq_true
    rw [Nat.mod_eq_of_lt (hl x hxl).1]
    exact hxr

theorem slice_map_bit_exists (l : List Nat) (hl : ∀ x ∈ l, x < 128 ∧ f x < 128)
    (j : Nat) (hj : (Bitset128.from_slice (l.map f)).testBit j = true) :
    ∃ r, r < 128 ∧ f r < 128 ∧ (Bitset128.from_slice l).testBit r = true ∧ f r = j := by
  rw [testBit_from_slice] at hj
  obtain ⟨y, hy, hdec⟩ := List.any_eq_true.mp hj
  obtain ⟨x, hxl, rfl⟩ := List.mem_map.mp hy
  have h1 := of_decide_eq_true hdec
  rw [Nat.mod_eq_of_lt (hl x hxl).2] at h1
  refine ⟨x, (hl x hxl).1, (hl x hxl).2, ?_, h1⟩
  rw [testBit_from_slice]
  apply List.any_eq_true.mpr
  refine ⟨x, hxl, decide_eq_true ?_⟩
  exact Nat.mod_eq_of_lt (hl x hxl).1

theorem union_map_slice_bit_exists (edges : List (List Nat))
    (hx : ∀ l ∈ edges, ∀ x ∈ l, x < 128 ∧ f x < 128) (j : Nat)
    (hj : (((edges.map fun l => l.map f).map Bitset128.from_slice).foldl
      Bitset128.union 0).testBit j = true) :
    ∃ r, r < 128 ∧ f r < 128 ∧
      ((edges.map Bitset128.from_slice).foldl Bitset128.union 0).testBit r = true ∧
      f r = j := by
  rw [testBit_foldl_union] at hj
  rcases Bool.or_eq_true _ _ |>.mp hj with h0 | ha
  · rw [Nat.zero_testBit] at h0
    exact absurd h0 (by simp)
  · obtain ⟨e, he, hbit⟩ := List.any_eq_true.mp ha
    obtain ⟨l2, hl2, rfl⟩ := List.mem_map.mp he
    obtain ⟨l, hl, rfl⟩ := List.mem_map.mp hl2
    obtain ⟨r, hr1, hr2, hr3, hr4⟩ := slice_map_bit_exists l (hx l hl) j hbit
    refine ⟨r, hr1, hr2, ?_, hr4⟩
    rw [testBit_foldl_union]
    apply Bool.or_eq_true _ _ |>.mpr
    right
    exact List.any_eq_true.mpr ⟨Bitset128.from_slice l,
      List.mem_map.mpr ⟨l, hl, rfl⟩, hr3⟩

theorem union_slice_bit_exists (edges : List (List Nat))
    (hx : ∀ l ∈ edges, ∀ x ∈ l, x < 128 ∧ f x < 128) (r : Nat)
    (hr : ((edges.map Bitset128.from_slice).foldl Bitset128.union 0).testBit r = true) :
    r < 128 ∧ f r < 128 := by
  rw [testBit_foldl_union] at hr
  rcases Bool.or_eq_true _ _ |>.mp hr with h0 | ha
  · rw [Nat.zero_testBit] at h0
    exact absurd h0 (by simp)
  · obtain ⟨e, he, hbit⟩ := List.any_eq_true.mp ha
    obtain ⟨l, hl, rfl⟩ := List.mem_map.mp he
    rw [testBit_from_slice] at hbit
    obtain ⟨x, hxl, hdec⟩ := List.any_eq_true.mp hbit
    have h1 := of_decide_eq_true hdec
    rw [Nat.mod_eq_of_lt (hx l hl x hxl).1] at h1
    rw [← h1]
    exact ⟨(hx l hl x hxl).1, (hx l hl x hxl).2⟩

theorem union_map_slice_bit_fwd (hmono : ∀ a b, a < b → f a < f b)
    (edges : List (List Nat)) (hx : ∀ l ∈ edges, ∀ x ∈ l, x < 128 ∧ f x < 128) (r : Nat)
    (hr : ((edges.map Bitset128.from_slice).foldl Bitset128.union 0).testBit r = true) :
    (((edges.map fun l => l.map f).map Bitset128.from_slice).foldl
      Bitset128.union 0).testBit (f r) = true := by
  rw [testBit_foldl_union] at hr ⊢
  rcases Bool.or_eq_true _ _ |>.mp hr with h0 | ha
  · rw [Nat.zero_testBit] at h0
    exact absurd h0 (by simp)
  · obtain ⟨e, he, hbit⟩ := List.any_eq_true.mp ha
    obtain ⟨l, hl, rfl⟩ := List.mem_map.mp he
    apply Bool.or_eq_true _ _ |>.mpr
    right
    apply List.any_eq_true.mpr
    refine ⟨Bitset128.from_slice (l.map f), ?_, ?_⟩
    · apply List.mem_map.mpr
      exact ⟨l.map f, List.mem_map.mpr ⟨l, hl, rfl⟩, rfl⟩
    · rw [from_slice_map_bit hmono l (hx l hl) r]
      exact hbit

theorem iter_union_map_eq (hmono : ∀ a b, a < b → f a < f b)
    (edges : List (List Nat)) (hx : ∀ l ∈ edges, ∀ x ∈ l, x < 128 ∧ f x < 128) :
    Bitset128.iter (((edges.map fun l => l.map f).map Bitset128.from_slice).foldl
        Bitset128.union 0)
      = (Bitset128.iter ((edges.map Bitset128.from_slice).foldl
          Bitset128.union 0)).map f := by
  apply eq_of_sorted_lt_mem_iff (iter_pairwise _)
  · apply List.pairwise_map.mpr
    exact (iter_pairwise _).imp fun hab => hmono _ _ hab
  · intro j
    rw [mem_iter]
    constructor
    · rintro ⟨hj128, hjbit⟩
      obtain ⟨r, hr1, _, hr3, hr4⟩ := union_map_slice_bit_exists edges hx j hjbit
      exact List.mem_map.mpr ⟨r, mem_iter.mpr ⟨hr1, hr3⟩, hr4⟩
    · intro hj
      obtain ⟨r, hr, rfl⟩ := List.mem_map.mp hj
      rw [mem_iter] at hr
      exact ⟨(union_slice_bit_exists edges hx r hr.2).2,
        union_map_slice_bit_fwd hmono edges hx r hr.2⟩

theorem anm_slice_map_eq (hmono : ∀ a b, a < b → f a < f b)
    (edges : List (List Nat)) (hx : ∀ l ∈ edges, ∀ x ∈ l, x < 128 ∧ f x < 128)
    (l : List Nat) (hl : l ∈ edges) :
    Bitset128.apply_node_map (Bitset128.from_slice (l.map f))
        (Bitset128.iter (((edges.map fun l => l.map f).map Bitset128.from_slice).foldl
          Bitset128.union 0))
      = Bitset128.apply_node_map (Bitset128.from_slice l)
        (Bitset128.iter ((edges.map Bitset128.from_slice).foldl Bitset128.union 0)) := by
  rw [iter_union_map_eq hmono edges hx]
  apply Nat.eq_of_testBit_eq
  intro t
  rw [testBit_apply_node_map (by
      rw [List.length_map]
      exact iter_length_le _),
    testBit_apply_node_map (iter_length_le _), List.length_map]
  by_cases ht : t < (Bitset128.iter ((edges.map Bitset128.from_slice).foldl
      Bitset128.union 0)).length
  · rw [List.getD_eq_getElem _ 0 (by rw [List.length_map]; exact ht),
      List.getD_eq_getElem _ 0 ht, List.getElem_map]
    have hrmem : (Bitset128.iter ((edges.map Bitset128.from_slice).foldl
        Bitset128.union 0))[t] ∈ Bitset128.iter ((edges.map Bitset128.from_slice).foldl
        Bitset128.union 0) := List.getElem_mem ht
    rw [mem_iter] at hrmem
    obtain ⟨hr128, hrbit⟩ := hrmem
    have hfr : f ((Bitset128.iter ((edges.map Bitset128.from_slice).foldl
        Bitset128.union 0))[t]) < 128 :=
      (union_slice_bit_exists edges hx _ hrbit).2
    rw [Nat.mod_eq_of_lt hfr, Nat.mod_eq_of_lt hr128,
      from_slice_map_bit hmono l (hx l hl)]
  · simp [ht]

theorem from_hyperedges_max_bound (es : List Nat) (hw : ∀ e ∈ es, e < 2 ^ 128) :
    Bitset128.len (es.foldl Bitset128.union 0) ≤
      (if (es.flatMap Bitset128.iter).isEmpty then 0
       else (es.flatMap Bitset128.iter).foldl Nat.max 0 + 1) := by
  by_cases hemp : (es.flatMap Bitset128.iter).isEmpty = true
  · rw [if_pos hemp]
    have hz : ∀ e ∈ es, e = 0 := by
      intro e he
      rw [List.isEmpty_iff] at hemp
      have hie : Bitset128.iter e = [] := List.flatMap_eq_nil_iff.mp hemp e he
      have h0 : e < 2 ^ 0 := by
        apply lt_two_pow_of_testBit_false
        intro i _
        by_contra hbit
        have h128 : i < 128 := by
          by_contra hge
          rw [testBit_ge_128 (hw e he) (by omega)] at hbit
          exact absurd rfl hbit
        have hmem : i ∈ Bitset128.iter e := mem_iter.mpr ⟨h128, by
          cases hy : e.testBit i with
          | true => rfl
          | false => rw [hy] at hbit; exact absurd rfl hbit⟩
        rw [hie] at hmem
        exact absurd hmem (List.not_mem_nil i)
      rw [pow_zero] at h0
      exact Nat.lt_one_iff.mp h0
    have hfold : es.foldl Bitset128.union 0 = 0 := by
      have hlt : es.foldl Bitset128.union 0 < 2 ^ 0 := by
        apply foldl_union_lt_pow
        · decide
        · intro e he
          rw [hz e he]
          decide
      rw [pow_zero] at hlt
      exact Nat.lt_one_iff.mp hlt
    rw [hfold, len_zero]
  · rw [if_neg hemp]
    have hbits : ∀ t, (es.foldl Bitset128.union 0).testBit t = true →
        t < (es.flatMap Bitset128.iter).foldl Nat.max 0 + 1 := by
      intro t ht
      rw [testBit_foldl_union] at ht
      rcases Bool.or_eq_true _ _ |>.mp ht with h0 | ha
      · rw [Nat.zero_testBit] at h0
        exact absurd h0 (by simp)
      · obtain ⟨e, he, hbit⟩ := List.any_eq_true.mp ha
        have ht128 : t < 128 := by
          by_contra hge
          rw [testBit_ge_128 (hw e he) (by omega)] at hbit
          exact absurd hbit (by simp)
        have hmem : t ∈ es.flatMap Bitset128.iter :=
          List.mem_flatMap.mpr ⟨e, he, mem_iter.mpr ⟨ht128, hbit⟩⟩
        have := (le_foldl_max (es.flatMap Bitset128.iter) 0).2 t hmem
        omega
    apply len_le_of_lt_two_pow
    apply lt_two_pow_of_testBit_false
    intro i hi
    cases hy : (es.foldl Bitset128.union 0).testBit i with
    | true =>
      have := hbits i hy
      omega
    | false => rfl

end Relabel

section RelabelMain

variable {f : Nat → Nat}

theorem flatten_relabel_nod (hmono : ∀ a b, a < b → f a < f b)
    (edges : List (List Nat)) (hx : ∀ l ∈ edges, ∀ x ∈ l, x < 128 ∧ f x < 128) :
    NodesOnlyDiffer
      (StructuredHypergraph.flatten_nodes
        { hyperedges := edges.map Bitset128.from_slice
          nodes := List.range
            (if ((edges.map Bitset128.from_slice).flatMap Bitset128.iter).isEmpty then 0
             else ((edges.map Bitset128.from_slice).flatMap Bitset128.iter).foldl
               Nat.max 0 + 1)
          node_structure_partitions := []
          edge_structure_partitions := [] })
      (StructuredHypergraph.flatten_nodes
        { hyperedges := (edges.map fun l => l.map f).map Bitset128.from_slice
          nodes := List.range
            (if (((edges.map fun l => l.map f).map
                Bitset128.from_slice).flatMap Bitset128.iter).isEmpty then 0
             else (((edges.map fun l => l.map f).map
                Bitset128.from_slice).flatMap Bitset128.iter).foldl Nat.max 0 + 1)
          node_structure_partitions := []
          edge_structure_partitions := [] }) := by
  have hw1 : ∀ e ∈ edges.map Bitset128.from_slice, e < 2 ^ 128 := by
    intro e he
    obtain ⟨l, _, rfl⟩ := List.mem_map.mp he
    exact from_slice_lt l
  have hw2 : ∀ e ∈ (edges.map fun l => l.map f).map Bitset128.from_slice, e < 2 ^ 128 := by
    intro e he
    obtain ⟨l, _, rfl⟩ := List.mem_map.mp he
    exact from_slice_lt l
  have hlen12 : Bitset128.len (((edges.map fun l => l.map f).map
        Bitset128.from_slice).foldl Bitset128.union 0)
      = Bitset128.len ((edges.map Bitset128.from_slice).foldl Bitset128.union 0) := by
    rw [len_eq_iter_length, len_eq_iter_length, iter_union_map_eq hmono edges hx,
      List.length_map]
  refine ⟨?_, ?_, ?_, ?_⟩
  · have h1 : (StructuredHypergraph.flatten_nodes
        { hyperedges := edges.map Bitset128.from_slice
          nodes := List.range
            (if ((edges.map Bitset128.from_slice).flatMap Bitset128.iter).isEmpty then 0
             else ((edges.map Bitset128.from_slice).flatMap Bitset128.iter).foldl
               Nat.max 0 + 1)
          node_structure_partitions := []
          edge_structure_partitions := [] }).hyperedges
        = (edges.map Bitset128.from_slice).map fun e => Bitset128.apply_node_map e
            (Bitset128.iter ((edges.map Bitset128.from_slice).foldl Bitset128.union 0)) :=
      flatten_hyperedges_eq _ hw1
    have h2 : (StructuredHypergraph.flatten_nodes
        { hyperedges := (edges.map fun l => l.map f).map Bitset128.from_slice
          nodes := List.range
            (if (((edges.map fun l => l.map f).map
                Bitset128.from_slice).flatMap Bitset128.iter).isEmpty then 0
             else (((edges.map fun l => l.map f).map
                Bitset128.from_slice).flatMap Bitset128.iter).foldl Nat.max 0 + 1)
          node_structure_partitions := []
          edge_structure_partitions := [] }).hyperedges
        = ((edges.map fun l => l.map f).map Bitset128.from_slice).map
            fun e => Bitset128.apply_node_map e
              (Bitset128.iter (((edges.map fun l => l.map f).map
                Bitset128.from_slice).foldl Bitset128.union 0)) :=
      flatten_hyperedges_eq _ hw2
    rw [h1, h2, List.map_map, List.map_map, List.map_map]
    apply List.map_congr_left
    intro l hl
    show Bitset128.apply_node_map (Bitset128.from_slice l) _
      = Bitset128.apply_node_map (Bitset128.from_slice (l.map f)) _
    exact (anm_slice_map_eq hmono edges hx l hl).symm
  · rw [(flatten_partitions _).1, (flatten_partitions _).1]
  · rw [(flatten_partitions _).2, (flatten_partitions _).2]
  · have hb1 := from_hyperedges_max_bound (edges.map Bitset128.from_slice) hw1
    have hb2 := from_hyperedges_max_bound
      ((edges.map fun l => l.map f).map Bitset128.from_slice) hw2
    have hn1 : Bitset128.len ((edges.map Bitset128.from_slice).foldl Bitset128.union 0)
        ≤ (List.range
            (if ((edges.map Bitset128.from_slice).flatMap Bitset128.iter).isEmpty then 0
             else ((edges.map Bitset128.from_slice).flatMap Bitset128.iter).foldl
               Nat.max 0 + 1)).length := by
      rw [List.length_range]
      exact hb1
    have hn2 : Bitset128.len (((edges.map fun l => l.map f).map
          Bitset128.from_slice).foldl Bitset128.union 0)
        ≤ (List.range
            (if (((edges.map fun l => l.map f).map
                Bitset128.from_slice).flatMap Bitset128.iter).isEmpty then 0
             else (((edges.map fun l => l.map f).map
                Bitset128.from_slice).flatMap Bitset128.iter).foldl Nat.max 0 + 1)).length := by
      rw [List.length_range]
      exact hb2
    have he1 := flatten_nodes_length_eq
      { hyperedges := edges.map Bitset128.from_slice
        nodes := List.range
          (if ((edges.map Bitset128.from_slice).flatMap Bitset128.iter).isEmpty then 0
           else ((edges.map Bitset128.from_slice).flatMap Bitset128.iter).foldl
             Nat.max 0 + 1)
        node_structure_partitions := []
        edge_structure_partitions := [] } hn1
    have he2 := flatten_nodes_length_eq
      { hyperedges := (edges.map fun l => l.map f).map Bitset128.from_slice
        nodes := List.range
          (if (((edges.map fun l => l.map f).map
              Bitset128.from_slice).flatMap Bitset128.iter).isEmpty then 0
           else (((edges.map fun l => l.map f).map
              Bitset128.from_slice).flatMap Bitset128.iter).foldl Nat.max 0 + 1)
        node_structure_partitions := []
        edge_structure_partitions := [] } hn2
    rw [he1, he2, hlen12]

/-- Componentwise form of the relabeling invariance over the embedding's
fixed bucket order.  The bucket order refines the `HashMap` iteration
order of the program, so only its multiset consequences are program
properties. -/
theorem relabel_forall2_nod (f : Nat → Nat)
    (hmono : ∀ a b, a < b → f a < f b)
    (edges : List (List Nat)) (hx : ∀ l ∈ edges, ∀ x ∈ l, x < 128 ∧ f x < 128) :
    List.Forall₂
      (fun t1 t2 => t1.graph.hyperedges = t2.graph.hyperedges ∧
        t1.nr_nodes = t2.nr_nodes)
      (TakingGame.from_hyperesges edges)
      (TakingGame.from_hyperesges (edges.map fun l => l.map f)) := by
  have hgp : List.Forall₂ NodesOnlyDiffer
      (StructuredHypergraph.from_hyperedges (edges.map Bitset128.from_slice))
      (StructuredHypergraph.from_hyperedges
        ((edges.map fun l => l.map f).map Bitset128.from_slice)) := by
    unfold StructuredHypergraph.from_hyperedges
      StructuredHypergraph.from_hyperedges_with_nodes
    exact NodesOnlyDiffer.get_parts
      (remove_redundant_congr_of_flatten (flatten_relabel_nod hmono edges hx))
  rw [TakingGame.from_hyperesges, TakingGame.from_hyperesges]
  exact forall2_map_both hgp fun a b hab => ⟨hab.1, hab.2.2.2⟩

theorem forall2_proj_map_eq {α β : Type _} {p : α → β} :
    ∀ {l1 l2 : List α}, List.Forall₂ (fun a b => p a = p b) l1 l2 →
      l1.map p = l2.map p := by
  intro l1 l2 h
  induction h with
  | nil => rfl
  | cons hab _ ih => rw [List.map_cons, List.map_cons, hab, ih]

/-- **C2 (amended).** Under an order-preserving relabeling of the
vertices whose images stay below 128, with the edge order kept,
`from_hyperesges` returns the same multiset of positions: the multiset
of (hyperedge list, node count) pairs — hyperedge-list equality is the
crate's `==` — is unchanged.  The component order is a `HashMap`
iteration order in the program and is not compared. -/
theorem c2_order_preserving_relabel (f : Nat → Nat)
    (hmono : ∀ a b, a < b → f a < f b)
    (edges : List (List Nat)) (hx : ∀ l ∈ edges, ∀ x ∈ l, x < 128 ∧ f x < 128) :
    ((TakingGame.from_hyperesges edges).map
        fun t => (t.graph.hyperedges, t.nr_nodes)).Perm
      ((TakingGame.from_hyperesges (edges.map fun l => l.map f)).map
        fun t => (t.graph.hyperedges, t.nr_nodes)) := by
  apply List.Perm.of_eq
  apply forall2_proj_map_eq
  apply List.Forall₂.imp ?_ (relabel_forall2_nod f hmono edges hx)
  intro a b hab
  rw [Prod.mk.injEq]
  exact ⟨hab.1, hab.2⟩

end RelabelMain

theorem c2_order_preserving_relabel_witness :
    (∀ a b : Nat, a < b → a + 1 < b + 1) ∧
    (∀ l ∈ [[0, 1], [1, 2]], ∀ x ∈ l, x < 128 ∧ x + 1 < 128) ∧
    ((TakingGame.from_hyperesges [[0, 1], [1, 2]]).map
        fun t => (t.graph.hyperedges, t.nr_nodes)).Perm
      ((TakingGame.from_hyperesges
          ([[0, 1], [1, 2]].map fun l => l.map fun x => x + 1)).map
        fun t => (t.graph.hyperedges, t.nr_nodes)) :=
  ⟨fun a b h => by omega, by decide,
    c2_order_preserving_relabel (fun x => x + 1) (fun a b h => Nat.succ_lt_succ h)
      [[0, 1], [1, 2]] (by decide)⟩


/-! ## Connectivity of the component split -/

/-- Two vertices linked by a chain of pairwise-intersecting hyperedges:
either one edge holds both, or chains compose at a shared vertex. -/
inductive linked (es : List Nat) : Nat → Nat → Prop where
  | base (e : Nat) (he : e ∈ es) (x y : Nat)
      (hx : e.testBit x = true) (hy : e.testBit y = true) : linked es x y
  | trans {x y z : Nat} (h1 : linked es x y) (h2 : linked es y z) : linked es x z

theorem linked_mono {es1 es2 : List Nat} (h : ∀ e ∈ es1, e ∈ es2) {x y : Nat}
    (hl : linked es1 x y) : linked es2 x y := by
  induction hl with
  | base e he x0 y0 hx hy => exact linked.base e (h e he) x0 y0 hx hy
  | trans h1 h2 ih1 ih2 => exact linked.trans ih1 ih2

theorem linked_symm {es : List Nat} {x y : Nat} (hl : linked es x y) : linked es y x := by
  induction hl with
  | base e he x0 y0 hx hy => exact linked.base e he y0 x0 hy hx
  | trans h1 h2 ih1 ih2 => exact linked.trans ih2 ih1

theorem linked_bit {es : List Nat} {x y : Nat} (hl : linked es x y) :
    (∃ e ∈ es, e.testBit x = true) ∧ ∃ e ∈ es, e.testBit y = true := by
  induction hl with
  | base e he x0 y0 hx hy => exact ⟨⟨e, he, hx⟩, ⟨e, he, hy⟩⟩
  | trans h1 h2 ih1 ih2 => exact ⟨ih1.1, ih2.2⟩

/-- Decidable bitwise containment used to restrict a chain to a block. -/
def subE (e b : Nat) : Bool := e &&& b == e

theorem subE_iff {e b : Nat} : subE e b = true ↔ BSub e b := by
  unfold subE
  rw [beq_iff_eq]
  constructor
  · intro h i hi
    rw [← h, Nat.testBit_and] at hi
    exact (Bool.and_eq_true _ _ ▸ hi).2
  · intro h
    apply Nat.eq_of_testBit_eq
    intro i
    rw [Nat.testBit_and]
    cases he : e.testBit i with
    | true => rw [h i he]; rfl
    | false => simp

/-- The union-find connectivity invariant: any two members of a block are
linked by a chain of edges lying inside the block. -/
def UfConn (es : List Nat) (blocks : List Nat) : Prop :=
  ∀ b ∈ blocks, ∀ x y, b.testBit x = true → b.testBit y = true →
    x = y ∨ linked (es.filter fun e => subE e b) x y

theorem bsub_foldl_union_mem_init {l : List Nat} {e : Nat} (he : e ∈ l) (b0 : Nat) :
    BSub e (l.foldl Bitset128.union b0) := by
  intro i hi
  rw [testBit_foldl_union]
  have ha : l.any (fun x => x.testBit i) = true := List.any_eq_true.mpr ⟨e, he, hi⟩
  rw [ha]
  simp

theorem ufconn_step {es : List Nat} {blocks : List Nat} {e : Nat} (he : e ∈ es)
    (hconn : UfConn es blocks) :
    UfConn es ((blocks.filter fun b => !(Bitset128.intersects b e)) ++
      [(blocks.filter fun b => Bitset128.intersects b e).foldl Bitset128.union e]) := by
  intro b hb x y hx hy
  rcases List.mem_append.mp hb with hb2 | hb2
  · exact hconn b (List.mem_filter.mp hb2).1 x y hx hy
  · rw [List.mem_singleton.mp hb2] at hx hy
    rw [List.mem_singleton.mp hb2]
    have hsubM : ∀ t ∈ blocks.filter (fun b => Bitset128.intersects b e),
        BSub t ((blocks.filter fun b => Bitset128.intersects b e).foldl
          Bitset128.union e) := fun t ht => bsub_foldl_union_mem_init ht e
    have heM : BSub e ((blocks.filter fun b => Bitset128.intersects b e).foldl
        Bitset128.union e) := bsub_foldl_union_init _ e
    have hhub : ∀ z, ((blocks.filter fun b => Bitset128.intersects b e).foldl
        Bitset128.union e).testBit z = true → ∀ u, e.testBit u = true →
        linked (es.filter fun q => subE q ((blocks.filter
          fun b => Bitset128.intersects b e).foldl Bitset128.union e)) z u := by
      intro z hz u hu
      have heF : e ∈ es.filter fun q => subE q ((blocks.filter
          fun b => Bitset128.intersects b e).foldl Bitset128.union e) :=
        List.mem_filter.mpr ⟨he, subE_iff.mpr heM⟩
      rw [testBit_foldl_union] at hz
      rcases Bool.or_eq_true _ _ |>.mp hz with hze | hzT
      · exact linked.base e heF z u hze hu
      · obtain ⟨t, htm, hzt⟩ := List.any_eq_true.mp hzT
        have htint : Bitset128.intersects t e = true := (List.mem_filter.mp htm).2
        have hland : t &&& e ≠ 0 := by
          unfold Bitset128.intersects at htint
          intro h0
          rw [h0] at htint
          simp at htint
        obtain ⟨w, hw⟩ := Nat.ne_zero_implies_bit_true hland
        rw [Nat.testBit_and, Bool.and_eq_true] at hw
        have htM : BSub t ((blocks.filter fun b => Bitset128.intersects b e).foldl
            Bitset128.union e) := hsubM t htm
        have hzw := hconn t (List.mem_filter.mp htm).1 z w hzt hw.1
        have hwlink : linked (es.filter fun q => subE q ((blocks.filter
            fun b => Bitset128.intersects b e).foldl Bitset128.union e)) w u :=
          linked.base e heF w u hw.2 hu
        rcases hzw with rfl | hzw
        · exact hwlink
        · have hlift : linked (es.filter fun q => subE q ((blocks.filter
              fun b => Bitset128.intersects b e).foldl Bitset128.union e)) z w := by
            apply linked_mono ?_ hzw
            intro q hq
            rcases List.mem_filter.mp hq with ⟨hq1, hq2⟩
            exact List.mem_filter.mpr ⟨hq1, subE_iff.mpr
              (bsub_trans (subE_iff.mp hq2) htM)⟩
          exact linked.trans hlift hwlink
    right
    have hene : e ≠ 0 := by
      intro h0
      subst h0
      have hTe : blocks.filter (fun b => Bitset128.intersects b 0) = [] := by
        apply List.filter_eq_nil.mpr
        intro b _
        unfold Bitset128.intersects
        simp
      rw [hTe] at hx
      rw [List.foldl_nil] at hx
      rw [Nat.zero_testBit] at hx
      exact absurd hx (by simp)
    obtain ⟨u, hu⟩ := Nat.ne_zero_implies_bit_true hene
    exact linked.trans (hhub x hx u hu) (linked_symm (hhub y hy u hu))

theorem ufconn_fold {es : List Nat} : ∀ (l : List Nat) (blocks : List Nat),
    (∀ q ∈ l, q ∈ es) → UfConn es blocks →
    UfConn es (l.foldl
      (fun blocks e =>
        (blocks.filter fun b => !(Bitset128.intersects b e)) ++
          [(blocks.filter fun b => Bitset128.intersects b e).foldl Bitset128.union e])
      blocks) := by
  intro l
  induction l with
  | nil => intro blocks _ h; exact h
  | cons q l ih =>
    intro blocks hq h
    rw [List.foldl_cons]
    exact ih _ (fun r hr => hq r (List.mem_cons_of_mem q hr))
      (ufconn_step (hq q (List.mem_cons_self q l)) h)

theorem ufconn_partition (n : Nat) (es : List Nat) :
    UfConn es (StructuredHypergraph.ufPartition n es) := by
  unfold StructuredHypergraph.ufPartition
  apply ufconn_fold es _ (fun q hq => hq)
  intro b hb x y hx hy
  obtain ⟨i, _, rfl⟩ := List.mem_map.mp hb
  rw [Nat.one_shiftLeft, Nat.testBit_two_pow] at hx hy
  left
  have h1 := of_decide_eq_true hx
  have h2 := of_decide_eq_true hy
  omega

theorem bucket_fold_complete (g : StructuredHypergraph) (k : Nat) :
    ∀ (l : List Nat) (bs : List (Nat × List Nat)),
    ((∃ p ∈ bs, k ∈ p.2) ∨ k ∈ l) →
    ∃ p ∈ l.foldl
      (fun bs ei =>
        if bs.any (fun p => p.1 == rootOf g ei) then
          bs.map fun p => if p.1 == rootOf g ei then (p.1, p.2 ++ [ei]) else p
        else bs ++ [(rootOf g ei, [ei])])
      bs, k ∈ p.2 := by
  intro l
  induction l with
  | nil =>
    intro bs h
    rcases h with h | h
    · exact h
    · exact absurd h (List.not_mem_nil k)
  | cons ei l ih =>
    intro bs h
    rw [List.foldl_cons]
    have hpres : (∃ p ∈ bs, k ∈ p.2) →
        ∃ p ∈ (if bs.any (fun p => p.1 == rootOf g ei) then
          bs.map fun p => if p.1 == rootOf g ei then (p.1, p.2 ++ [ei]) else p
        else bs ++ [(rootOf g ei, [ei])]), k ∈ p.2 := by
      rintro ⟨p, hp, hk⟩
      by_cases hc : (bs.any fun p => p.1 == rootOf g ei) = true
      · rw [if_pos hc]
        refine ⟨if (p.1 == rootOf g ei) = true then (p.1, p.2 ++ [ei]) else p,
          List.mem_map.mpr ⟨p, hp, rfl⟩, ?_⟩
        by_cases hroot : (p.1 == rootOf g ei) = true
        · rw [if_pos hroot]
          exact List.mem_append.mpr (Or.inl hk)
        · rw [if_neg hroot]
          exact hk
      · rw [if_neg hc]
        exact ⟨p, List.mem_append.mpr (Or.inl hp), hk⟩
    rcases h with h | h
    · exact ih _ (Or.inl (hpres h))
    · rcases List.mem_cons.mp h with rfl | h
      · apply ih _
        left
        by_cases hc : (bs.any fun p => p.1 == rootOf g k) = true
        · rw [if_pos hc]
          obtain ⟨p0, hp0, hproot⟩ := List.any_eq_true.mp hc
          refine ⟨(p0.1, p0.2 ++ [k]), List.mem_map.mpr ⟨p0, hp0, ?_⟩, ?_⟩
          · rw [if_pos hproot]
          · exact List.mem_append.mpr (Or.inr (List.mem_singleton.mpr rfl))
        · rw [if_neg hc]
          exact ⟨(rootOf g k, [k]), List.mem_append.mpr
            (Or.inr (List.mem_singleton.mpr rfl)), List.mem_singleton.mpr rfl⟩
      · exact ih _ (Or.inr h)

theorem edge_buckets_complete (g : StructuredHypergraph) {k : Nat}
    (hk : k < g.hyperedges.length) : ∃ p ∈ g.edge_buckets, k ∈ p.2 := by
  have h := bucket_fold_complete g k (List.range g.hyperedges.length) []
    (Or.inr (List.mem_range.mpr hk))
  exact h

theorem bucket_eq_of_root {g : StructuredHypergraph} {p q : Nat × List Nat}
    (hp : p ∈ g.edge_buckets) (hq : q ∈ g.edge_buckets) (h : p.1 = q.1) : p = q := by
  have hpair := (edge_buckets_inv g).2
  obtain ⟨i, hi, hip⟩ := List.getElem_of_mem hp
  obtain ⟨j, hj, hjq⟩ := List.getElem_of_mem hq
  have hpw := List.pairwise_iff_getElem.mp hpair
  rcases Nat.lt_trichotomy i j with hij | hij | hij
  · have heq : g.edge_buckets[i].1 = g.edge_buckets[j].1 := by
      rw [hip, hjq]
      exact h
    exact absurd heq (hpw i j hi hj hij)
  · subst hij
    rw [← hip, ← hjq]
  · have heq : g.edge_buckets[j].1 = g.edge_buckets[i].1 := by
      rw [hip, hjq]
      exact h.symm
    exact absurd heq (hpw j i hj hi hij)

theorem block_mem_of_bsub {g : StructuredHypergraph}
    (hw : ∀ e ∈ g.hyperedges, e < 2 ^ 128) (hnz : ∀ e ∈ g.hyperedges, e ≠ 0)
    {p : Nat × List Nat} (hp : p ∈ g.edge_buckets)
    {hplt : p.1 < (StructuredHypergraph.ufPartition g.nodes.length g.hyperedges).length}
    {q : Nat} (hqmem : q ∈ g.hyperedges)
    (hqsub : BSub q ((StructuredHypergraph.ufPartition g.nodes.length
      g.hyperedges).get ⟨p.1, hplt⟩)) :
    q ∈ p.2.map fun ei => g.hyperedges.getD ei 0 := by
  obtain ⟨k, hk, hkq⟩ := List.getElem_of_mem hqmem
  have hgetD : g.hyperedges.getD k 0 = q := by
    rw [List.getD_eq_getElem _ _ hk, hkq]
  obtain ⟨hlt2, hsub2⟩ := rootOf_spec g hw hnz hk
  rw [hgetD] at hsub2
  have hq0 : q ≠ 0 := hnz q hqmem
  have hroot : rootOf g k = p.1 := by
    by_contra hne
    have hdisj : ((StructuredHypergraph.ufPartition g.nodes.length
          g.hyperedges).get ⟨rootOf g k, hlt2⟩) &&&
        ((StructuredHypergraph.ufPartition g.nodes.length
          g.hyperedges).get ⟨p.1, hplt⟩) = 0 := by
      have hpd := (ufPartition_spec g.nodes.length g.hyperedges).1
      have hpw := List.pairwise_iff_getElem.mp hpd
      rw [List.get_eq_getElem, List.get_eq_getElem]
      rcases Nat.lt_trichotomy (rootOf g k) p.1 with hlt3 | heq3 | hlt3
      · exact hpw _ _ hlt2 hplt hlt3
      · exact absurd heq3 hne
      · exact land_comm_zero (hpw _ _ hplt hlt2 hlt3)
    obtain ⟨w, hwbit⟩ := Nat.ne_zero_implies_bit_true hq0
    have h1 := hsub2 w hwbit
    have h2 := hqsub w hwbit
    have hz := land_eq_zero_iff.mp hdisj w h1
    rw [hz] at h2
    exact absurd h2 (by simp)
  obtain ⟨p0, hp0, hkp0⟩ := edge_buckets_complete g hk
  have hp0root : rootOf g k = p0.1 := ((edge_buckets_inv g).1 p0 hp0 k hkp0).1
  have hpeq : p0 = p := bucket_eq_of_root hp0 hp (by rw [← hp0root, hroot])
  rw [hpeq] at hkp0
  exact List.mem_map.mpr ⟨k, hkp0, hgetD⟩

theorem bucket_support_linked (g : StructuredHypergraph)
    (hw : ∀ e ∈ g.hyperedges, e < 2 ^ 128) (hnz : ∀ e ∈ g.hyperedges, e ≠ 0)
    {p : Nat × List Nat} (hp : p ∈ g.edge_buckets) :
    ∀ x y, ((p.2.map fun ei => g.hyperedges.getD ei 0).foldl
        Bitset128.union 0).testBit x = true →
      ((p.2.map fun ei => g.hyperedges.getD ei 0).foldl
        Bitset128.union 0).testBit y = true →
      linked (p.2.map fun ei => g.hyperedges.getD ei 0) x y := by
  intro x y hx hy
  rw [testBit_foldl_union] at hx hy
  rcases Bool.or_eq_true _ _ |>.mp hx with h0 | hax
  · rw [Nat.zero_testBit] at h0
    exact absurd h0 (by simp)
  rcases Bool.or_eq_true _ _ |>.mp hy with h0 | hay
  · rw [Nat.zero_testBit] at h0
    exact absurd h0 (by simp)
  obtain ⟨qx, hqxm, hqx⟩ := List.any_eq_true.mp hax
  obtain ⟨qy, hqym, hqy⟩ := List.any_eq_true.mp hay
  obtain ⟨kx, hkx, hkxq⟩ := List.mem_map.mp hqxm
  obtain ⟨ky, hky, hkyq⟩ := List.mem_map.mp hqym
  have hkxlt : kx < g.hyperedges.length := ((edge_buckets_inv g).1 p hp kx hkx).2
  have hkylt : ky < g.hyperedges.length := ((edge_buckets_inv g).1 p hp ky hky).2
  have hkxroot : rootOf g kx = p.1 := ((edge_buckets_inv g).1 p hp kx hkx).1
  have hkyroot : rootOf g ky = p.1 := ((edge_buckets_inv g).1 p hp ky hky).1
  obtain ⟨hltx, hsubx⟩ := rootOf_spec g hw hnz hkxlt
  obtain ⟨hlty, hsuby⟩ := rootOf_spec g hw hnz hkylt
  have hplt : p.1 < (StructuredHypergraph.ufPartition g.nodes.length
      g.hyperedges).length := by
    rw [← hkxroot]
    exact hltx
  have hBx : ((StructuredHypergraph.ufPartition g.nodes.length
      g.hyperedges).get ⟨p.1, hplt⟩).testBit x = true := by
    have h1 : BSub (g.hyperedges.getD kx 0) ((StructuredHypergraph.ufPartition
        g.nodes.length g.hyperedges).get ⟨p.1, hplt⟩) := by
      have := hsubx
      rw [List.get_eq_getElem] at this ⊢
      simp only [hkxroot] at this
      exact this
    apply h1
    rw [hkxq]
    exact hqx
  have hBy : ((StructuredHypergraph.ufPartition g.nodes.length
      g.hyperedges).get ⟨p.1, hplt⟩).testBit y = true := by
    have h1 : BSub (g.hyperedges.getD ky 0) ((StructuredHypergraph.ufPartition
        g.nodes.length g.hyperedges).get ⟨p.1, hplt⟩) := by
      have := hsuby
      rw [List.get_eq_getElem] at this ⊢
      simp only [hkyroot] at this
      exact this
    apply h1
    rw [hkyq]
    exact hqy
  have hconn := ufconn_partition g.nodes.length g.hyperedges
    ((StructuredHypergraph.ufPartition g.nodes.length g.hyperedges).get ⟨p.1, hplt⟩)
    (List.get_mem _ _ hplt) x y hBx hBy
  rcases hconn with rfl | hchain
  · exact linked.base qx (List.mem_map.mpr ⟨kx, hkx, hkxq⟩) x x hqx hqx
  · apply linked_mono ?_ hchain
    intro q hq
    rcases List.mem_filter.mp hq with ⟨hq1, hq2⟩
    exact block_mem_of_bsub hw hnz hp hq1 (subE_iff.mp hq2)

theorem linked_map {m : List Nat} (hm : m.length ≤ 128) {es : List Nat}
    (hcov : ∀ e ∈ es, ∀ t, e.testBit t = true →
      ∃ s, s < m.length ∧ m.getD s 0 = t ∧ t < 128) :
    ∀ {x y : Nat}, linked es x y → ∀ sx sy, sx < m.length → sy < m.length →
      m.getD sx 0 = x → m.getD sy 0 = y →
      linked (es.map fun e => Bitset128.apply_node_map e m) sx sy := by
  intro x y hl
  induction hl with
  | base e he x0 y0 hx0 hy0 =>
    intro sx sy hsx hsy hmx hmy
    apply linked.base (Bitset128.apply_node_map e m)
      (List.mem_map.mpr ⟨e, he, rfl⟩) sx sy
    · obtain ⟨s0, _, _, h128x⟩ := hcov e he x0 hx0
      rw [testBit_apply_node_map hm, hmx, Nat.mod_eq_of_lt h128x, hx0]
      simp [hsx]
    · obtain ⟨s0, _, _, h128y⟩ := hcov e he y0 hy0
      rw [testBit_apply_node_map hm, hmy, Nat.mod_eq_of_lt h128y, hy0]
      simp [hsy]
  | trans h1 h2 ih1 ih2 =>
    intro sx sy hsx hsy hmx hmy
    obtain ⟨e, he, hby⟩ := (linked_bit h1).2
    obtain ⟨s, hs, hms, _⟩ := hcov e he _ hby
    exact linked.trans (ih1 sx s hsx hs hmx hms) (ih2 s sy hs hsy hms hmy)

theorem flatten_fold_eq (g : StructuredHypergraph)
    (hw : ∀ e ∈ g.hyperedges, e < 2 ^ 128) :
    g.flatten_nodes.hyperedges.foldl Bitset128.union 0
      = 2 ^ Bitset128.len (g.hyperedges.foldl Bitset128.union 0) - 1 := by
  rw [flatten_hyperedges_eq g hw]
  apply Nat.eq_of_testBit_eq
  intro t
  rw [testBit_foldl_union, Nat.zero_testBit, Bool.false_or,
    Nat.testBit_two_pow_sub_one]
  by_cases ht : t < Bitset128.len (g.hyperedges.foldl Bitset128.union 0)
  · have htlen : t < (Bitset128.iter (g.hyperedges.foldl Bitset128.union 0)).length := by
      rw [← len_eq_iter_length]
      exact ht
    have hrmem : (Bitset128.iter (g.hyperedges.foldl Bitset128.union 0)).getD t 0
        ∈ Bitset128.iter (g.hyperedges.foldl Bitset128.union 0) := by
      rw [List.getD_eq_getElem _ 0 htlen]
      exact List.getElem_mem htlen
    rw [mem_iter] at hrmem
    have hUr := hrmem.2
    rw [testBit_foldl_union, Nat.zero_testBit, Bool.false_or] at hUr
    obtain ⟨e, he, hbit⟩ := List.any_eq_true.mp hUr
    have hany : ((g.hyperedges.map fun e => Bitset128.apply_node_map e
        (Bitset128.iter (g.hyperedges.foldl Bitset128.union 0))).any
        fun e => e.testBit t) = true := by
      apply List.any_eq_true.mpr
      refine ⟨Bitset128.apply_node_map e
        (Bitset128.iter (g.hyperedges.foldl Bitset128.union 0)),
        List.mem_map.mpr ⟨e, he, rfl⟩, ?_⟩
      rw [testBit_apply_node_map (iter_length_le _),
        Nat.mod_eq_of_lt hrmem.1, hbit]
      simp [htlen]
    rw [hany]
    simp [ht]
  · have hany : ((g.hyperedges.map fun e => Bitset128.apply_node_map e
        (Bitset128.iter (g.hyperedges.foldl Bitset128.union 0))).any
        fun e => e.testBit t) = false := by
      apply List.any_eq_false.mpr
      intro e2 he2
      obtain ⟨e, he, rfl⟩ := List.mem_map.mp he2
      rw [testBit_apply_node_map (iter_length_le _)]
      have htlen : ¬ t < (Bitset128.iter (g.hyperedges.foldl
          Bitset128.union 0)).length := by
        rw [← len_eq_iter_length]
        exact ht
      simp [htlen]
    rw [hany]
    simp [ht]

theorem bsub_antisymm {a b : Nat} (h1 : BSub a b) (h2 : BSub b a) : a = b := by
  apply Nat.eq_of_testBit_eq
  intro i
  cases ha : a.testBit i with
  | true => exact (h1 i ha).symm
  | false =>
    cases hb : b.testBit i with
    | true =>
      rw [h2 i hb] at ha
      exact absurd ha (by simp)
    | false => rfl

theorem foldl_union_bsub_all {l : List Nat} {m : Nat} (h : ∀ e ∈ l, BSub e m) :
    BSub (l.foldl Bitset128.union 0) m := by
  intro i hi
  rw [testBit_foldl_union, Nat.zero_testBit, Bool.false_or] at hi
  obtain ⟨e, he, hbit⟩ := List.any_eq_true.mp hi
  exact h e he i hbit

theorem keep_acc_mem_mono : ∀ (l acc : List Nat) (x : Nat), x ∈ acc →
    x ∈ l.foldl
      (fun acc e =>
        if !(Bitset128.is_empty e) && acc.all (fun ue => !(Bitset128.is_subset e ue)) then
          acc ++ [e]
        else acc) acc := by
  intro l
  induction l with
  | nil => intro acc x h; exact h
  | cons e l ih =>
    intro acc x h
    rw [List.foldl_cons]
    by_cases hc : (!(Bitset128.is_empty e)
        && acc.all (fun ue => !(Bitset128.is_subset e ue))) = true
    · rw [if_pos hc]
      exact ih _ x (List.mem_append.mpr (Or.inl h))
    · rw [if_neg hc]
      exact ih _ x h

theorem keep_fold_support : ∀ (l acc : List Nat), (∀ x ∈ l, x < 2 ^ 128) →
    ∀ e ∈ l, BSub e ((l.foldl
      (fun acc e =>
        if !(Bitset128.is_empty e) && acc.all (fun ue => !(Bitset128.is_subset e ue)) then
          acc ++ [e]
        else acc) acc).foldl Bitset128.union 0) := by
  intro l
  induction l with
  | nil => intro acc _ e he; exact absurd he (List.not_mem_nil e)
  | cons e0 l ih =>
    intro acc hw e hmem
    rw [List.foldl_cons]
    rcases List.mem_cons.mp hmem with rfl | hmem2
    · by_cases hc : (!(Bitset128.is_empty e)
          && acc.all (fun ue => !(Bitset128.is_subset e ue))) = true
      · rw [if_pos hc]
        apply bsub_foldl_union_mem ?_ 0
        apply keep_acc_mem_mono
        exact List.mem_append.mpr (Or.inr (List.mem_singleton.mpr rfl))
      · rw [if_neg hc]
        cases hemp : Bitset128.is_empty e with
        | true =>
          have he0 : e = 0 := by
            unfold Bitset128.is_empty at hemp
            exact eq_of_beq hemp
          subst he0
          intro i hi
          rw [Nat.zero_testBit] at hi
          exact absurd hi (by simp)
        | false =>
          have hall : acc.all (fun ue => !(Bitset128.is_subset e ue)) = false := by
            revert hc
            rw [hemp]
            cases acc.all fun ue => !(Bitset128.is_subset e ue) <;> simp
          rw [List.all_eq_false] at hall
          obtain ⟨ue, hue, hns⟩ := hall
          have hsub : Bitset128.is_subset e ue = true := by
            revert hns
            cases Bitset128.is_subset e ue <;> simp
          have hBS : BSub e ue := (is_subset_iff (hw e (List.mem_cons_self e l))).mp hsub
          have huefin : ue ∈ (l.foldl
              (fun acc e =>
                if !(Bitset128.is_empty e)
                    && acc.all (fun ue => !(Bitset128.is_subset e ue)) then
                  acc ++ [e]
                else acc) acc) := keep_acc_mem_mono l acc ue hue
          exact bsub_trans hBS (bsub_foldl_union_mem huefin 0)
    · exact ih _ (fun x hx => hw x (List.mem_cons_of_mem e0 hx)) e hmem2

theorem keep_support_bsub (es : List Nat) (hw : ∀ x ∈ es, x < 2 ^ 128) :
    ∀ e ∈ es, BSub e ((StructuredHypergraph.keep_non_redundant es).foldl
      Bitset128.union 0) := by
  intro e he
  unfold StructuredHypergraph.keep_non_redundant
  exact keep_fold_support es [] hw e he

theorem len_two_pow_sub_one {k : Nat} (hk : k ≤ 128) :
    Bitset128.len (2 ^ k - 1) = k := by
  rw [len_eq_card]
  have hfin : bfin (2 ^ k - 1) = Finset.range k := by
    ext i
    rw [mem_bfin, Finset.mem_range, Nat.testBit_two_pow_sub_one]
    constructor
    · rintro ⟨_, h2⟩
      exact of_decide_eq_true h2
    · intro h
      exact ⟨by omega, decide_eq_true h⟩
  rw [hfin, Finset.card_range]

theorem remove_redundant_support (g : StructuredHypergraph)
    (hw : ∀ e ∈ g.hyperedges, e < 2 ^ 128)
    (hn : Bitset128.len (g.hyperedges.foldl Bitset128.union 0) ≤ g.nodes.length) :
    g.remove_redundant_hyperedges.hyperedges.foldl Bitset128.union 0
      = 2 ^ g.remove_redundant_hyperedges.nodes.length - 1 := by
  have hU128 : Bitset128.len (g.hyperedges.foldl Bitset128.union 0) ≤ 128 := len_le_128 _
  have hFLw : ∀ e ∈ g.flatten_nodes.hyperedges, e < 2 ^ 128 :=
    fun e he => lt_of_lt_of_le (flatten_edges_lt g hw e he)
      (Nat.pow_le_pow_right (by omega) hU128)
  have hdescw : ∀ e ∈ StructuredHypergraph.desc_len_sorted g.flatten_nodes.hyperedges,
      e < 2 ^ 128 := fun e he => hFLw e (desc_len_sorted_mem _ e he)
  have hKfold : (StructuredHypergraph.keep_non_redundant
      (StructuredHypergraph.desc_len_sorted g.flatten_nodes.hyperedges)).foldl
        Bitset128.union 0
      = g.flatten_nodes.hyperedges.foldl Bitset128.union 0 := by
    apply bsub_antisymm
    · apply foldl_union_bsub_all
      intro e he
      have hmem : e ∈ g.flatten_nodes.hyperedges :=
        desc_len_sorted_mem _ e (keep_non_redundant_subset _ e he)
      exact bsub_foldl_union_mem hmem 0
    · apply foldl_union_bsub_all
      intro e he
      have hmem : e ∈ StructuredHypergraph.desc_len_sorted
          g.flatten_nodes.hyperedges := by
        unfold StructuredHypergraph.desc_len_sorted
        exact (sortLe_perm _ _).mem_iff.mpr he
      exact keep_support_bsub _ hdescw e hmem
  have hFLfold : g.flatten_nodes.hyperedges.foldl Bitset128.union 0
      = 2 ^ Bitset128.len (g.hyperedges.foldl Bitset128.union 0) - 1 :=
    flatten_fold_eq g hw
  have hFLlen : g.flatten_nodes.nodes.length
      = Bitset128.len (g.hyperedges.foldl Bitset128.union 0) :=
    flatten_nodes_length_eq g hn
  have hKw : ∀ e ∈ StructuredHypergraph.keep_non_redundant
      (StructuredHypergraph.desc_len_sorted g.flatten_nodes.hyperedges), e < 2 ^ 128 :=
    fun e he => hdescw e (keep_non_redundant_subset _ e he)
  unfold StructuredHypergraph.remove_redundant_hyperedges
  by_cases hbr : (StructuredHypergraph.desc_len_sorted g.flatten_nodes.hyperedges).length
      ≠ (StructuredHypergraph.keep_non_redundant
        (StructuredHypergraph.desc_len_sorted g.flatten_nodes.hyperedges)).length
  · rw [if_pos hbr]
    have hKlen : Bitset128.len ((StructuredHypergraph.keep_non_redundant
        (StructuredHypergraph.desc_len_sorted g.flatten_nodes.hyperedges)).foldl
          Bitset128.union 0)
        = Bitset128.len (g.hyperedges.foldl Bitset128.union 0) := by
      rw [hKfold, hFLfold]
      exact len_two_pow_sub_one hU128
    have hnle : Bitset128.len (({ g.flatten_nodes with
          hyperedges := StructuredHypergraph.keep_non_redundant
            (StructuredHypergraph.desc_len_sorted g.flatten_nodes.hyperedges)
          } : StructuredHypergraph).hyperedges.foldl Bitset128.union 0)
        ≤ ({ g.flatten_nodes with
          hyperedges := StructuredHypergraph.keep_non_redundant
            (StructuredHypergraph.desc_len_sorted g.flatten_nodes.hyperedges)
          } : StructuredHypergraph).nodes.length := by
      show Bitset128.len ((StructuredHypergraph.keep_non_redundant
          (StructuredHypergraph.desc_len_sorted g.flatten_nodes.hyperedges)).foldl
            Bitset128.union 0) ≤ g.flatten_nodes.nodes.length
      rw [hKlen, hFLlen]
    have h1 := flatten_fold_eq
      { g.flatten_nodes with
        hyperedges := StructuredHypergraph.keep_non_redundant
          (StructuredHypergraph.desc_len_sorted g.flatten_nodes.hyperedges) } hKw
    have h2 := flatten_nodes_length_eq
      { g.flatten_nodes with
        hyperedges := StructuredHypergraph.keep_non_redundant
          (StructuredHypergraph.desc_len_sorted g.flatten_nodes.hyperedges) } hnle
    rw [h1, h2]
  · rw [if_neg hbr]
    show (StructuredHypergraph.keep_non_redundant
        (StructuredHypergraph.desc_len_sorted g.flatten_nodes.hyperedges)).foldl
          Bitset128.union 0
      = 2 ^ g.flatten_nodes.nodes.length - 1
    rw [hKfold, hFLfold, hFLlen]

theorem sort_connected (h0 : StructuredHypergraph) (h128 : h0.nodes.length ≤ 128)
    (hE : ∀ e ∈ h0.hyperedges, e < 2 ^ h0.nodes.length)
    (hconn : ∀ x y, x < h0.nodes.length → y < h0.nodes.length →
      linked h0.hyperedges x y) :
    ∀ x y, x < (SorterState.sort h0).nodes.length →
      y < (SorterState.sort h0).nodes.length →
      linked (SorterState.sort h0).hyperedges x y := by
  intro x y hx hy
  rw [sort_nodes_length] at hx hy
  rw [sort_hyperedges_form]
  have hem := (sInv_sorted_state h0).em
  have hnm := (sInv_sorted_state h0).nm
  have hmlen : (SorterState.sorted_state h0).node_map.length = h0.nodes.length := by
    rw [hnm.length_eq, List.length_range]
  have hm : (SorterState.sorted_state h0).node_map.length ≤ 128 := by omega
  have hselmem : ∀ e ∈ (SorterState.sorted_state h0).edge_map.map
      (fun i => h0.hyperedges.getD i 0), e ∈ h0.hyperedges := by
    intro e he
    obtain ⟨i, hi, rfl⟩ := List.mem_map.mp he
    have hilt : i < h0.hyperedges.length := List.mem_range.mp (hem.mem_iff.mp hi)
    rw [List.getD_eq_getElem _ 0 hilt]
    exact List.getElem_mem hilt
  have hmem2 : ∀ e ∈ h0.hyperedges, e ∈ (SorterState.sorted_state h0).edge_map.map
      (fun i => h0.hyperedges.getD i 0) := by
    intro e he
    obtain ⟨k, hk, hkq⟩ := List.getElem_of_mem he
    refine List.mem_map.mpr ⟨k, hem.mem_iff.mpr (List.mem_range.mpr hk), ?_⟩
    rw [List.getD_eq_getElem _ 0 hk, hkq]
  have hcov : ∀ e ∈ (SorterState.sorted_state h0).edge_map.map
      (fun i => h0.hyperedges.getD i 0), ∀ t, e.testBit t = true →
      ∃ s, s < (SorterState.sorted_state h0).node_map.length ∧
        (SorterState.sorted_state h0).node_map.getD s 0 = t ∧ t < 128 := by
    intro e he t htb
    have he2 := hE e (hselmem e he)
    have ht : t < h0.nodes.length := by
      by_contra hge
      rw [Nat.testBit_lt_two_pow (lt_of_lt_of_le he2
        (Nat.pow_le_pow_right (by omega) (by omega)))] at htb
      exact absurd htb (by simp)
    have hmem : t ∈ (SorterState.sorted_state h0).node_map :=
      hnm.mem_iff.mpr (List.mem_range.mpr ht)
    obtain ⟨s, hs, hst⟩ := List.getElem_of_mem hmem
    exact ⟨s, hs, by rw [List.getD_eq_getElem _ 0 hs]; exact hst, by omega⟩
  have hvx : (SorterState.sorted_state h0).node_map.getD x 0 < h0.nodes.length := by
    have hxlen : x < (SorterState.sorted_state h0).node_map.length := by omega
    have hmem : (SorterState.sorted_state h0).node_map.getD x 0
        ∈ (SorterState.sorted_state h0).node_map := by
      rw [List.getD_eq_getElem _ 0 hxlen]
      exact List.getElem_mem hxlen
    exact List.mem_range.mp (hnm.mem_iff.mp hmem)
  have hvy : (SorterState.sorted_state h0).node_map.getD y 0 < h0.nodes.length := by
    have hylen : y < (SorterState.sorted_state h0).node_map.length := by omega
    have hmem : (SorterState.sorted_state h0).node_map.getD y 0
        ∈ (SorterState.sorted_state h0).node_map := by
      rw [List.getD_eq_getElem _ 0 hylen]
      exact List.getElem_mem hylen
    exact List.mem_range.mp (hnm.mem_iff.mp hmem)
  have hsel_conn : linked ((SorterState.sorted_state h0).edge_map.map
      (fun i => h0.hyperedges.getD i 0))
      ((SorterState.sorted_state h0).node_map.getD x 0)
      ((SorterState.sorted_state h0).node_map.getD y 0) :=
    linked_mono hmem2 (hconn _ _ hvx hvy)
  exact linked_map hm hcov hsel_conn x y (by omega) (by omega) rfl rfl

theorem flatten_connected (g : StructuredHypergraph)
    (hw : ∀ e ∈ g.hyperedges, e < 2 ^ 128)
    (hn : Bitset128.len (g.hyperedges.foldl Bitset128.union 0) ≤ g.nodes.length)
    (hconn : ∀ x y, (g.hyperedges.foldl Bitset128.union 0).testBit x = true →
      (g.hyperedges.foldl Bitset128.union 0).testBit y = true →
      linked g.hyperedges x y) :
    ∀ x y, x < g.flatten_nodes.nodes.length → y < g.flatten_nodes.nodes.length →
      linked g.flatten_nodes.hyperedges x y := by
  have hU : g.hyperedges.foldl Bitset128.union 0 < 2 ^ 128 :=
    foldl_union_lt_pow _ 0 (by positivity) hw
  intro x y hx hy
  rw [flatten_nodes_length_eq g hn, len_eq_iter_length] at hx hy
  rw [flatten_hyperedges_eq g hw]
  have hcov : ∀ e ∈ g.hyperedges, ∀ t, e.testBit t = true →
      ∃ s, s < (Bitset128.iter (g.hyperedges.foldl Bitset128.union 0)).length ∧
        (Bitset128.iter (g.hyperedges.foldl Bitset128.union 0)).getD s 0 = t ∧
        t < 128 := fun e he => iter_cov hU (bsub_foldl_union_mem he 0)
  have hvx : (Bitset128.iter (g.hyperedges.foldl Bitset128.union 0)).getD x 0
      ∈ Bitset128.iter (g.hyperedges.foldl Bitset128.union 0) := by
    rw [List.getD_eq_getElem _ 0 hx]
    exact List.getElem_mem hx
  have hvy : (Bitset128.iter (g.hyperedges.foldl Bitset128.union 0)).getD y 0
      ∈ Bitset128.iter (g.hyperedges.foldl Bitset128.union 0) := by
    rw [List.getD_eq_getElem _ 0 hy]
    exact List.getElem_mem hy
  rw [mem_iter] at hvx hvy
  exact linked_map (iter_length_le _) hcov (hconn _ _ hvx.2 hvy.2) x y hx hy rfl rfl

theorem get_parts_connected (g : StructuredHypergraph) (h128 : g.nodes.length ≤ 128)
    (hE : ∀ e ∈ g.hyperedges, e < 2 ^ g.nodes.length)
    (hnz : ∀ e ∈ g.hyperedges, e ≠ 0)
    (hfold : g.hyperedges.foldl Bitset128.union 0 = 2 ^ g.nodes.length - 1) :
    ∀ h ∈ g.get_parts, ∀ x y, x < h.nodes.length → y < h.nodes.length →
      linked h.hyperedges x y := by
  have hw : ∀ e ∈ g.hyperedges, e < 2 ^ 128 :=
    fun e he => lt_of_lt_of_le (hE e he) (Nat.pow_le_pow_right (by omega) h128)
  intro h hh
  unfold StructuredHypergraph.get_parts at hh
  by_cases hc : (g.edge_buckets).length = 1
  · rw [if_pos hc] at hh
    rw [List.mem_singleton.mp hh]
    apply sort_connected g h128 hE
    obtain ⟨p, hpeq⟩ := List.length_eq_one.mp hc
    have hp : p ∈ g.edge_buckets := by
      rw [hpeq]
      exact List.mem_singleton.mpr rfl
    have hall : ∀ e ∈ g.hyperedges, e ∈ p.2.map fun ei => g.hyperedges.getD ei 0 := by
      intro e he
      obtain ⟨k, hk, hkq⟩ := List.getElem_of_mem he
      obtain ⟨q, hq, hkq2⟩ := edge_buckets_complete g hk
      have hqp : q = p := by
        rw [hpeq] at hq
        exact List.mem_singleton.mp hq
      rw [hqp] at hkq2
      refine List.mem_map.mpr ⟨k, hkq2, ?_⟩
      rw [List.getD_eq_getElem _ 0 hk, hkq]
    have hUp : BSub (g.hyperedges.foldl Bitset128.union 0)
        ((p.2.map fun ei => g.hyperedges.getD ei 0).foldl Bitset128.union 0) :=
      foldl_union_bsub_all fun e he => bsub_foldl_union_mem (hall e he) 0
    intro x y hx hy
    have hxbit : (g.hyperedges.foldl Bitset128.union 0).testBit x = true := by
      rw [hfold, Nat.testBit_two_pow_sub_one]
      exact decide_eq_true hx
    have hybit : (g.hyperedges.foldl Bitset128.union 0).testBit y = true := by
      rw [hfold, Nat.testBit_two_pow_sub_one]
      exact decide_eq_true hy
    have hlink := bucket_support_linked g hw hnz hp x y (hUp x hxbit) (hUp y hybit)
    apply linked_mono ?_ hlink
    intro q hq
    obtain ⟨k, hk, rfl⟩ := List.mem_map.mp hq
    have hklt : k < g.hyperedges.length := ((edge_buckets_inv g).1 p hp k hk).2
    rw [List.getD_eq_getElem _ 0 hklt]
    exact List.getElem_mem hklt
  · rw [if_neg hc] at hh
    obtain ⟨p, hp, rfl⟩ := List.mem_map.mp hh
    have hbinv := edge_buckets_inv g
    have hval : ∀ ei ∈ p.2, ei < g.hyperedges.length := fun ei hei => (hbinv.1 p hp ei hei).2
    have hsubmem : ∀ e ∈ p.2.map (fun ei => g.hyperedges.getD ei 0), e ∈ g.hyperedges := by
      intro e he
      obtain ⟨i, hi, rfl⟩ := List.mem_map.mp he
      rw [List.getD_eq_getElem _ 0 (hval i hi)]
      exact List.getElem_mem (hval i hi)
    have hsubE : ∀ e ∈ p.2.map (fun ei => g.hyperedges.getD ei 0), e < 2 ^ g.nodes.length :=
      fun e he => hE e (hsubmem e he)
    have hsubw : ∀ e ∈ p.2.map (fun ei => g.hyperedges.getD ei 0), e < 2 ^ 128 :=
      fun e he => hw e (hsubmem e he)
    have hnle : Bitset128.len ((p.2.map fun ei => g.hyperedges.getD ei 0).foldl
        Bitset128.union 0) ≤ g.nodes.length :=
      len_le_of_lt_two_pow (foldl_union_lt_pow _ 0 (by positivity) hsubE)
    have hsubconn : ∀ x y,
        ((p.2.map fun ei => g.hyperedges.getD ei 0).foldl
          Bitset128.union 0).testBit x = true →
        ((p.2.map fun ei => g.hyperedges.getD ei 0).foldl
          Bitset128.union 0).testBit y = true →
        linked (p.2.map fun ei => g.hyperedges.getD ei 0) x y :=
      bucket_support_linked g hw hnz hp
    have hflatconn : ∀ x y,
        x < (StructuredHypergraph.flatten_nodes
          { hyperedges := p.2.map fun ei => g.hyperedges.getD ei 0
            nodes := g.nodes
            node_structure_partitions := []
            edge_structure_partitions := [] }).nodes.length →
        y < (StructuredHypergraph.flatten_nodes
          { hyperedges := p.2.map fun ei => g.hyperedges.getD ei 0
            nodes := g.nodes
            node_structure_partitions := []
            edge_structure_partitions := [] }).nodes.length →
        linked (StructuredHypergraph.flatten_nodes
          { hyperedges := p.2.map fun ei => g.hyperedges.getD ei 0
            nodes := g.nodes
            node_structure_partitions := []
            edge_structure_partitions := [] }).hyperedges x y :=
      flatten_connected
        { hyperedges := p.2.map fun ei => g.hyperedges.getD ei 0
          nodes := g.nodes
          node_structure_partitions := []
          edge_structure_partitions := [] } hsubw hnle hsubconn
    have hflen : (StructuredHypergraph.flatten_nodes
        { hyperedges := p.2.map fun ei => g.hyperedges.getD ei 0
          nodes := g.nodes
          node_structure_partitions := []
          edge_structure_partitions := [] }).nodes.length
        = Bitset128.len ((p.2.map fun ei => g.hyperedges.getD ei 0).foldl
            Bitset128.union 0) :=
      flatten_nodes_length_eq _ hnle
    have hfE : ∀ e ∈ (StructuredHypergraph.flatten_nodes
        { hyperedges := p.2.map fun ei => g.hyperedges.getD ei 0
          nodes := g.nodes
          node_structure_partitions := []
          edge_structure_partitions := [] }).hyperedges,
        e < 2 ^ Bitset128.len ((p.2.map fun ei => g.hyperedges.getD ei 0).foldl
            Bitset128.union 0) :=
      flatten_edges_lt _ hsubw
    apply sort_connected
    · rw [hflen]
      omega
    · intro e he
      rw [hflen]
      exact hfE e he
    · exact hflatconn

theorem fhwn_connected (es ns : List Nat) (hw : ∀ e ∈ es, e < 2 ^ 128)
    (hn : Bitset128.len (es.foldl Bitset128.union 0) ≤ ns.length) :
    ∀ h ∈ StructuredHypergraph.from_hyperedges_with_nodes es ns,
      ∀ x y, x < h.nodes.length → y < h.nodes.length → linked h.hyperedges x y := by
  unfold StructuredHypergraph.from_hyperedges_with_nodes
  obtain ⟨h1, h2, _, h4⟩ := remove_redundant_good ⟨es, ns, [], []⟩ hw hn
  have hsup := remove_redundant_support ⟨es, ns, [], []⟩ hw hn
  exact get_parts_connected _ h1 h2 h4 hsup

theorem from_hyperedges_connected (es : List Nat) (hw : ∀ e ∈ es, e < 2 ^ 128) :
    ∀ h ∈ StructuredHypergraph.from_hyperedges es,
      ∀ x y, x < h.nodes.length → y < h.nodes.length → linked h.hyperedges x y := by
  unfold StructuredHypergraph.from_hyperedges
  simp only []
  apply fhwn_connected es _ hw
  rw [List.length_range]
  exact from_hyperedges_max_bound es hw

theorem flatten_nodes_content (g : StructuredHypergraph)
    (hw : ∀ e ∈ g.hyperedges, e < 2 ^ 128)
    (hn : Bitset128.len (g.hyperedges.foldl Bitset128.union 0) ≤ g.nodes.length) :
    g.flatten_nodes.nodes
      = (Bitset128.iter (g.hyperedges.foldl Bitset128.union 0)).map
        fun old => g.nodes.getD old 0 := by
  have hU : g.hyperedges.foldl Bitset128.union 0 < 2 ^ 128 :=
    foldl_union_lt_pow _ 0 (by positivity) hw
  have hlen : Bitset128.len (g.hyperedges.foldl Bitset128.union 0) ≤ 128 := len_le_128 _
  unfold StructuredHypergraph.flatten_nodes
  simp only []
  by_cases hf : Bitset128.is_flattened (g.hyperedges.foldl Bitset128.union 0) = true
  · rw [if_pos hf]
    show g.nodes.take (Bitset128.len (g.hyperedges.foldl Bitset128.union 0)) = _
    have hiter : Bitset128.iter (g.hyperedges.foldl Bitset128.union 0)
        = List.range (Bitset128.len (g.hyperedges.foldl Bitset128.union 0)) := by
      nth_rewrite 1 [is_flattened_eq hf hU]
      exact iter_two_pow_sub_one hlen
    rw [hiter]
    apply List.ext_getElem
    · rw [List.length_take, List.length_map, List.length_range]
      omega
    · intro i h1 h2
      rw [List.getElem_take, List.getElem_map, List.getElem_range]
      have hilen : i < g.nodes.length := by
        rw [List.length_take] at h1
        omega
      rw [List.getD_eq_getElem _ 0 hilen]
  · rw [if_neg hf, apply_node_map_nodes]

theorem nodup_getElem_ne {l : List Nat} (hl : l.Nodup) {i j : Nat}
    (hi : i < l.length) (hj : j < l.length) (hne : i ≠ j) : l[i] ≠ l[j] := by
  have hpw := List.pairwise_iff_getElem.mp hl
  rcases Nat.lt_or_ge i j with h | h
  · exact hpw i j hi hj h
  · have h2 : j < i := by omega
    exact fun he => (hpw j i hj hi h2) he.symm

theorem nodup_getD_map {l idxs : List Nat} (hl : l.Nodup) (hidx : idxs.Nodup)
    (hv : ∀ i ∈ idxs, i < l.length) : (idxs.map fun i => l.getD i 0).Nodup := by
  have hpw : idxs.Pairwise fun a b => l.getD a 0 ≠ l.getD b 0 := by
    apply List.Pairwise.imp_of_mem ?_ hidx
    intro a b ha hb hne
    rw [List.getD_eq_getElem l 0 (hv a ha), List.getD_eq_getElem l 0 (hv b hb)]
    exact nodup_getElem_ne hl (hv a ha) (hv b hb) hne
  exact List.pairwise_map.mpr hpw

theorem flatten_nodes_nodup (g : StructuredHypergraph) (hnodup : g.nodes.Nodup)
    (hw : ∀ e ∈ g.hyperedges, e < 2 ^ 128)
    (hn : Bitset128.len (g.hyperedges.foldl Bitset128.union 0) ≤ g.nodes.length)
    (hbit : ∀ t, (g.hyperedges.foldl Bitset128.union 0).testBit t = true →
      t < g.nodes.length) :
    g.flatten_nodes.nodes.Nodup := by
  rw [flatten_nodes_content g hw hn]
  apply nodup_getD_map hnodup (sorted_lt_nodup (iter_pairwise _))
  intro i hi
  exact hbit i (mem_iter.mp hi).2

theorem flatten_nodes_mem (g : StructuredHypergraph)
    (hw : ∀ e ∈ g.hyperedges, e < 2 ^ 128)
    (hn : Bitset128.len (g.hyperedges.foldl Bitset128.union 0) ≤ g.nodes.length)
    (v : Nat) :
    v ∈ g.flatten_nodes.nodes ↔ ∃ r, r < 128 ∧
      (g.hyperedges.foldl Bitset128.union 0).testBit r = true ∧
      g.nodes.getD r 0 = v := by
  rw [flatten_nodes_content g hw hn, List.mem_map]
  constructor
  · rintro ⟨old, hold, rfl⟩
    rw [mem_iter] at hold
    exact ⟨old, hold.1, hold.2, rfl⟩
  · rintro ⟨r, h1, h2, rfl⟩
    exact ⟨r, mem_iter.mpr ⟨h1, h2⟩, rfl⟩

theorem sort_nodes_mem (h0 : StructuredHypergraph) (v : Nat) :
    v ∈ (SorterState.sort h0).nodes ↔ v ∈ h0.nodes := by
  have hnm := (sInv_sorted_state h0).nm
  rw [sort_nodes_form, List.mem_map]
  constructor
  · rintro ⟨s, hs, rfl⟩
    have hslt : s < h0.nodes.length := List.mem_range.mp (hnm.mem_iff.mp hs)
    rw [List.getD_eq_getElem _ 0 hslt]
    exact List.getElem_mem hslt
  · intro hv
    obtain ⟨k, hk, hkv⟩ := List.getElem_of_mem hv
    refine ⟨k, hnm.mem_iff.mpr (List.mem_range.mpr hk), ?_⟩
    rw [List.getD_eq_getElem _ 0 hk, hkv]

theorem keep_desc_fold_eq (es : List Nat) (hw : ∀ e ∈ es, e < 2 ^ 128) :
    (StructuredHypergraph.keep_non_redundant
      (StructuredHypergraph.desc_len_sorted es)).foldl Bitset128.union 0
    = es.foldl Bitset128.union 0 := by
  have hdescw : ∀ e ∈ StructuredHypergraph.desc_len_sorted es, e < 2 ^ 128 :=
    fun e he => hw e (desc_len_sorted_mem _ e he)
  apply bsub_antisymm
  · apply foldl_union_bsub_all
    intro e he
    have hmem : e ∈ es := desc_len_sorted_mem _ e (keep_non_redundant_subset _ e he)
    exact bsub_foldl_union_mem hmem 0
  · apply foldl_union_bsub_all
    intro e he
    have hmem : e ∈ StructuredHypergraph.desc_len_sorted es := by
      unfold StructuredHypergraph.desc_len_sorted
      exact (sortLe_perm _ _).mem_iff.mpr he
    exact keep_support_bsub _ hdescw e hmem

theorem remove_redundant_nodes_nodup (g : StructuredHypergraph)
    (hnodup : g.nodes.Nodup) (hw : ∀ e ∈ g.hyperedges, e < 2 ^ 128)
    (hn : Bitset128.len (g.hyperedges.foldl Bitset128.union 0) ≤ g.nodes.length)
    (hbit : ∀ t, (g.hyperedges.foldl Bitset128.union 0).testBit t = true →
      t < g.nodes.length) :
    g.remove_redundant_hyperedges.nodes.Nodup := by
  have hU128 : Bitset128.len (g.hyperedges.foldl Bitset128.union 0) ≤ 128 := len_le_128 _
  have hFLnodup : g.flatten_nodes.nodes.Nodup := flatten_nodes_nodup g hnodup hw hn hbit
  have hFLw : ∀ e ∈ g.flatten_nodes.hyperedges, e < 2 ^ 128 :=
    fun e he => lt_of_lt_of_le (flatten_edges_lt g hw e he)
      (Nat.pow_le_pow_right (by omega) hU128)
  have hKw : ∀ e ∈ StructuredHypergraph.keep_non_redundant
      (StructuredHypergraph.desc_len_sorted g.flatten_nodes.hyperedges), e < 2 ^ 128 :=
    fun e he => hFLw e (desc_len_sorted_mem _ e (keep_non_redundant_subset _ e he))
  have hKfold : (StructuredHypergraph.keep_non_redundant
      (StructuredHypergraph.desc_len_sorted g.flatten_nodes.hyperedges)).foldl
        Bitset128.union 0
      = 2 ^ Bitset128.len (g.hyperedges.foldl Bitset128.union 0) - 1 := by
    rw [keep_desc_fold_eq _ hFLw]
    exact flatten_fold_eq g hw
  have hFLlen : g.flatten_nodes.nodes.length
      = Bitset128.len (g.hyperedges.foldl Bitset128.union 0) :=
    flatten_nodes_length_eq g hn
  unfold StructuredHypergraph.remove_redundant_hyperedges
  by_cases hbr : (StructuredHypergraph.desc_len_sorted g.flatten_nodes.hyperedges).length
      ≠ (StructuredHypergraph.keep_non_redundant
        (StructuredHypergraph.desc_len_sorted g.flatten_nodes.hyperedges)).length
  · rw [if_pos hbr]
    apply flatten_nodes_nodup
    · exact hFLnodup
    · exact hKw
    · show Bitset128.len _ ≤ g.flatten_nodes.nodes.length
      rw [hKfold, hFLlen, len_two_pow_sub_one hU128]
    · intro t ht
      show t < g.flatten_nodes.nodes.length
      rw [hKfold, Nat.testBit_two_pow_sub_one] at ht
      rw [hFLlen]
      exact of_decide_eq_true ht
  · rw [if_neg hbr]
    exact hFLnodup

theorem filter_length_one {α : Type _} : ∀ {l : List α} {P : α → Bool},
    l.Pairwise (fun a b => ¬(P a = true ∧ P b = true)) →
    (∃ a ∈ l, P a = true) → (l.filter P).length = 1 := by
  intro l
  induction l with
  | nil =>
    rintro P _ ⟨a, ha, _⟩
    exact absurd ha (List.not_mem_nil a)
  | cons a l ih =>
    intro P hpw hex
    rcases List.pairwise_cons.mp hpw with ⟨ha, hl⟩
    by_cases hPa : P a = true
    · rw [List.filter_cons_of_pos hPa]
      have hnone : l.filter P = [] := by
        apply List.filter_eq_nil.mpr
        intro b hb hPb
        exact ha b hb ⟨hPa, hPb⟩
      rw [hnone]
      rfl
    · rw [List.filter_cons_of_neg hPa]
      apply ih hl
      obtain ⟨b, hb, hPb⟩ := hex
      rcases List.mem_cons.mp hb with rfl | hb2
      · exact absurd hPb hPa
      · exact ⟨b, hb2, hPb⟩

theorem length_filter_map {α β : Type _} (f : α → β) (p : β → Bool) :
    ∀ l : List α, ((l.map f).filter p).length = (l.filter fun x => p (f x)).length := by
  intro l
  induction l with
  | nil => rfl
  | cons a l ih =>
    cases hp : p (f a) <;> simp [List.map_cons, List.filter_cons, hp, ih]

theorem get_parts_unique_node (g : StructuredHypergraph) (hnodup : g.nodes.Nodup)
    (h128 : g.nodes.length ≤ 128)
    (hE : ∀ e ∈ g.hyperedges, e < 2 ^ g.nodes.length)
    (hnz : ∀ e ∈ g.hyperedges, e ≠ 0)
    (hfold : g.hyperedges.foldl Bitset128.union 0 = 2 ^ g.nodes.length - 1) :
    ∀ v ∈ g.nodes,
      ((g.get_parts).filter fun h => decide (v ∈ h.nodes)).length = 1 := by
  have hw : ∀ e ∈ g.hyperedges, e < 2 ^ 128 :=
    fun e he => lt_of_lt_of_le (hE e he) (Nat.pow_le_pow_right (by omega) h128)
  intro v hv
  obtain ⟨rv, hrv, hrvval⟩ := List.getElem_of_mem hv
  unfold StructuredHypergraph.get_parts
  by_cases hc : (g.edge_buckets).length = 1
  · rw [if_pos hc]
    have hP : decide (v ∈ (SorterState.sort g).nodes) = true :=
      decide_eq_true ((sort_nodes_mem g v).mpr hv)
    have hfe : ([SorterState.sort g].filter fun h => decide (v ∈ h.nodes))
        = [SorterState.sort g] := by
      apply List.filter_eq_self.mpr
      intro a ha
      rw [List.mem_singleton.mp ha]
      exact hP
    rw [hfe]
    rfl
  · rw [if_neg hc]
    have hbinv := edge_buckets_inv g
    have hval : ∀ p ∈ g.edge_buckets, ∀ ei ∈ p.2, ei < g.hyperedges.length :=
      fun p hp ei hei => (hbinv.1 p hp ei hei).2
    have hsubmem : ∀ p ∈ g.edge_buckets,
        ∀ e ∈ p.2.map (fun ei => g.hyperedges.getD ei 0), e ∈ g.hyperedges := by
      intro p hp e he
      obtain ⟨i, hi, rfl⟩ := List.mem_map.mp he
      rw [List.getD_eq_getElem _ 0 (hval p hp i hi)]
      exact List.getElem_mem (hval p hp i hi)
    have hchar : ∀ p ∈ g.edge_buckets,
        (decide (v ∈ (SorterState.sort (StructuredHypergraph.flatten_nodes
          { hyperedges := p.2.map fun ei => g.hyperedges.getD ei 0
            nodes := g.nodes
            node_structure_partitions := []
            edge_structure_partitions := [] })).nodes) = true
        ↔ ((p.2.map fun ei => g.hyperedges.getD ei 0).foldl
            Bitset128.union 0).testBit rv = true) := by
      intro p hp
      have hsubw : ∀ e ∈ p.2.map (fun ei => g.hyperedges.getD ei 0), e < 2 ^ 128 :=
        fun e he => hw e (hsubmem p hp e he)
      have hsubE : ∀ e ∈ p.2.map (fun ei => g.hyperedges.getD ei 0),
          e < 2 ^ g.nodes.length := fun e he => hE e (hsubmem p hp e he)
      have hnle : Bitset128.len ((p.2.map fun ei => g.hyperedges.getD ei 0).foldl
          Bitset128.union 0) ≤ g.nodes.length :=
        len_le_of_lt_two_pow (foldl_union_lt_pow _ 0 (by positivity) hsubE)
      have hUsub : BSub ((p.2.map fun ei => g.hyperedges.getD ei 0).foldl
          Bitset128.union 0) (g.hyperedges.foldl Bitset128.union 0) :=
        foldl_union_bsub_all fun e he => bsub_foldl_union_mem (hsubmem p hp e he) 0
      rw [decide_eq_true_eq, sort_nodes_mem, flatten_nodes_mem _ hsubw hnle]
      constructor
      · rintro ⟨r, _, hrbit, hrval⟩
        have hrn : r < g.nodes.length := by
          have := hUsub r hrbit
          rw [hfold, Nat.testBit_two_pow_sub_one] at this
          exact of_decide_eq_true this
        have hreq : r = rv := by
          by_contra hne
          apply nodup_getElem_ne hnodup hrn hrv hne
          rw [← List.getD_eq_getElem g.nodes 0 hrn, ← List.getD_eq_getElem g.nodes 0 hrv,
            hrval, ← hrvval, List.getD_eq_getElem g.nodes 0 hrv]
        rw [← hreq]
        exact hrbit
      · intro hbit
        refine ⟨rv, by omega, hbit, ?_⟩
        rw [List.getD_eq_getElem g.nodes 0 hrv, hrvval]
    rw [length_filter_map]
    apply filter_length_one
    · have hdisj := bucket_union_disj g hw hnz
      rw [List.pairwise_map] at hdisj
      apply List.Pairwise.imp_of_mem ?_ (hdisj.and ?and2)
      case and2 =>
        exact hbinv.2
      intro p q hp hq hpq
      rintro ⟨hPp, hPq⟩
      rw [hchar p hp] at hPp
      rw [hchar q hq] at hPq
      have hz := land_eq_zero_iff.mp hpq.1 rv hPp
      rw [hPq] at hz
      exact absurd hz (by simp)
    · have hrvbit : (g.hyperedges.foldl Bitset128.union 0).testBit rv = true := by
        rw [hfold, Nat.testBit_two_pow_sub_one]
        exact decide_eq_true hrv
      rw [testBit_foldl_union, Nat.zero_testBit, Bool.false_or] at hrvbit
      obtain ⟨e, he, hebit⟩ := List.any_eq_true.mp hrvbit
      obtain ⟨k, hk, hkq⟩ := List.getElem_of_mem he
      obtain ⟨p, hp, hkp⟩ := edge_buckets_complete g hk
      refine ⟨p, hp, ?_⟩
      rw [hchar p hp]
      have hmemp : e ∈ p.2.map (fun ei => g.hyperedges.getD ei 0) :=
        List.mem_map.mpr ⟨k, hkp, by rw [List.getD_eq_getElem _ 0 hk, hkq]⟩
      exact bsub_foldl_union_mem hmemp 0 rv hebit

theorem from_hyperedges_bit_lt (es : List Nat) (hw : ∀ e ∈ es, e < 2 ^ 128) :
    ∀ t, (es.foldl Bitset128.union 0).testBit t = true →
      t < (if (es.flatMap Bitset128.iter).isEmpty then 0
           else (es.flatMap Bitset128.iter).foldl Nat.max 0 + 1) := by
  intro t ht
  rw [testBit_foldl_union, Nat.zero_testBit, Bool.false_or] at ht
  obtain ⟨e, he, hbit⟩ := List.any_eq_true.mp ht
  have ht128 : t < 128 := by
    by_contra hge
    rw [testBit_ge_128 (hw e he) (by omega)] at hbit
    exact absurd hbit (by simp)
  have hmem : t ∈ es.flatMap Bitset128.iter :=
    List.mem_flatMap.mpr ⟨e, he, mem_iter.mpr ⟨ht128, hbit⟩⟩
  have hne : (es.flatMap Bitset128.iter).isEmpty = false := by
    cases hx : (es.flatMap Bitset128.iter).isEmpty with
    | false => rfl
    | true =>
      rw [List.isEmpty_iff] at hx
      rw [hx] at hmem
      exact absurd hmem (List.not_mem_nil t)
  rw [if_neg (by rw [hne]; simp)]
  have := (le_foldl_max (es.flatMap Bitset128.iter) 0).2 t hmem
  omega

/-- **C5.** Every position returned by `from_hyperedges` is connected:
any two of its vertices are linked by a chain of intersecting
hyperedges.  And every input vertex occurring in a retained
(non-redundant, non-empty) edge — exactly the vertices listed in the
node list of `remove_redundant_hyperedges` — appears in the node list of
exactly one returned component. -/
theorem c5_components_connected (es : List Nat) (hw : ∀ e ∈ es, e < 2 ^ 128) :
    (∀ h ∈ StructuredHypergraph.from_hyperedges es, ∀ x y,
      x < h.nr_nodes → y < h.nr_nodes → linked h.hyperedges x y) ∧
    (∀ v ∈ ({ hyperedges := es
              nodes := List.range (if (es.flatMap Bitset128.iter).isEmpty then 0
                else (es.flatMap Bitset128.iter).foldl Nat.max 0 + 1)
              node_structure_partitions := []
              edge_structure_partitions := [] } :
            StructuredHypergraph).remove_redundant_hyperedges.nodes,
      ((StructuredHypergraph.from_hyperedges es).filter
        fun h => decide (v ∈ h.nodes)).length = 1) := by
  have hn0 : Bitset128.len (es.foldl Bitset128.union 0)
      ≤ (List.range (if (es.flatMap Bitset128.iter).isEmpty then 0
          else (es.flatMap Bitset128.iter).foldl Nat.max 0 + 1)).length := by
    rw [List.length_range]
    exact from_hyperedges_max_bound es hw
  have hbit0 : ∀ t, (es.foldl Bitset128.union 0).testBit t = true →
      t < (List.range (if (es.flatMap Bitset128.iter).isEmpty then 0
          else (es.flatMap Bitset128.iter).foldl Nat.max 0 + 1)).length := by
    rw [List.length_range]
    exact from_hyperedges_bit_lt es hw
  constructor
  · exact fun h hh x y hx hy => from_hyperedges_connected es hw h hh x y hx hy
  · intro v hv
    obtain ⟨h1, h2, _, h4⟩ := remove_redundant_good
      { hyperedges := es
        nodes := List.range (if (es.flatMap Bitset128.iter).isEmpty then 0
          else (es.flatMap Bitset128.iter).foldl Nat.max 0 + 1)
        node_structure_partitions := []
        edge_structure_partitions := [] } hw hn0
    have hsup := remove_redundant_support
      { hyperedges := es
        nodes := List.range (if (es.flatMap Bitset128.iter).isEmpty then 0
          else (es.flatMap Bitset128.iter).foldl Nat.max 0 + 1)
        node_structure_partitions := []
        edge_structure_partitions := [] } hw hn0
    have hnodupR := remove_redundant_nodes_nodup
      { hyperedges := es
        nodes := List.range (if (es.flatMap Bitset128.iter).isEmpty then 0
          else (es.flatMap Bitset128.iter).foldl Nat.max 0 + 1)
        node_structure_partitions := []
        edge_structure_partitions := [] } (List.nodup_range _) hw hn0 hbit0
    exact get_parts_unique_node _ hnodupR h1 h2 h4 hsup v hv

theorem c5_components_connected_witness :
    (∀ e ∈ ([6, 3] : List Nat), e < 2 ^ 128) ∧
    StructuredHypergraph.mk [6, 5] [0, 2, 1] [0, 2, 3] [0, 2]
      ∈ StructuredHypergraph.from_hyperedges [6, 3] ∧
    linked (StructuredHypergraph.mk [6, 5] [0, 2, 1] [0, 2, 3] [0, 2]).hyperedges 0 1 ∧
    ((StructuredHypergraph.from_hyperedges [6, 3]).filter
      fun h => decide (1 ∈ h.nodes)).length = 1 :=
  ⟨by decide, by decide,
    (c5_components_connected [6, 3] (by decide)).1
      (StructuredHypergraph.mk [6, 5] [0, 2, 1] [0, 2, 3] [0, 2]) (by decide)
      0 1 (by decide) (by decide),
    (c5_components_connected [6, 3] (by decide)).2 1 (by decide)⟩


/-! ## Claim C1: the move generator misses Grundy values

The position below (the single component the pipeline produces from the
input `[[2,1,0,4],[3,0,4],[0,3],[3,1,2]]`) has a legal removal of value 0,
but none of the split moves enumerated by `get_split_moves` has value 0:
the structural node classes used to pick representatives are finer-grained
than the game's true symmetries. -/

/-- Value table backing claim C1 (checked by the kernel below). -/
def c1_table : List ((List Bits × Nat) × Nat) := [
  (([1], 1), 1), (([3], 2), 2), (([7], 3), 3), (([6, 5, 3], 3), 0),
  (([3, 14, 13], 4), 4), (([15], 4), 4)]

/-- The component produced from `[[2,1,0,4],[3,0,4],[0,3],[3,1,2]]`. -/
def c1cex : TakingGame := ⟨⟨[25, 7, 30], [3, 1, 2, 0, 4], [0, 1, 5], [0, 2, 3]⟩⟩

/-- C1: the spec claims the split moves produced by `get_split_moves` reach
every Grundy value reachable by a legal move.  At the position built from
`[[2,1,0,4],[3,0,4],[0,3],[3,1,2]]` the legal removal `{2,4}` (mask 20)
leads to a state of Grundy value 0, yet no enumerated split move leads to
a state of value 0 — so a P-position reachable in one move is invisible to
the engine. -/
theorem c1_split_moves_miss_value :
    TakingGame.from_hyperesges [[2, 1, 0, 4], [3, 0, 4], [0, 3], [3, 1, 2]] = [c1cex] ∧
    (20 ∈ legal_removals c1cex ∧ HasValS (c1cex.with_nodes_removed 20) 0) ∧
    ∀ s ∈ TakingGame.get_split_moves c1cex, ¬ HasValS s 0 := by
  have hck : check_table c1_table = true := by decide
  have hwnr : c1cex.with_nodes_removed 20
      = [⟨⟨[6, 5, 3], [1, 0, 3], [0, 3], [0, 3]⟩⟩] := by decide
  have hsplit : TakingGame.get_split_moves c1cex = [
      [⟨⟨[3, 14, 13], [4, 3, 1, 2], [0, 2, 4], [0, 1, 3]⟩⟩],
      [⟨⟨[7], [3, 1, 2], [0, 3], [0, 1]⟩⟩],
      [⟨⟨[15], [1, 2, 0, 4], [0, 4], [0, 1]⟩⟩],
      [⟨⟨[7], [1, 2, 4], [0, 3], [0, 1]⟩⟩],
      [⟨⟨[3], [1, 2], [0, 2], [0, 1]⟩⟩],
      [⟨⟨[3], [3, 4], [0, 2], [0, 1]⟩⟩],
      [⟨⟨[7], [3, 0, 4], [0, 3], [0, 1]⟩⟩],
      [⟨⟨[3, 14, 13], [2, 3, 0, 4], [0, 2, 4], [0, 1, 3]⟩⟩],
      [⟨⟨[1], [3], [0, 1], [0, 1]⟩⟩]] := by decide
  refine ⟨by decide, ⟨by decide, ?_⟩, ?_⟩
  · rw [hwnr]
    exact hasValS_singleton
      (hasValC_of_table c1_table (([6, 5, 3], 3), 0) _ hck (by decide) rfl rfl)
  · intro s hs h0
    rw [hsplit] at hs
    simp only [List.mem_cons, List.not_mem_nil, or_false] at hs
    rcases hs with rfl | rfl | rfl | rfl | rfl | rfl | rfl | rfl | rfl
    · exact absurd (hasValS_unique h0 (hasValS_singleton
        (hasValC_of_table c1_table (([3, 14, 13], 4), 4) _ hck (by decide) rfl rfl))) (by decide)
    · exact absurd (hasValS_unique h0 (hasValS_singleton
        (hasValC_of_table c1_table (([7], 3), 3) _ hck (by decide) rfl rfl))) (by decide)
    · exact absurd (hasValS_unique h0 (hasValS_singleton
        (hasValC_of_table c1_table (([15], 4), 4) _ hck (by decide) rfl rfl))) (by decide)
    · exact absurd (hasValS_unique h0 (hasValS_singleton
        (hasValC_of_table c1_table (([7], 3), 3) _ hck (by decide) rfl rfl))) (by decide)
    · exact absurd (hasValS_unique h0 (hasValS_singleton
        (hasValC_of_table c1_table (([3], 2), 2) _ hck (by decide) rfl rfl))) (by decide)
    · exact absurd (hasValS_unique h0 (hasValS_singleton
        (hasValC_of_table c1_table (([3], 2), 2) _ hck (by decide) rfl rfl))) (by decide)
    · exact absurd (hasValS_unique h0 (hasValS_singleton
        (hasValC_of_table c1_table (([7], 3), 3) _ hck (by decide) rfl rfl))) (by decide)
    · exact absurd (hasValS_unique h0 (hasValS_singleton
        (hasValC_of_table c1_table (([3, 14, 13], 4), 4) _ hck (by decide) rfl rfl))) (by decide)
    · exact absurd (hasValS_unique h0 (hasValS_singleton
        (hasValC_of_table c1_table (([1], 1), 1) _ hck (by decide) rfl rfl))) (by decide)

/-! ## Claim C3: a found "symmetry" does not certify value 0

The pipeline output of `[[0,2],[3,5],[2,3,4],[2,1,0],[5,4,1],[0,5,3]]` is a
single component for which `find_symmetry` returns a pairing, but the
position's Sprague–Grundy value is 2, not 0: the candidate filter never
checks that the pairing maps hyperedges to hyperedges. -/

/-- Value table backing claim C3 (checked by the kernel below). -/
def c3_table : List ((List Bits × Nat) × Nat) := [
  (([1], 1), 1), (([3], 2), 2), (([6, 5, 3], 3), 0), (([6, 5], 3), 3),
  (([7], 3), 3), (([7, 12, 10], 4), 4), (([12, 10, 5, 3], 4), 0),
  (([10, 5, 28, 19], 5), 1), (([52, 42, 25, 7], 6), 2)]

/-- The component produced from `[[0,2],[3,5],[2,3,4],[2,1,0],[5,4,1],[0,5,3]]`. -/
def c3cex : TakingGame := ⟨⟨[52, 42, 25, 7], [5, 0, 3, 1, 4, 2], [0, 6], [0, 4]⟩⟩

/-- C3: the spec claims that whenever `find_symmetry` reports a pairing the
position's Grundy value is 0 (so `get_max_nimber` may answer `Some(0)`).
On the component built from `[[0,2],[3,5],[2,3,4],[2,1,0],[5,4,1],[0,5,3]]`,
`find_symmetry` returns the pairing `[5,4,3,2,1,0]` and `get_max_nimber`
answers `some 0`, yet the position's Sprague–Grundy value is 2 — in
particular it is not 0. -/
theorem c3_symmetry_unsound :
    TakingGame.from_hyperesges [[0, 2], [3, 5], [2, 3, 4], [2, 1, 0], [5, 4, 1], [0, 5, 3]]
      = [c3cex] ∧
    TakingGame.find_symmetry c3cex = some [5, 4, 3, 2, 1, 0] ∧
    TakingGame.get_max_nimber c3cex = some 0 ∧
    HasValC c3cex 2 ∧ ¬ HasValC c3cex 0 := by
  have hck : check_table c3_table = true := by decide
  have h2 : HasValC c3cex 2 :=
    hasValC_of_table c3_table (([52, 42, 25, 7], 6), 2) c3cex hck (by decide) rfl rfl
  exact ⟨by decide, by decide, by decide, h2,
    fun h0 => absurd (hasValC_unique h0 h2) (by decide)⟩

/-! ## Claim C9: out-of-range indices are silently wrapped, never rejected

The code base has no error type at all: `from_hyperesges` returns a plain
`Vec<Self>`.  The release-mode shift in `Bitset128::insert` masks the index
to 7 bits, so every input behaves exactly like its index-wise `% 128`
reduction. -/

/-- Inserting elements modulo 128 is the same as inserting them directly:
the shift in `Bitset128::insert` already masks. -/
theorem from_slice_mod_aux (l : List Nat) : ∀ b : Bits,
    l.foldl (fun acc x => Bitset128.insert acc (x % 128)) b = l.foldl Bitset128.insert b := by
  induction l with
  | nil => intro b; rfl
  | cons x xs ih =>
    intro b
    have hx : Bitset128.insert b (x % 128) = Bitset128.insert b x := by
      unfold Bitset128.insert
      have h : x % 128 % 128 = x % 128 := by omega
      rw [h]
    simp only [List.foldl_cons, hx, ih]

theorem from_slice_mod (l : List Nat) :
    Bitset128.from_slice (l.map fun x => x % 128) = Bitset128.from_slice l := by
  unfold Bitset128.from_slice
  rw [List.foldl_map]
  exact from_slice_mod_aux l 0

/-- C9: the spec claims any input mentioning a vertex index `≥ 128` fails
with *TooLarge*.  Instead, construction succeeds — `[[128]]` yields the
same single position as `[[0]]` — and in general every input behaves
exactly like its index-wise `% 128` reduction: indices are silently
wrapped, and no error value exists anywhere in the construction. -/
theorem c9_no_toolarge_silent_wrap :
    TakingGame.from_hyperesges [[128]] = TakingGame.from_hyperesges [[0]] ∧
    (TakingGame.from_hyperesges [[128]]).length = 1 ∧
    ∀ edges : List (List Nat),
      TakingGame.from_hyperesges (edges.map (List.map fun x => x % 128))
        = TakingGame.from_hyperesges edges := by
  refine ⟨by decide, by decide, fun edges => ?_⟩
  have key : (edges.map (List.map fun x => x % 128)).map Bitset128.from_slice
      = edges.map Bitset128.from_slice := by
    rw [List.map_map]
    apply List.map_congr_left
    intro l _
    exact from_slice_mod l
  unfold TakingGame.from_hyperesges
  rw [key]

/-! ## Claim C2: canonicalization is not a normal form

Reordering the edges of the input — with the identity relabeling — can
already change the canonical output. -/

/-- C2 counterexample: the two inputs are permutations of one another
(identity vertex relabeling, edges 1 and 2 swapped), yet the pipeline
returns single components with different canonical hyperedge lists, so the
output multisets of positions differ. -/
theorem c2_counterexample :
    ([[1, 5, 2], [4, 3, 2], [0, 5, 1], [3, 0, 4]] : List (List Nat)).Perm
      [[1, 5, 2], [0, 5, 1], [4, 3, 2], [3, 0, 4]] ∧
    ((TakingGame.from_hyperesges [[1, 5, 2], [4, 3, 2], [0, 5, 1], [3, 0, 4]]).map fun g =>
      g.graph.hyperedges) = [[56, 38, 25, 7]] ∧
    ((TakingGame.from_hyperesges [[1, 5, 2], [0, 5, 1], [4, 3, 2], [3, 0, 4]]).map fun g =>
      g.graph.hyperedges) = [[56, 52, 11, 7]] ∧
    ¬ (TakingGame.from_hyperesges [[1, 5, 2], [4, 3, 2], [0, 5, 1], [3, 0, 4]]).Perm
      (TakingGame.from_hyperesges [[1, 5, 2], [0, 5, 1], [4, 3, 2], [3, 0, 4]]) := by
  decide

/-! ## Claim C8: the split-move count -/

/-- Every block of a partitioned 128-bit pattern is bounded by the
pattern. -/
theorem partition_mem_lt {e : Nat} (he : e < 2 ^ 128) (parts : List (Nat × Nat)) :
    ∀ p ∈ Bitset128.partition e parts, p < 2 ^ 128 := by
  intro p hp
  obtain ⟨w, _, hpw⟩ := List.mem_map.mp hp
  subst hpw
  exact lt_of_le_of_lt (Nat.and_le_left ..) he

/-- C8: `get_split_moves` walks one representative edge — the block start —
per edge-partition block, and for (any) edge index `h` the emitted successor
count is the product over the partitioned blocks of (block popcount + 1),
minus one for the excluded do-nothing combination. -/
theorem c8_split_move_count (g : TakingGame)
    (hw : ∀ e ∈ g.graph.hyperedges, e < 2 ^ 128) :
    (g.graph.is_empty = false →
      TakingGame.get_split_moves g
        = g.graph.get_edge_partitions.flatMap fun p => g.get_moves_of_edge p.1) ∧
    (g.graph.is_empty = false →
      (TakingGame.get_split_moves g).length
        = (g.graph.get_edge_partitions.map fun p => (g.get_moves_of_edge p.1).length).sum) ∧
    ∀ h : Nat, (TakingGame.get_moves_of_edge g h).length
      = ((Bitset128.partition (g.graph.hyperedges.getD h 0) g.graph.get_node_partitions).map
          fun p => Bitset128.len p + 1).prod - 1 := by
  have hflat : g.graph.is_empty = false →
      TakingGame.get_split_moves g
        = g.graph.get_edge_partitions.flatMap fun p => g.get_moves_of_edge p.1 := by
    intro hne
    unfold TakingGame.get_split_moves
    simp [hne]
  refine ⟨hflat, ?_, ?_⟩
  · intro hne
    rw [hflat hne, List.length_flatMap]
    rfl
  · intro h
    have he : g.graph.hyperedges.getD h 0 < 2 ^ 128 := by
      by_cases hh : h < g.graph.hyperedges.length
      · rw [List.getD_eq_getElem g.graph.hyperedges 0 hh]
        exact hw _ (List.getElem_mem hh)
      · rw [List.getD_eq_default g.graph.hyperedges 0 (by omega)]
        exact Nat.pos_pow_of_pos 128 (by omega)
    unfold TakingGame.get_moves_of_edge
    simp only [List.length_map, List.length_drop]
    rw [mcp_length, List.map_map]
    have hmap : (Bitset128.partition (g.graph.hyperedges.getD h 0)
          g.graph.get_node_partitions).map (List.length ∘ TakingGame.removal_choices)
        = (Bitset128.partition (g.graph.hyperedges.getD h 0)
          g.graph.get_node_partitions).map fun p => Bitset128.len p + 1 := by
      apply List.map_congr_left
      intro p hp
      exact removal_choices_length (partition_mem_lt he _ p hp)
    rw [hmap]

/-- C8 instantiated: the one-edge position `{0,1}` has one edge-partition
block with representative edge 0 and `(2 + 1) - 1 = 2` split moves. -/
theorem c8_split_move_count_witness :
    (TakingGame.get_split_moves ⟨⟨[3], [0, 1], [0, 2], [0, 1]⟩⟩
      = (StructuredHypergraph.get_edge_partitions ⟨[3], [0, 1], [0, 2], [0, 1]⟩).flatMap
        fun p => TakingGame.get_moves_of_edge ⟨⟨[3], [0, 1], [0, 2], [0, 1]⟩⟩ p.1) ∧
    (TakingGame.get_moves_of_edge ⟨⟨[3], [0, 1], [0, 2], [0, 1]⟩⟩ 0).length
      = ((Bitset128.partition 3
          (StructuredHypergraph.get_node_partitions ⟨[3], [0, 1], [0, 2], [0, 1]⟩)).map
          fun p => Bitset128.len p + 1).prod - 1 := by
  have h := c8_split_move_count ⟨⟨[3], [0, 1], [0, 2], [0, 1]⟩⟩ (by decide)
  exact ⟨h.1 (by decide), h.2.2 0⟩

/-! ## Claim C4: the reported pairing is a fixed-point-free involution

The backtracking search only ever extends a partial map by a mutually
unmatched, distinct pair whose members share no hyperedge, so any
completed map it returns is an involution with the claimed properties. -/

/-- `contains` is `testBit` at the masked index. -/
theorem contains_eq_testBit (b v : Nat) : Bitset128.contains b v = b.testBit (v % 128) := by
  unfold Bitset128.contains
  rw [Nat.testBit_to_div_mod, Nat.shiftRight_eq_div_pow, Nat.and_one_is_mod]
  rfl

/-! ## The backtracking invariant -/

/-- Invariant of the symmetry search: the partial map is a fixed-point-free
partial involution no pair of which shares a hyperedge. -/
def SymInv (g : TakingGame) (s : List (Option Nat)) : Prop :=
  ∀ i j : Nat, s.get? i = some (some j) →
    j < s.length ∧ i ≠ j ∧ s.get? j = some (some i) ∧
    ∀ e ∈ g.graph.hyperedges, e.testBit i = true → e.testBit j = false

/-- Every hyperedge containing a node is a sub-pattern of the node's
neighbourhood. -/
theorem nbhd_superset (g : TakingGame) {node : Nat} (hnode : node < g.graph.nr_nodes)
    (hn128 : node < 128) {e : Bits} (he : e ∈ g.graph.hyperedges)
    (hbit : e.testBit node = true) :
    BSub e ((TakingGame.get_neighbourhoods g).getD node 0) := by
  have hget : (TakingGame.get_neighbourhoods g).getD node 0
      = ((g.graph.dual.getD node []).foldl
        (fun acc e => Bitset128.union acc (g.graph.hyperedges.getD e 0)) 0) := by
    unfold TakingGame.get_neighbourhoods
    rw [List.getD_eq_getElem _ _ (by rw [List.length_map, List.length_range]; exact hnode)]
    rw [List.getElem_map, List.getElem_range]
  rw [hget]
  obtain ⟨idx, hidx, hgetidx⟩ := List.getElem_of_mem he
  have hidxmem : idx ∈ g.graph.dual.getD node [] := by
    have hdget : g.graph.dual.getD node [] = (List.range g.graph.hyperedges.length).filter
        fun i => Bitset128.contains (g.graph.hyperedges.getD i 0) node := by
      unfold StructuredHypergraph.dual
      rw [List.getD_eq_getElem _ _ (by rw [List.length_map, List.length_range]; exact hnode)]
      rw [List.getElem_map, List.getElem_range]
    rw [hdget, List.mem_filter, List.mem_range]
    refine ⟨hidx, ?_⟩
    rw [contains_eq_testBit, Nat.mod_eq_of_lt hn128]
    rw [List.getD_eq_getElem _ _ hidx, hgetidx]
    exact hbit
  intro i hi
  have hfold : (g.graph.dual.getD node []).foldl
      (fun acc e => Bitset128.union acc (g.graph.hyperedges.getD e 0)) 0
      = ((g.graph.dual.getD node []).map fun e => g.graph.hyperedges.getD e 0).foldl
        Bitset128.union 0 := (List.foldl_map _ _ _ _).symm
  rw [hfold, testBit_foldl_union]
  have hany : (((g.graph.dual.getD node []).map fun e => g.graph.hyperedges.getD e 0).any
      fun x => x.testBit i) = true := by
    refine List.any_eq_true.mpr ⟨g.graph.hyperedges.getD idx 0, List.mem_map_of_mem _ hidxmem, ?_⟩
    rw [List.getD_eq_getElem _ _ hidx, hgetidx]
    exact hi
  rw [hany]
  simp

/-- What a successful `is_valid_match` guarantees. -/
theorem is_valid_match_spec {g : TakingGame} {node cand : Nat} {s : List (Option Nat)}
    (h : TakingGame.is_valid_match node cand s (TakingGame.get_neighbourhoods g) = true)
    (hlen : s.length = g.graph.nr_nodes) (hn : g.graph.nr_nodes ≤ 128)
    (hnode : node < s.length) :
    node ≠ cand ∧ cand < s.length ∧ s.get? cand = some none ∧
    ∀ e ∈ g.graph.hyperedges, e.testBit node = true → e.testBit cand = false := by
  unfold TakingGame.is_valid_match at h
  by_cases h1 : (node == cand || (s.getD cand (some 0)).isSome) = true
  · rw [if_pos h1] at h
    exact absurd h (by simp)
  rw [if_neg h1] at h
  have h1' : node ≠ cand ∧ (s.getD cand (some 0)).isSome = false := by
    rw [Bool.or_eq_true] at h1
    push_neg at h1
    refine ⟨fun heq => h1.1 (by rw [heq]; simp), ?_⟩
    cases hx : (s.getD cand (some 0)).isSome
    · rfl
    · exact absurd hx h1.2
  have hcand : cand < s.length ∧ s.get? cand = some none := by
    have hgd : s.getD cand (some 0) = (s.get? cand).getD (some 0) :=
      List.getD_eq_getD_get? s (some 0) cand
    by_cases hc : cand < s.length
    · refine ⟨hc, ?_⟩
      cases hval : s.get? cand with
      | none =>
        rw [List.get?_eq_none] at hval
        omega
      | some v =>
        cases v with
        | none => rfl
        | some k =>
          rw [hgd, hval] at h1'
          exact absurd h1'.2 (by simp)
    · rw [List.get?_eq_none.mpr (by omega)] at hgd
      rw [hgd] at h1'
      exact absurd h1'.2 (by simp)
  by_cases h2 : Bitset128.contains ((TakingGame.get_neighbourhoods g).getD node 0) cand = true
  · rw [if_pos h2] at h
    exact absurd h (by simp)
  rw [if_neg h2] at h
  refine ⟨h1'.1, hcand.1, hcand.2, ?_⟩
  intro e he hbit
  have hnb := nbhd_superset g (hlen ▸ hnode) (by omega) he hbit
  cases hec : e.testBit cand
  · rfl
  · exfalso
    apply h2
    rw [contains_eq_testBit, Nat.mod_eq_of_lt (by omega : cand < 128)]
    exact hnb cand hec

/-- The invariant survives one pairing step of the search. -/
theorem symInv_step {g : TakingGame} {s : List (Option Nat)} (hinv : SymInv g s)
    {node cand : Nat} (hnode : s.get? node = some none)
    (hv : TakingGame.is_valid_match node cand s (TakingGame.get_neighbourhoods g) = true)
    (hlen : s.length = g.graph.nr_nodes) (hn : g.graph.nr_nodes ≤ 128) :
    SymInv g ((s.set node (some cand)).set cand (some node)) ∧
    ((s.set node (some cand)).set cand (some node)).length = s.length := by
  have hnodelt : node < s.length := by
    by_contra hge
    rw [List.get?_eq_none.mpr (by omega)] at hnode
    exact absurd hnode (by simp)
  obtain ⟨hne, hcandlt, hcget, hedge⟩ := is_valid_match_spec hv hlen hn hnodelt
  have hlen' : ((s.set node (some cand)).set cand (some node)).length = s.length := by
    rw [List.length_set, List.length_set]
  refine ⟨?_, hlen'⟩
  intro i j hij
  have hget : ∀ k : Nat, ((s.set node (some cand)).set cand (some node)).get? k
      = if k = cand then some (some node) else if k = node then some (some cand)
        else s.get? k := by
    intro k
    by_cases hkc : k = cand
    · subst hkc
      rw [if_pos rfl, List.get?_set_eq, List.get?_eq_some.mpr ⟨by rw [List.length_set]; exact hcandlt, rfl⟩]
      simp
    · rw [if_neg hkc, List.get?_set_ne _ _ (fun h => hkc h.symm)]
      by_cases hkn : k = node
      · subst hkn
        rw [if_pos rfl, List.get?_set_eq, List.get?_eq_some.mpr ⟨hnodelt, rfl⟩]
        simp
      · rw [if_neg hkn, List.get?_set_ne _ _ (fun h => hkn h.symm)]
  rw [hget i] at hij
  have hedge' : ∀ e ∈ g.graph.hyperedges, e.testBit cand = true → e.testBit node = false := by
    intro e he hb
    cases hx : e.testBit node
    · rfl
    · rw [hedge e he hx] at hb
      exact absurd hb (by simp)
  by_cases hic : i = cand
  · rw [if_pos hic] at hij
    injection hij with h1
    injection h1 with h2
    refine ⟨?_, ?_, ?_, ?_⟩
    · rw [hlen', ← h2]; exact hnodelt
    · rw [hic, ← h2]; exact fun h => hne h.symm
    · rw [← h2, hget node, if_neg hne, if_pos rfl, hic]
    · rw [hic, ← h2]; exact hedge'
  · rw [if_neg hic] at hij
    by_cases hin : i = node
    · rw [if_pos hin] at hij
      injection hij with h1
      injection h1 with h2
      refine ⟨?_, ?_, ?_, ?_⟩
      · rw [hlen', ← h2]; exact hcandlt
      · rw [hin, ← h2]; exact hne
      · rw [← h2, hget cand, if_pos rfl, hin]
      · rw [hin, ← h2]; exact hedge
    · rw [if_neg hin] at hij
      obtain ⟨hjlt, hijne, hji, hedg⟩ := hinv i j hij
      have hjnotnode : j ≠ node := by
        intro h
        rw [h, hnode] at hji
        exact absurd (Option.some_inj.mp hji) (by simp)
      have hjnotcand : j ≠ cand := by
        intro h
        rw [h, hcget] at hji
        exact absurd (Option.some_inj.mp hji) (by simp)
      refine ⟨hlen' ▸ hjlt, hijne, ?_, hedg⟩
      rw [hget j, if_neg hjnotcand, if_neg hjnotnode]
      exact hji

/-- What a completed search certifies. -/
def SymProps (g : TakingGame) (v : List Nat) : Prop :=
  v.length = g.graph.nr_nodes ∧
  ∀ i, i < g.graph.nr_nodes →
    v.getD i 0 < g.graph.nr_nodes ∧ v.getD i 0 ≠ i ∧ v.getD (v.getD i 0) 0 = i ∧
    ∀ e ∈ g.graph.hyperedges, e.testBit i = true → e.testBit (v.getD i 0) = false

theorem gen_sym_spec (g : TakingGame) : ∀ (fuel : Nat) (s : List (Option Nat)),
    SymInv g s → s.length = g.graph.nr_nodes → g.graph.nr_nodes ≤ 128 →
    ∀ {v : List Nat},
    TakingGame.generate_symmetry_from_sets_of_candidates g (TakingGame.get_neighbourhoods g)
      fuel s = some v → SymProps g v := by
  intro fuel
  induction fuel with
  | zero =>
    intro s _ _ _ v hv
    rw [TakingGame.generate_symmetry_from_sets_of_candidates] at hv
    exact absurd hv (by simp)
  | succ n ih =>
    intro s hinv hlen hn v hv
    rw [TakingGame.generate_symmetry_from_sets_of_candidates] at hv
    cases hfind : s.findIdx? Option.isNone with
    | some node =>
      rw [hfind] at hv
      obtain ⟨cand, hcmem, hcv⟩ := List.exists_of_findSome?_eq_some hv
      have hvalid : TakingGame.is_valid_match node cand s
          (TakingGame.get_neighbourhoods g) = true := by
        unfold TakingGame.find_valid_candidates at hcmem
        cases hp : (g.graph.get_node_partitions).find?
            (fun p => decide (p.1 ≤ node) && decide (node < p.2)) with
        | none => rw [hp] at hcmem; exact absurd hcmem (List.not_mem_nil cand)
        | some p =>
          rw [hp] at hcmem
          exact (List.mem_filter.mp hcmem).2
      have hnode : s.get? node = some none := by
        have h1 := List.findIdx?_eq_some_iff_findIdx_eq.mp hfind
        have hlt : node < s.length := h1.1
        have h2 := List.findIdx_eq hlt |>.mp h1.2
        have h3 : Option.isNone s[node] = true := h2.1
        rw [List.get?_eq_getElem?, List.getElem?_eq_getElem hlt]
        cases hx : s[node] with
        | none => rfl
        | some k => rw [hx] at h3; exact absurd h3 (by simp)
      obtain ⟨hinv', hlen'⟩ := symInv_step hinv hnode hvalid hlen hn
      exact ih _ hinv' (by omega) hn hcv
    | none =>
      rw [hfind] at hv
      have hall : ∀ x ∈ s, x.isNone = false := by
        have := List.findIdx?_eq_none_iff.mp hfind
        intro x hx
        have := this x hx
        cases hy : x.isNone
        · rfl
        · rw [hy] at this; exact absurd this (by simp)
      have hv' : v = s.map fun x => x.getD 0 := (Option.some_inj.mp hv).symm
      subst hv'
      constructor
      · rw [List.length_map]; exact hlen
      · intro i hi
        have hilt : i < s.length := by omega
        cases hx : s.get? i with
        | none =>
          rw [List.get?_eq_none] at hx
          omega
        | some x =>
          cases x with
          | none =>
            have hmem : (none : Option Nat) ∈ s := List.get?_mem hx
            have := hall none hmem
            exact absurd this (by simp)
          | some j =>
            obtain ⟨hjlt, hijne, hji, hedg⟩ := hinv i j hx
            have hgi : (s.map fun x => x.getD 0).getD i 0 = j := by
              rw [List.getD_eq_getElem _ _ (by rw [List.length_map]; exact hilt)]
              rw [List.getElem_map]
              have : s[i] = some j := by
                rw [List.get?_eq_getElem?, List.getElem?_eq_getElem hilt] at hx
                exact Option.some_inj.mp hx
              rw [this]
              rfl
            have hgj : (s.map fun x => x.getD 0).getD j 0 = i := by
              rw [List.getD_eq_getElem _ _ (by rw [List.length_map]; exact hjlt)]
              rw [List.getElem_map]
              have : s[j] = some i := by
                rw [List.get?_eq_getElem?, List.getElem?_eq_getElem hjlt] at hji
                exact Option.some_inj.mp hji
              rw [this]
              rfl
            rw [hgi]
            refine ⟨by omega, fun h => hijne h.symm, by rw [hgj], hedg⟩

/-- The all-unmatched initial map satisfies the invariant. -/
theorem replicate_symInv (g : TakingGame) (n : Nat) : SymInv g (List.replicate n none) := by
  intro i j hij
  have hrep : (List.replicate n (none : Option Nat)).get? i
      = if i < n then some none else none := by
    by_cases h : i < n
    · rw [if_pos h, List.get?_eq_getElem?,
        List.getElem?_eq_getElem (by rwa [List.length_replicate]), List.getElem_replicate]
    · rw [if_neg h, List.get?_eq_none, List.length_replicate]
      omega
  rw [hrep] at hij
  by_cases h : i < n
  · rw [if_pos h] at hij
    exact absurd (Option.some_inj.mp hij) (by simp)
  · rw [if_neg h] at hij
    exact absurd hij (by simp)

/-- C4: a pairing reported by `find_symmetry` is a fixed-point-free
involution on the node indices that never maps a node into one of its own
hyperedges. -/
theorem c4_symmetry_involution (g : TakingGame) (v : List Nat)
    (hn : g.graph.nr_nodes ≤ 128) (hfs : TakingGame.find_symmetry g = some v) :
    v.length = g.graph.nr_nodes ∧
    ∀ i, i < g.graph.nr_nodes →
      v.getD i 0 < g.graph.nr_nodes ∧ v.getD i 0 ≠ i ∧ v.getD (v.getD i 0) 0 = i ∧
      ∀ e ∈ g.graph.hyperedges, e.testBit i = true → e.testBit (v.getD i 0) = false := by
  unfold TakingGame.find_symmetry at hfs
  by_cases hguard : (g.graph.nr_nodes % 2 == 0 && g.graph.hyperedges.length % 2 == 0
      && (g.graph.get_edge_partitions).all (fun p => (p.2 - p.1) % 2 == 0)
      && (g.graph.get_node_partitions).all (fun p => (p.2 - p.1) % 2 == 0)) = true
  · rw [if_pos hguard] at hfs
    have hprops := gen_sym_spec g (g.graph.nr_nodes + 1) (List.replicate g.graph.nr_nodes none)
      (replicate_symInv g _) (List.length_replicate _ _) hn hfs
    exact hprops
  · rw [if_neg hguard] at hfs
    exact absurd hfs (by simp)

theorem c4_symmetry_involution_witness :
    ([3, 2, 1, 0] : List Nat).length
      = (⟨⟨[12, 10, 5, 3], [3, 0, 2, 1], [0, 4], [0, 4]⟩⟩ : TakingGame).graph.nr_nodes ∧
    ∀ i, i < (⟨⟨[12, 10, 5, 3], [3, 0, 2, 1], [0, 4], [0, 4]⟩⟩ : TakingGame).graph.nr_nodes →
      ([3, 2, 1, 0] : List Nat).getD i 0
          < (⟨⟨[12, 10, 5, 3], [3, 0, 2, 1], [0, 4], [0, 4]⟩⟩ : TakingGame).graph.nr_nodes ∧
        ([3, 2, 1, 0] : List Nat).getD i 0 ≠ i ∧
        ([3, 2, 1, 0] : List Nat).getD (([3, 2, 1, 0] : List Nat).getD i 0) 0 = i ∧
        ∀ e ∈ (⟨⟨[12, 10, 5, 3], [3, 0, 2, 1], [0, 4], [0, 4]⟩⟩ : TakingGame).graph.hyperedges,
          e.testBit i = true → e.testBit (([3, 2, 1, 0] : List Nat).getD i 0) = false :=
  c4_symmetry_involution ⟨⟨[12, 10, 5, 3], [3, 0, 2, 1], [0, 4], [0, 4]⟩⟩ [3, 2, 1, 0]
    (by decide) (by decide)

end TakingGameProof
